import Mathlib

/-!
# Shared-memory command channel: ring, channel layout and host-pointer range tracking

A shallow embedding of `shared/rpc.h` (`TypedRing`, `CommandsChannel`, `ChannelClient`,
`ChannelServer`), of the range tracker of `icd/icd_level_zero.cpp`
(`IcdL0CommandList::registerMemoryToContainer`), of
`service/level_zero/ongoing_hostptr_copies_manager.cpp` and of the loop of
`icd/level_zero/logic/hostptr_copies_reader.cpp`, followed by the properties established
about them.

Conventions of the embedding.

* `OffsetWithinChannelT` (declared in `shared/control_messages.h`) is a signed 64-bit
  integer: the ring compares offsets against `static_cast<int64_t>(capacity)`.  Offsets are
  `Int`; every arithmetic result stored in an offset goes through `toInt64`.
* `size_t` / `uintptr_t` values are `Nat`; every arithmetic result goes through `toU64`
  or an explicit `% 2 ^ 64`.
* The ring's `data` pointer is the map from slot index to slot content, so that
  `data[i] = el` is `Function.update data i el`.
-/

set_option autoImplicit false

namespace Cal

namespace Rpc

/-- Value of an integer after truncation to a signed 64-bit integer
(`static_cast<int64_t>`, and the result of `int64_t` arithmetic). -/
def toInt64 (z : Int) : Int :=
  (z + 9223372036854775808) % 18446744073709551616 - 9223372036854775808

/-- Ring of `shared/rpc.h`: `TypedRing<DataType, OffsetType>` with `OffsetType = int64_t`.
`head` and `tail` are the values stored behind the `head` / `tail` pointers. -/
structure TypedRing (α : Type) where
  data : Int → α
  capacity : Nat
  head : Int
  tail : Int
  iteration : Nat

namespace TypedRing

variable {α : Type}

/-- `reset()`: stores 0 to head and tail. -/
def reset (r : TypedRing α) : TypedRing α :=
  { r with head := 0, tail := 0 }

/-- `peekHeadOffset()`. -/
def peekHeadOffset (r : TypedRing α) : Int := r.head

/-- `peekTailOffset()`. -/
def peekTailOffset (r : TypedRing α) : Int := r.tail

/-- `peekIteration()`. -/
def peekIteration (r : TypedRing α) : Nat := r.iteration

/-- `peekHead()`: the source returns `&data[head]`; this is the slot content read through
that pointer. -/
def peekHead (r : TypedRing α) : α := r.data r.peekHeadOffset

/-- `peekEmpty()`. -/
def peekEmpty (r : TypedRing α) : Bool := decide (r.peekHeadOffset = r.peekTailOffset)

/-- `getCapacity()`. -/
def getCapacity (r : TypedRing α) : Nat := r.capacity

/-- `pop()`: the returned flag and the ring afterwards. -/
def pop (r : TypedRing α) : Bool × TypedRing α :=
  if r.peekEmpty then
    (false, r)
  else
    let prevHead := r.peekHeadOffset
    let nextHead := if toInt64 (prevHead + 1) = toInt64 (r.capacity : Int) then 0
                    else toInt64 (prevHead + 1)
    (true, { r with head := nextHead })

/-- `push(el)`: the returned flag and the ring afterwards. -/
def push (r : TypedRing α) (el : α) : Bool × TypedRing α :=
  let tailSnapshot := r.peekTailOffset
  let headSnapshot := r.peekHeadOffset
  if tailSnapshot ≥ headSnapshot then
    if toInt64 (r.capacity : Int) > toInt64 (tailSnapshot + 1) then
      (true, { r with data := Function.update r.data tailSnapshot el,
                      tail := toInt64 (tailSnapshot + 1) })
    else
      if headSnapshot = 0 then
        (false, r)
      else
        (true, { r with data := Function.update r.data tailSnapshot el,
                        tail := 0,
                        iteration := (r.iteration + 1) % 18446744073709551616 })
  else
    if toInt64 (tailSnapshot + 1) < headSnapshot then
      (true, { r with data := Function.update r.data tailSnapshot el,
                      tail := toInt64 (tailSnapshot + 1) })
    else
      (false, r)

/-- One call made on a ring by its producer or its consumer. -/
inductive Op (α : Type) where
  | push (el : α) : Op α
  | pop : Op α

/-- The values given to `push`, in call order. -/
def pushedValues : List (Op α) → List α
  | [] => []
  | Op.push el :: ops => el :: pushedValues ops
  | Op.pop :: ops => pushedValues ops

/-- Number of `pop` calls. -/
def popCount : List (Op α) → Nat
  | [] => 0
  | Op.push _ :: ops => popCount ops
  | Op.pop :: ops => popCount ops + 1

/-- The values read through `peekHead()` immediately before each `pop()`, while the calls
`ops` run on the ring. -/
def popTrace : TypedRing α → List (Op α) → List α
  | _, [] => []
  | r, Op.push el :: ops => popTrace (r.push el).2 ops
  | r, Op.pop :: ops => r.peekHead :: popTrace r.pop.2 ops

/-- Full in the sense of the ring's data model: advancing the tail by one, with
wraparound, would make it equal to head. -/
def isFull (r : TypedRing α) : Prop := (r.tail + 1) % (r.capacity : Int) = r.head

instance decIsFull (r : TypedRing α) : Decidable r.isFull :=
  inferInstanceAs (Decidable ((r.tail + 1) % (r.capacity : Int) = r.head))

/-- No `push` of `ops` is attempted on a full ring and no `pop` on an empty one. -/
def neverOverruns : TypedRing α → List (Op α) → Prop
  | _, [] => True
  | r, Op.push el :: ops => ¬ r.isFull ∧ neverOverruns (r.push el).2 ops
  | r, Op.pop :: ops => r.peekEmpty = false ∧ neverOverruns r.pop.2 ops

instance decNeverOverruns : (r : TypedRing α) → (ops : List (Op α)) →
    Decidable (neverOverruns r ops)
  | _, [] => isTrue trivial
  | r, Op.push el :: ops =>
    @instDecidableAnd (¬ r.isFull) (neverOverruns (r.push el).2 ops) inferInstance
      (decNeverOverruns (r.push el).2 ops)
  | r, Op.pop :: ops =>
    @instDecidableAnd (r.peekEmpty = false) (neverOverruns r.pop.2 ops) inferInstance
      (decNeverOverruns r.pop.2 ops)

/-- States a ring goes through: `reset()` followed by any `push` and `pop` calls. -/
inductive Reachable : TypedRing α → Prop where
  | reset (r : TypedRing α) : Reachable r.reset
  | push (r : TypedRing α) (el : α) : Reachable r → Reachable (r.push el).2
  | pop (r : TypedRing α) : Reachable r → Reachable r.pop.2

/-- A ring whose capacity, seen as a signed offset, leaves room for no entry: it stays at
head = tail = 0. -/
def Degenerate (r : TypedRing α) : Prop :=
  r.head = 0 ∧ r.tail = 0 ∧ toInt64 (r.capacity : Int) ≤ 1

/-- A ring of 2^63 slots holding natural numbers, as `reset()` leaves it. -/
def ringHuge : TypedRing Nat :=
  { data := fun _ => 0, capacity := 9223372036854775808, head := 0, tail := 0, iteration := 0 }

/-- A ring of four slots holding natural numbers, used to instantiate the theorems. -/
def ring4 : TypedRing Nat :=
  { data := fun _ => 0, capacity := 4, head := 0, tail := 0, iteration := 0 }

/-- A ring of two slots holding natural numbers. -/
def ring2 : TypedRing Nat :=
  { data := fun _ => 0, capacity := 2, head := 0, tail := 0, iteration := 0 }

/-- The four-slot ring after three pushes, three pops and one more push: head = 3 and the
tail has wrapped to 0. -/
def ring4Wrapped : TypedRing Nat :=
  (((((ring4.reset.push 1).2.push 2).2.push 3).2.pop.2.pop.2.pop.2).push 4).2

/-- Consecutive `push` calls: the returned flags, in call order, and the ring afterwards. -/
def pushAll : TypedRing α → List α → List Bool × TypedRing α
  | r, [] => ([], r)
  | r, el :: els =>
    let p := r.push el
    let q := pushAll p.2 els
    (p.1 :: q.1, q.2)

/-- Next slot index after `h` in a ring of `cap` slots. -/
def nextIndex (cap : Nat) (h : Int) : Int := if h + 1 = (cap : Int) then 0 else h + 1

/-- Content of `n` consecutive slots starting at slot `h`, wrapping at `cap`. -/
def slotsFrom (data : Int → α) (cap : Nat) : Int → Nat → List α
  | _, 0 => []
  | h, n + 1 => data h :: slotsFrom data cap (nextIndex cap h) n

/-- Number of slots from index `h` up to index `t`, walking forward with wraparound. -/
def distance (cap : Nat) (h t : Int) : Nat :=
  if t ≥ h then (t - h).toNat else (t - h + (cap : Int)).toNat

/-- Number of entries between head and tail. -/
def count (r : TypedRing α) : Nat := distance r.capacity r.head r.tail

/-- The entries pushed and not yet popped, oldest first. -/
def pending (r : TypedRing α) : List α := slotsFrom r.data r.capacity r.head r.count

/-- Head and tail are slot indices and the capacity fits the signed offset type. -/
def InRange (r : TypedRing α) : Prop :=
  0 ≤ r.head ∧ r.head < (r.capacity : Int) ∧ 0 ≤ r.tail ∧ r.tail < (r.capacity : Int) ∧
    r.capacity < 9223372036854775808

instance decInRange (r : TypedRing α) : Decidable r.InRange :=
  inferInstanceAs (Decidable (0 ≤ r.head ∧ r.head < (r.capacity : Int) ∧ 0 ≤ r.tail ∧
    r.tail < (r.capacity : Int) ∧ r.capacity < 9223372036854775808))

end TypedRing

/-- `RingEntry` is two offsets within the channel. -/
def sizeofRingEntry : Nat := 16

/-- `CompletionStampT` is `uint32_t`. -/
def sizeofCompletionStampT : Nat := 4

/-- Modelled from the spec: `Cal::Rpc::MemChunk` (its header is not among the sources) is a
`{ pointer, byteCount }` pair, 16 bytes on the 64-bit target. -/
def sizeofMemChunk : Nat := 16

/-- Modelled from the spec: `sizeof(OffsetWithinChannelT)`, the size of a head or tail
counter; `OffsetWithinChannelT` (`shared/control_messages.h`, not among the sources) is a
64-bit integer. -/
def sizeofOffsetWithinChannelT : Nat := 8

/-- Modelled from the spec: `sizeof(sem_t)`, a constant of the platform's C library; 32
bytes on the 64-bit Linux target. -/
def sizeofSem : Nat := 32

/-- Value of an integer after conversion to `size_t` / `uintptr_t`. -/
def toU64 (z : Int) : Nat := (z % 18446744073709551616).toNat

/-- Modelled from the spec: `Cal::Messages::CommandsChannelLayout`
(`shared/control_messages.h` is not among the sources): the byte offsets and capacities of
the regions of a channel, as the fields `partition` assigns and `isInBounds` reads. -/
structure CommandsChannelLayout where
  ringHead : Int
  ringTail : Int
  semClient : Int
  semServer : Int
  ringStart : Int
  ringCapacity : Int
  completionStampsStart : Int
  completionStampsCapacity : Int
  hostptrCopiesRingHead : Int
  hostptrCopiesRingTail : Int
  hostptrCopiesRingStart : Int
  hostptrCopiesRingCapacity : Int
  heapStart : Int
  heapEnd : Int
deriving DecidableEq

/-- A `TypedRing` object as it lies over the mapped segment: local addresses of the slot
array and of the two counters, with the members `capacity` and `iteration`. -/
structure TypedRingRef where
  data : Nat
  capacity : Nat
  head : Nat
  tail : Nat
  iteration : Nat
deriving DecidableEq

/-- `TypedRing::reset()` through the pointers: stores 0 to `*head` and `*tail`.  `mem` maps a
local address to the offset word stored there. -/
def TypedRingRef.reset (r : TypedRingRef) (mem : Nat → Int) : Nat → Int :=
  Function.update (Function.update mem r.head 0) r.tail 0

end Rpc

namespace Utils

/-- Modelled from the spec: platform constant `Cal::Utils::cachelineSize` (`shared/utils.h`
is not among the sources). -/
def cachelineSize : Nat := 64

/-- Modelled from the spec: platform constant `Cal::Utils::pageSize4KB` (`shared/utils.h` is
not among the sources). -/
def pageSize4KB : Nat := 4096

/-- Modelled from the spec: `Cal::Utils::alignUpPow2<A>(x)` (`shared/utils.h` is not among
the sources): the least multiple of the power of two `A` that is not below `x`. -/
def alignUpPow2 (A x : Nat) : Nat := (x + (A - 1)) / A * A

/-- Modelled from the spec: `Cal::Utils::isAlignedPow2<A>(x)` (`shared/utils.h` is not among
the sources): `x` is a multiple of `A`. -/
def isAlignedPow2 (A x : Nat) : Bool := x % A == 0

/-- Modelled from the spec: `Cal::Utils::isAligned(x, alignment)` (`shared/utils.h` is not
among the sources): `x` is a multiple of `alignment`. -/
def isAligned (x alignment : Nat) : Bool := x % alignment == 0

/-- Modelled from the spec: `Cal::Utils::moveByBytes(ptr, offset)` (`shared/utils.h` is not
among the sources): the address `offset` bytes after `ptr`. -/
def moveByBytes (ptr : Nat) (offset : Int) : Nat :=
  Rpc.toU64 ((ptr : Int) + offset)

/-- Modelled from the spec: `Cal::Utils::AddressRange` (`shared/utils.h` is not among the
sources): a byte range given by its first address and the address past its last byte,
both `uintptr_t`. -/
structure AddressRange where
  start : Nat
  stop : Nat
deriving DecidableEq

/-- Modelled from the spec: `AddressRange::contains(rhs)`: the byte range of `rhs` lies
within this range. -/
def AddressRange.contains (a rhs : AddressRange) : Bool :=
  decide (a.start ≤ rhs.start) && decide (rhs.stop ≤ a.stop)

/-- Modelled from the spec: `AddressRange::intersects(rhs)`: this range and `rhs`
overlap. -/
def AddressRange.intersects (a rhs : AddressRange) : Bool :=
  decide (a.start < rhs.stop) && decide (rhs.start < a.stop)

/-- The byte at address `b` belongs to the range. -/
def AddressRange.covers (a : AddressRange) (b : Nat) : Prop := a.start ≤ b ∧ b < a.stop

instance (a : AddressRange) (b : Nat) : Decidable (a.covers b) :=
  inferInstanceAs (Decidable (a.start ≤ b ∧ b < a.stop))

end Utils

namespace Rpc

open Utils

namespace CommandsChannel

namespace DefaultLayout

/-- `DefaultLayout::ringHead`. -/
def ringHead : Nat := 0

/-- `DefaultLayout::semClient`. -/
def semClient : Nat := alignUpPow2 sizeofSem (ringHead + sizeofOffsetWithinChannelT)

/-- `DefaultLayout::ringTail`. -/
def ringTail : Nat := alignUpPow2 cachelineSize semClient

/-- `DefaultLayout::semServer`. -/
def semServer : Nat := alignUpPow2 sizeofSem (ringTail + sizeofOffsetWithinChannelT)

/-- `DefaultLayout::ringStart`. -/
def ringStart : Nat := alignUpPow2 cachelineSize semServer

/-- `DefaultLayout::ringEnd`. -/
def ringEnd : Nat := alignUpPow2 pageSize4KB semServer

/-- `DefaultLayout::completionStampsStart`. -/
def completionStampsStart : Nat := ringEnd

/-- `DefaultLayout::completionStampsEnd`. -/
def completionStampsEnd : Nat := completionStampsStart + pageSize4KB

/-- `DefaultLayout::hostptrCopiesRingHead`. -/
def hostptrCopiesRingHead : Nat := completionStampsEnd

/-- `DefaultLayout::hostptrCopiesRingTail`. -/
def hostptrCopiesRingTail : Nat :=
  alignUpPow2 cachelineSize (hostptrCopiesRingHead + sizeofOffsetWithinChannelT)

/-- `DefaultLayout::hostptrCopiesRingStart`. -/
def hostptrCopiesRingStart : Nat :=
  alignUpPow2 cachelineSize (hostptrCopiesRingTail + sizeofOffsetWithinChannelT)

/-- `DefaultLayout::hostptrCopiesRingEnd`. -/
def hostptrCopiesRingEnd : Nat :=
  alignUpPow2 pageSize4KB (hostptrCopiesRingStart + pageSize4KB)

/-- `DefaultLayout::heapStart`. -/
def heapStart : Nat := hostptrCopiesRingEnd

/-- `DefaultLayout::minHeapSize`. -/
def minHeapSize : Nat := pageSize4KB

/-- `DefaultLayout::minShmemSize`. -/
def minShmemSize : Nat := heapStart + minHeapSize

end DefaultLayout

end CommandsChannel

/-- The members of `CommandsChannel` that `partition` and `initControlBlock` assign.
`shmem`, `semClient` and `semServer` are local addresses. -/
structure CommandsChannel where
  layout : CommandsChannelLayout
  ring : TypedRingRef
  hostptrCopiesRing : TypedRingRef
  shmem : Nat
  shmemSize : Nat
  semClient : Nat
  semServer : Nat
  ownsSemaphores : Bool
deriving DecidableEq

namespace CommandsChannel

/-- `getAsLocalAddress(offset)`. -/
def getAsLocalAddress (ch : CommandsChannel) (offset : Int) : Nat :=
  moveByBytes ch.shmem offset

/-- `initControlBlock()`: the returned flag, the channel and the counter words of the
segment afterwards.  `clientSemInit` / `serverSemInit` tell whether
`Cal::Ipc::initializeSemaphore` returned 0 for the client / server semaphore. -/
def initControlBlock (ch : CommandsChannel) (mem : Nat → Int)
    (clientSemInit serverSemInit : Bool) : Bool × CommandsChannel × (Nat → Int) :=
  let mem1 := ch.ring.reset mem
  let mem2 := ch.hostptrCopiesRing.reset mem1
  if clientSemInit = false then
    (false, ch, mem2)
  else if serverSemInit = false then
    (false, ch, mem2)
  else
    (true, { ch with ownsSemaphores := true }, mem2)

/-- The assignments of `partition` that follow the layout: semaphore addresses and the two
ring objects over the segment. -/
def attachRings (ch : CommandsChannel) : CommandsChannel :=
  { ch with
    semClient := ch.getAsLocalAddress ch.layout.semClient
    semServer := ch.getAsLocalAddress ch.layout.semServer
    ring :=
      { data := ch.getAsLocalAddress ch.layout.ringStart
        capacity := toU64 ch.layout.ringCapacity
        head := ch.getAsLocalAddress ch.layout.ringHead
        tail := ch.getAsLocalAddress ch.layout.ringTail
        iteration := 0 }
    hostptrCopiesRing :=
      { data := ch.getAsLocalAddress ch.layout.hostptrCopiesRingStart
        capacity := toU64 ch.layout.hostptrCopiesRingCapacity
        head := ch.getAsLocalAddress ch.layout.hostptrCopiesRingHead
        tail := ch.getAsLocalAddress ch.layout.hostptrCopiesRingTail
        iteration := 0 } }

/-- The layout that `partition(shmem, shmemSize, initializeControlBlock)` assigns. -/
def defaultLayout (shmemSize : Nat) : CommandsChannelLayout :=
  { ringHead := (DefaultLayout.ringHead : Int)
    semClient := (DefaultLayout.semClient : Int)
    ringTail := (DefaultLayout.ringTail : Int)
    semServer := (DefaultLayout.semServer : Int)
    ringStart := (DefaultLayout.ringStart : Int)
    ringCapacity :=
      (((DefaultLayout.ringEnd - DefaultLayout.ringStart) / sizeofRingEntry : Nat) : Int)
    completionStampsStart := (DefaultLayout.completionStampsStart : Int)
    completionStampsCapacity :=
      (((DefaultLayout.completionStampsEnd - DefaultLayout.completionStampsStart) /
        sizeofCompletionStampT : Nat) : Int)
    hostptrCopiesRingHead := (DefaultLayout.hostptrCopiesRingHead : Int)
    hostptrCopiesRingTail := (DefaultLayout.hostptrCopiesRingTail : Int)
    hostptrCopiesRingStart := (DefaultLayout.hostptrCopiesRingStart : Int)
    hostptrCopiesRingCapacity :=
      (((DefaultLayout.hostptrCopiesRingEnd - DefaultLayout.hostptrCopiesRingStart) /
        sizeofMemChunk : Nat) : Int)
    heapStart := (DefaultLayout.heapStart : Int)
    heapEnd := toInt64 (shmemSize : Int) }

/-- `partition(shmem, shmemSize, initializeControlBlock)`: the returned flag, the channel
and the counter words of the segment afterwards. -/
def partition (ch : CommandsChannel) (mem : Nat → Int) (shmem shmemSize : Nat)
    (initializeControlBlock : Bool) (clientSemInit serverSemInit : Bool) :
    Bool × CommandsChannel × (Nat → Int) :=
  if isAlignedPow2 pageSize4KB shmem = false then
    (false, ch, mem)
  else if isAlignedPow2 pageSize4KB shmemSize = false then
    (false, ch, mem)
  else if shmemSize < DefaultLayout.minShmemSize then
    (false, ch, mem)
  else
    let ch1 := attachRings
      { ch with shmem := shmem, shmemSize := shmemSize, layout := defaultLayout shmemSize }
    if initializeControlBlock then
      initControlBlock ch1 mem clientSemInit serverSemInit
    else
      (true, ch1, mem)

/-- The table `ranges[]` of `isInBounds`: name, byte range and required alignment of each
region, every bound computed in `size_t`. -/
def regions (el : CommandsChannelLayout) : List (String × AddressRange × Nat) :=
  [ ("ringHead",
      ⟨toU64 el.ringHead, toU64 (el.ringHead + sizeofOffsetWithinChannelT)⟩,
      sizeofOffsetWithinChannelT),
    ("ringTail",
      ⟨toU64 el.ringTail, toU64 (el.ringTail + sizeofOffsetWithinChannelT)⟩,
      sizeofOffsetWithinChannelT),
    ("semClient", ⟨toU64 el.semClient, toU64 (el.semClient + sizeofSem)⟩, sizeofSem),
    ("semServer", ⟨toU64 el.semServer, toU64 (el.semServer + sizeofSem)⟩, sizeofSem),
    ("ring",
      ⟨toU64 el.ringStart, toU64 (el.ringStart + el.ringCapacity * sizeofRingEntry)⟩,
      cachelineSize),
    ("completionStamps",
      ⟨toU64 el.completionStampsStart,
        toU64 (el.completionStampsStart + el.completionStampsCapacity * sizeofCompletionStampT)⟩,
      cachelineSize),
    ("hostptrCopiesRingHead",
      ⟨toU64 el.hostptrCopiesRingHead,
        toU64 (el.hostptrCopiesRingHead + sizeofOffsetWithinChannelT)⟩,
      sizeofOffsetWithinChannelT),
    ("hostptrCopiesRingTail",
      ⟨toU64 el.hostptrCopiesRingTail,
        toU64 (el.hostptrCopiesRingTail + sizeofOffsetWithinChannelT)⟩,
      sizeofOffsetWithinChannelT),
    ("hostptrCopiesRing",
      ⟨toU64 el.hostptrCopiesRingStart,
        toU64 (el.hostptrCopiesRingStart + el.hostptrCopiesRingCapacity * sizeofMemChunk)⟩,
      cachelineSize),
    ("heap", ⟨toU64 el.heapStart, toU64 el.heapEnd⟩, pageSize4KB) ]

/-- Body of the outer loop of `isInBounds` for the region at index `i`: the value of
`valid` after the iteration. -/
def checkRegion (channel : AddressRange) (ranges : List (String × AddressRange × Nat))
    (valid : Bool) (entry : Nat × String × AddressRange × Nat) : Bool :=
  let i := entry.1
  let range := entry.2.2.1
  let alignment := entry.2.2.2
  let valid1 := if channel.contains range = false then false else valid
  let valid2 :=
    if (isAligned range.start alignment && isAligned range.stop alignment) = false then false
    else valid1
  ranges.enum.foldl
    (fun v rhs => if i = rhs.1 then v else if range.intersects rhs.2.2.1 then false else v)
    valid2

/-- `isInBounds(existinglayout, channelSize)`. -/
def isInBounds (existinglayout : CommandsChannelLayout) (channelSize : Nat) : Bool :=
  let channel := AddressRange.mk 0 channelSize
  let ranges := regions existinglayout
  ranges.enum.foldl (checkRegion channel ranges) true

/-- `partition(shmem, shmemSize, existingLayout, initializeControlBlock)`: the returned
flag, the channel and the counter words of the segment afterwards.  `isValid` is
`CommandsChannelLayout::isValid` (`shared/control_messages.h`, not among the sources). -/
def partitionWithLayout (isValid : CommandsChannelLayout → Bool) (ch : CommandsChannel)
    (mem : Nat → Int) (shmem shmemSize : Nat) (existingLayout : CommandsChannelLayout)
    (initializeControlBlock : Bool) (clientSemInit serverSemInit : Bool) :
    Bool × CommandsChannel × (Nat → Int) :=
  if (isValid existingLayout && isInBounds existingLayout shmemSize) = false then
    (false, ch, mem)
  else
    let ch1 := attachRings
      { ch with layout := existingLayout, shmem := shmem, shmemSize := shmemSize }
    if initializeControlBlock then
      initControlBlock ch1 mem clientSemInit serverSemInit
    else
      (true, ch1, mem)

/-- The first nine rows of `regions (defaultLayout shmemSize)`: every region but the heap. -/
def defaultFixedRegions : List (String × AddressRange × Nat) :=
  [ ("ringHead", ⟨0, 8⟩, 8), ("ringTail", ⟨64, 72⟩, 8), ("semClient", ⟨32, 64⟩, 32),
    ("semServer", ⟨96, 128⟩, 32), ("ring", ⟨128, 4096⟩, 64),
    ("completionStamps", ⟨4096, 8192⟩, 64), ("hostptrCopiesRingHead", ⟨8192, 8200⟩, 8),
    ("hostptrCopiesRingTail", ⟨8256, 8264⟩, 8), ("hostptrCopiesRing", ⟨8320, 16384⟩, 64) ]

/-- The two ranges lie one after the other. -/
def apart (a c : AddressRange) : Prop := a.stop ≤ c.start ∨ c.stop ≤ a.start

instance (a c : AddressRange) : Decidable (apart a c) :=
  inferInstanceAs (Decidable (a.stop ≤ c.start ∨ c.stop ≤ a.start))

/-- The check that `isInBounds` makes for the region at index `entry.1`. -/
def regionOk (channel : AddressRange) (ranges : List (String × AddressRange × Nat))
    (entry : Nat × String × AddressRange × Nat) : Bool :=
  channel.contains entry.2.2.1 &&
    (isAligned entry.2.2.1.start entry.2.2.2 && isAligned entry.2.2.1.stop entry.2.2.2) &&
    ranges.enum.all (fun rhs => decide (entry.1 = rhs.1) || !entry.2.2.1.intersects rhs.2.2.1)

/-- A channel object before any partitioning, used to instantiate the theorems. -/
def sampleChannel : CommandsChannel :=
  { layout := ⟨0, 0, 0, 0, 0, 0, 0, 0, 0, 0, 0, 0, 0, 0⟩
    ring := ⟨0, 0, 0, 0, 0⟩
    hostptrCopiesRing := ⟨0, 0, 0, 0, 0⟩
    shmem := 0
    shmemSize := 0
    semClient := 0
    semServer := 0
    ownsSemaphores := false }

/-- The default layout of a five-page segment with one ring entry too many: the ring runs
16 bytes into the completion stamps. -/
def overlappingLayout : CommandsChannelLayout :=
  { defaultLayout 20480 with ringCapacity := 249 }

/-- The default layout of a five-page segment with the ring capacity raised by 2^60: the
byte size of the ring, `ringCapacity * sizeof(RingEntry)`, exceeds 2^64. -/
def wrappedRingLayout : CommandsChannelLayout :=
  { defaultLayout 20480 with ringCapacity := 248 + 1152921504606846976 }

/-- The default layout of a five-page segment with a capacity of the host-pointer copies ring
whose 64 bits read 2^63 + 504 as a `size_t`: the byte size of the ring,
`hostptrCopiesRingCapacity * sizeof(MemChunk)`, wraps around modulo 2^64 to 8064, the byte
size of the default ring. -/
def wrappedCopiesLayout : CommandsChannelLayout :=
  { defaultLayout 20480 with hostptrCopiesRingCapacity := 504 - 9223372036854775808 }

/-- A layout of a two-page segment: the counters and semaphores as in the default layout, a
ring of 4 entries at 128, 16 completion stamps at 192, a host-pointer copies ring of 4
chunks at 256 and a heap of one page at 4096. -/
def compactLayout : CommandsChannelLayout :=
  { ringHead := 0
    ringTail := 64
    semClient := 32
    semServer := 96
    ringStart := 128
    ringCapacity := 4
    completionStampsStart := 192
    completionStampsCapacity := 16
    hostptrCopiesRingHead := 8
    hostptrCopiesRingTail := 72
    hostptrCopiesRingStart := 256
    hostptrCopiesRingCapacity := 4
    heapStart := 4096
    heapEnd := 8192 }

end CommandsChannel

/-- `CompletionStampReady`. -/
def CompletionStampReady : Nat := 1

/-- `CompletionStampNotReady`. -/
def CompletionStampNotReady : Nat := 0

/-- `RingEntry`. -/
structure RingEntry where
  messageOffset : Int
  completionStampOffset : Int
deriving DecidableEq

/-- Modelled from the spec: `Cal::Rpc::MemChunk` (its header is not among the sources): a
memory range given by its address and its size in bytes; `{nullptr, 0u}` is `⟨0, 0⟩`. -/
structure MemChunk where
  address : Nat
  size : Nat
deriving DecidableEq

/-- Modelled from the spec: `RpcMessageHeader::signalSemaphoreOnCompletion`
(`shared/rpc_message.h` is not among the sources), the flag bit of a message that asks the
service to signal the client's semaphore on completion.  `ChannelClient::wait` names it
`RpcMessageHeader::FlagsBits::signalSemaphoreOnCompletion`, the same enumerator reached
through its enumeration. -/
def signalSemaphoreOnCompletion : Nat := 1

/-- Modelled from the spec: `Cal::Utils::byteDistanceAbs(a, b)` (`shared/utils.h` is not among
the sources): the distance in bytes between two addresses. -/
def byteDistanceAbs (a b : Nat) : Nat := if a ≤ b then b - a else a - b

/-- Modelled from the spec: `Cal::Allocators::TagAllocator<CompletionStampT>`
(`shared/allocators.h` is not among the sources): a pool of `capacity` stamp slots laid out
from `underlyingAllocation`; `used` lists the indices of the slots that are claimed. -/
structure TagAllocator where
  underlyingAllocation : Nat
  capacity : Nat
  used : List Nat
deriving DecidableEq

namespace TagAllocator

/-- Index of the slot that the tag address `tag` designates. -/
def slotOf (t : TagAllocator) (tag : Nat) : Nat :=
  (tag - t.underlyingAllocation) / sizeofCompletionStampT

/-- Modelled from the spec: `TagAllocator::allocate()` claims a free slot and returns its
address, or returns null (`none`) when every slot is claimed.  The slot taken is the free
one of lowest index. -/
def allocate (t : TagAllocator) : Option Nat × TagAllocator :=
  match (List.range t.capacity).find? (fun i => decide (i ∉ t.used)) with
  | some i => (some (t.underlyingAllocation + i * sizeofCompletionStampT),
      { t with used := i :: t.used })
  | none => (none, t)

/-- Modelled from the spec: `TagAllocator::free(tag)` releases the slot of `tag`. -/
def free (t : TagAllocator) (tag : Nat) : TagAllocator :=
  { t with used := t.used.erase (t.slotOf tag) }

end TagAllocator

/-- `ChannelClient::ClientSynchronizationMethod`. -/
inductive ClientSynchronizationMethod where
  | unknown
  | activePolling
  | semaphores
  | latencyBased
deriving DecidableEq

/-- Modelled from the spec: `RespLaunchRpcShmemRingBuffer::ServiceSynchronizationMethod`
(`shared/control_messages.h` is not among the sources): the wake-up style the service
answers with. -/
inductive ServiceSynchronizationMethod where
  | unknown
  | activePolling
  | semaphores
deriving DecidableEq

/-- A `float`: a NaN, an infinity or a finite value, the latter held as the rational number
it denotes. -/
inductive F32 where
  | nan
  | negInf
  | finite (q : ℚ)
  | posInf
deriving DecidableEq

/-- `a > b` on `float`: false as soon as one side is a NaN. -/
def F32.gt : F32 → F32 → Bool
  | F32.nan, _ => false
  | _, F32.nan => false
  | F32.posInf, F32.posInf => false
  | F32.posInf, _ => true
  | F32.negInf, _ => false
  | F32.finite _, F32.posInf => false
  | F32.finite _, F32.negInf => true
  | F32.finite a, F32.finite b => decide (b < a)

/-- `ChannelClient::SemaphoreThresholds::base`. -/
def SemaphoreThresholds.base : F32 := F32.finite 0

/-- `ChannelClient::SemaphoreThresholds::unreachableAlwaysActiveWait`. -/
def SemaphoreThresholds.unreachableAlwaysActiveWait : F32 := F32.finite 100

/-- `ChannelClient::SemaphoreThresholds::unreachableAlwaysSemaphores`. -/
def SemaphoreThresholds.unreachableAlwaysSemaphores : F32 := F32.finite (-100)

/-- The state of a channel that the service process and the other threads of the client
process read and write too: the primary ring (slots and counters), the host-pointer copies
ring, the completion stamps by local address, the counts of the two semaphores and the stop
flag. -/
structure Shared where
  ring : TypedRing RingEntry
  hostptrCopiesRing : TypedRing MemChunk
  stamps : Nat → Nat
  semClient : Nat
  semServer : Nat
  stopped : Bool

/-- What surrounds a client while it runs a call.  `act n` is what the service and the other
threads do to the shared state at the `n`-th scheduling point (one iteration of a polling
loop, or one stay blocked on a semaphore); `postSucceeds n` tells whether a `sem_post`
issued at time `n` returns 0. -/
structure Surroundings where
  act : Nat → Shared → Shared
  postSucceeds : Nat → Bool

/-- A call made on a member of the client, with its result, in call order. -/
inductive Event where
  | allocate (result : Option Nat)
  | free (tag : Nat)
  | push (entry : RingEntry) (accepted : Bool)
  | wait (completionStamp : Nat) (messageFlags : Nat) (processed : Bool)
  | signalService (posted : Bool)
deriving DecidableEq

/-- How far a call has come: it has returned `value` leaving the state `after`; or it is
still waiting when the scheduling points granted to it are used up; or it has run into
`back()` of an empty vector, whose behaviour is undefined. -/
inductive Outcome (σ α : Type) where
  | returned (value : α) (after : σ)
  | waiting
  | undefined

/-- The value a call has returned, if it has returned. -/
def Outcome.value? {σ α : Type} : Outcome σ α → Option α
  | Outcome.returned v _ => some v
  | _ => none

/-- The state a call has left, if it has returned. -/
def Outcome.after? {σ α : Type} : Outcome σ α → Option σ
  | Outcome.returned _ c => some c
  | _ => none

/-- The members of `ChannelClient` that the calls below read and write.  `heap` lists the
addresses of the live heap allocations, `now` counts the scheduling points passed and
`log` records the calls made on the stamp pool, the ring and the semaphores. -/
structure ChannelClient where
  shmem : Nat
  shared : Shared
  completionStamps : TagAllocator
  heap : List Nat
  asyncCommandsSpaceStorage : List Nat
  asyncTagsStorage : List Nat
  serviceSynchronizationMethod : ServiceSynchronizationMethod
  clientSynchronizationMethod : ClientSynchronizationMethod
  semaphoreWaitThreshold : F32
  useAsyncCalls : Bool
  usesSharedVaForRpcChannel : Bool
  now : Nat
  log : List Event

namespace ChannelClient

/-- One scheduling point: the surroundings act on the shared state. -/
def yield (env : Surroundings) (c : ChannelClient) : ChannelClient :=
  { c with shared := env.act c.now c.shared, now := c.now + 1 }

/-- `getAsShmemOffset(localAddress)`. -/
def getAsShmemOffset (c : ChannelClient) (localAddress : Nat) : Int :=
  toInt64 (byteDistanceAbs c.shmem localAddress : Nat)

/-- `completionStamps.allocate()`. -/
def allocateStamp (c : ChannelClient) : Option Nat × ChannelClient :=
  let r := c.completionStamps.allocate
  (r.1, { c with completionStamps := r.2, log := c.log ++ [Event.allocate r.1] })

/-- `completionStamps.free(tag)`. -/
def freeStamp (c : ChannelClient) (tag : Nat) : ChannelClient :=
  { c with completionStamps := c.completionStamps.free tag, log := c.log ++ [Event.free tag] }

/-- `ring.push(entry)`. -/
def pushRing (c : ChannelClient) (entry : RingEntry) : Bool × ChannelClient :=
  let r := c.shared.ring.push entry
  (r.1, { c with shared := { c.shared with ring := r.2 },
                 log := c.log ++ [Event.push entry r.1] })

/-- `freeSpace(ptr)`: `heap.free(ptr)`. -/
def freeSpace (c : ChannelClient) (ptr : Nat) : ChannelClient :=
  { c with heap := c.heap.erase ptr }

/-- `signalServiceSemaphore()`. -/
def signalServiceSemaphore (env : Surroundings) (c : ChannelClient) : Bool × ChannelClient :=
  let ret := env.postSucceeds c.now
  (ret, { c with
    shared := if ret then { c.shared with semServer := c.shared.semServer + 1 } else c.shared
    log := c.log ++ [Event.signalService ret] })

/-- `waitOnClientSemaphore()`: `sem_wait` blocks until the count of the client semaphore is
positive and takes one from it. -/
def waitOnClientSemaphore (env : Surroundings) : Nat → ChannelClient → Outcome ChannelClient Bool
  | 0, _ => Outcome.waiting
  | fuel + 1, c =>
    if c.shared.semClient = 0 then
      waitOnClientSemaphore env fuel (c.yield env)
    else
      Outcome.returned true { c with shared := { c.shared with semClient := c.shared.semClient - 1 } }

/-- The loop `while (*completionStamp == CompletionStampNotReady) { if (stopped) return false; }`
followed by `return true`. -/
def spinUntilProcessed (env : Surroundings) (completionStamp : Nat) :
    Nat → ChannelClient → Outcome ChannelClient Bool
  | 0, _ => Outcome.waiting
  | fuel + 1, c =>
    if c.shared.stamps completionStamp = CompletionStampNotReady then
      if c.shared.stopped then
        Outcome.returned false c
      else
        spinUntilProcessed env completionStamp fuel (c.yield env)
    else
      Outcome.returned true c

/-- `activeWait(completionStamp)`. -/
def activeWait (env : Surroundings) (completionStamp : Nat) (fuel : Nat) (c : ChannelClient) :
    Outcome ChannelClient Bool :=
  spinUntilProcessed env completionStamp fuel c

/-- `semaphoreWait(completionStamp)`. -/
def semaphoreWait (env : Surroundings) (completionStamp : Nat) (fuel : Nat) (c : ChannelClient) :
    Outcome ChannelClient Bool :=
  match waitOnClientSemaphore env fuel c with
  | Outcome.returned _ c1 =>
    if c1.shared.stopped then
      Outcome.returned false c1
    else
      spinUntilProcessed env completionStamp fuel c1
  | Outcome.waiting => Outcome.waiting
  | Outcome.undefined => Outcome.undefined

/-- `wait(completionStamp, messageFlags)`. -/
def wait (env : Surroundings) (completionStamp messageFlags : Nat) (fuel : Nat)
    (c : ChannelClient) : Outcome ChannelClient Bool :=
  match (if messageFlags &&& signalSemaphoreOnCompletion ≠ 0 then
      semaphoreWait env completionStamp fuel c
    else
      activeWait env completionStamp fuel c) with
  | Outcome.returned processed c1 =>
    Outcome.returned processed
      { c1 with log := c1.log ++ [Event.wait completionStamp messageFlags processed] }
  | Outcome.waiting => Outcome.waiting
  | Outcome.undefined => Outcome.undefined

/-- `releaseAsyncStorage()`. -/
def releaseAsyncStorage (c : ChannelClient) : ChannelClient :=
  let c1 := c.asyncTagsStorage.foldl freeStamp c
  let c2 := c1.asyncCommandsSpaceStorage.foldl freeSpace c1
  { c2 with asyncTagsStorage := [], asyncCommandsSpaceStorage := [] }

/-- `waitForLastTag(messageFlags)`. -/
def waitForLastTag (env : Surroundings) (messageFlags : Nat) (fuel : Nat) (c : ChannelClient) :
    Outcome ChannelClient Bool :=
  match c.asyncTagsStorage.getLast? with
  | none => Outcome.undefined
  | some lastStamp =>
    match wait env lastStamp messageFlags fuel c with
    | Outcome.returned false c1 => Outcome.returned false c1
    | Outcome.returned true c1 => Outcome.returned true c1.releaseAsyncStorage
    | Outcome.waiting => Outcome.waiting
    | Outcome.undefined => Outcome.undefined

/-- The store `*completionStamp = CompletionStampNotReady`. -/
def markNotReady (c : ChannelClient) (completionStamp : Nat) : ChannelClient :=
  { c with shared := { c.shared with
    stamps := Function.update c.shared.stamps completionStamp CompletionStampNotReady } }

/-- `RingEntry{getAsShmemOffset(command), getAsShmemOffset(completionStamp)}`. -/
def entryFor (c : ChannelClient) (command completionStamp : Nat) : RingEntry :=
  ⟨c.getAsShmemOffset command, c.getAsShmemOffset completionStamp⟩

/-- The part of `submitCommand` that follows the allocation of `completionStamp`: the stamp
is marked not ready and the ring entry is pushed, with one retry. -/
def publishCommand (env : Surroundings) (command messageFlags : Nat) (fuel : Nat)
    (completionStamp : Nat) (c : ChannelClient) : Outcome ChannelClient (Option Nat) :=
  match (c.markNotReady completionStamp).pushRing (c.entryFor command completionStamp) with
  | (true, c2) => Outcome.returned (some completionStamp) c2
  | (false, c2) =>
    match waitForLastTag env messageFlags fuel c2 with
    | Outcome.returned false c3 => Outcome.returned none c3
    | Outcome.returned true c3 =>
      match c3.pushRing (c.entryFor command completionStamp) with
      | (true, c4) => Outcome.returned (some completionStamp) c4
      | (false, c4) => Outcome.returned none (c4.freeStamp completionStamp)
    | Outcome.waiting => Outcome.waiting
    | Outcome.undefined => Outcome.undefined

/-- The client as a wait leaves it: the shared state and the time have moved on and the
wait is on record. -/
def resumed (c : ChannelClient) (sh : Shared) (n : Nat) (ev : Event) : ChannelClient :=
  { c with shared := sh, now := n, log := c.log ++ [ev] }

/-- `submitCommand(command, messageFlags)`: the stamp returned, `none` for null. -/
def submitCommand (env : Surroundings) (command messageFlags : Nat) (fuel : Nat)
    (c : ChannelClient) : Outcome ChannelClient (Option Nat) :=
  match c.allocateStamp with
  | (some completionStamp, c1) => publishCommand env command messageFlags fuel completionStamp c1
  | (none, c1) =>
    match waitForLastTag env messageFlags fuel c1 with
    | Outcome.returned false c2 => Outcome.returned none c2
    | Outcome.returned true c2 =>
      match c2.allocateStamp with
      | (some completionStamp, c3) =>
        publishCommand env command messageFlags fuel completionStamp c3
      | (none, c3) => Outcome.returned none c3
    | Outcome.waiting => Outcome.waiting
    | Outcome.undefined => Outcome.undefined

/-- The step `if (semaphores == serviceSynchronizationMethod) signalServiceSemaphore()` of
both calls: whether the call goes on. -/
def notifyService (env : Surroundings) (c : ChannelClient) : Bool × ChannelClient :=
  if c.serviceSynchronizationMethod = ServiceSynchronizationMethod.semaphores then
    c.signalServiceSemaphore env
  else
    (true, c)

/-- `callSynchronous(command)`; `messageFlags` is `command->flags`. -/
def callSynchronous (env : Surroundings) (command messageFlags : Nat) (fuel : Nat)
    (c : ChannelClient) : Outcome ChannelClient Bool :=
  match submitCommand env command messageFlags fuel c with
  | Outcome.returned none c1 => Outcome.returned false c1
  | Outcome.returned (some completionStamp) c1 =>
    match c1.notifyService env with
    | (false, c2) => Outcome.returned false c2
    | (true, c2) =>
      match wait env completionStamp messageFlags fuel c2 with
      | Outcome.returned false c3 => Outcome.returned false c3
      | Outcome.returned true c3 =>
        Outcome.returned true (c3.freeStamp completionStamp).releaseAsyncStorage
      | Outcome.waiting => Outcome.waiting
      | Outcome.undefined => Outcome.undefined
  | Outcome.waiting => Outcome.waiting
  | Outcome.undefined => Outcome.undefined

/-- `callAsynchronous(command, commandSpace)`; `messageFlags` is `command->flags` and
`commandSpace` the address of the heap allocation handed over. -/
def callAsynchronous (env : Surroundings) (command messageFlags commandSpace : Nat) (fuel : Nat)
    (c : ChannelClient) : Outcome ChannelClient Bool :=
  if c.useAsyncCalls = false then
    callSynchronous env command messageFlags fuel c
  else
    match submitCommand env command messageFlags fuel c with
    | Outcome.returned none c1 => Outcome.returned false c1
    | Outcome.returned (some completionStamp) c1 =>
      match c1.notifyService env with
      | (false, c2) => Outcome.returned false c2
      | (true, c2) =>
        Outcome.returned true
          { c2 with asyncTagsStorage := c2.asyncTagsStorage ++ [completionStamp],
                    asyncCommandsSpaceStorage := c2.asyncCommandsSpaceStorage ++ [commandSpace] }
    | Outcome.waiting => Outcome.waiting
    | Outcome.undefined => Outcome.undefined

/-- The shared state `b` is what becomes of `a` while the client waits: the surroundings act
on it and the client takes from its own semaphore. -/
inductive Drifts (env : Surroundings) : Shared → Shared → Prop where
  | refl (a : Shared) : Drifts env a a
  | act (a b : Shared) (n : Nat) : Drifts env a b → Drifts env a (env.act n b)
  | take (a b : Shared) : Drifts env a b →
      Drifts env a { b with semClient := b.semClient - 1 }

/-- The runs of `publishCommand` that return: `r` is the value returned and `c'` the state
left, for the stamp `s` allocated in the state `c`. -/
inductive Published (env : Surroundings) (command f s : Nat) (c : ChannelClient) :
    Option Nat → ChannelClient → Prop where
  | pushed :
      ((c.markNotReady s).pushRing (c.entryFor command s)).1 = true →
      Published env command f s c (some s)
        ((c.markNotReady s).pushRing (c.entryFor command s)).2
  | aborted (last : Nat) (sh : Shared) (n : Nat) :
      ((c.markNotReady s).pushRing (c.entryFor command s)).1 = false →
      c.asyncTagsStorage.getLast? = some last → sh.stopped = true →
      Drifts env ((c.markNotReady s).pushRing (c.entryFor command s)).2.shared sh →
      Published env command f s c none
        (((c.markNotReady s).pushRing (c.entryFor command s)).2.resumed sh n
          (Event.wait last f false))
  | retried (last : Nat) (sh : Shared) (n : Nat) :
      ((c.markNotReady s).pushRing (c.entryFor command s)).1 = false →
      c.asyncTagsStorage.getLast? = some last → sh.stamps last ≠ CompletionStampNotReady →
      Drifts env ((c.markNotReady s).pushRing (c.entryFor command s)).2.shared sh →
      ((((c.markNotReady s).pushRing (c.entryFor command s)).2.resumed sh n
          (Event.wait last f true)).releaseAsyncStorage.pushRing
            (c.entryFor command s)).1 = true →
      Published env command f s c (some s)
        ((((c.markNotReady s).pushRing (c.entryFor command s)).2.resumed sh n
          (Event.wait last f true)).releaseAsyncStorage.pushRing (c.entryFor command s)).2
  | refused (last : Nat) (sh : Shared) (n : Nat) :
      ((c.markNotReady s).pushRing (c.entryFor command s)).1 = false →
      c.asyncTagsStorage.getLast? = some last → sh.stamps last ≠ CompletionStampNotReady →
      Drifts env ((c.markNotReady s).pushRing (c.entryFor command s)).2.shared sh →
      ((((c.markNotReady s).pushRing (c.entryFor command s)).2.resumed sh n
          (Event.wait last f true)).releaseAsyncStorage.pushRing
            (c.entryFor command s)).1 = false →
      Published env command f s c none
        (((((c.markNotReady s).pushRing (c.entryFor command s)).2.resumed sh n
          (Event.wait last f true)).releaseAsyncStorage.pushRing
            (c.entryFor command s)).2.freeStamp s)

/-- The runs of `submitCommand` that return: `r` is the value returned and `c'` the state
left. -/
inductive Submitted (env : Surroundings) (command f : Nat) (c : ChannelClient) :
    Option Nat → ChannelClient → Prop where
  | allocated (s : Nat) (r : Option Nat) (c' : ChannelClient) :
      c.allocateStamp.1 = some s → Published env command f s c.allocateStamp.2 r c' →
      Submitted env command f c r c'
  | aborted (last : Nat) (sh : Shared) (n : Nat) :
      c.allocateStamp.1 = none → c.asyncTagsStorage.getLast? = some last →
      sh.stopped = true → Drifts env c.shared sh →
      Submitted env command f c none
        (c.allocateStamp.2.resumed sh n (Event.wait last f false))
  | exhausted (last : Nat) (sh : Shared) (n : Nat) :
      c.allocateStamp.1 = none → c.asyncTagsStorage.getLast? = some last →
      sh.stamps last ≠ CompletionStampNotReady → Drifts env c.shared sh →
      (c.allocateStamp.2.resumed sh n
        (Event.wait last f true)).releaseAsyncStorage.allocateStamp.1 = none →
      Submitted env command f c none
        (c.allocateStamp.2.resumed sh n
          (Event.wait last f true)).releaseAsyncStorage.allocateStamp.2
  | reallocated (last : Nat) (sh : Shared) (n : Nat) (s : Nat) (r : Option Nat)
      (c' : ChannelClient) :
      c.allocateStamp.1 = none → c.asyncTagsStorage.getLast? = some last →
      sh.stamps last ≠ CompletionStampNotReady → Drifts env c.shared sh →
      (c.allocateStamp.2.resumed sh n
        (Event.wait last f true)).releaseAsyncStorage.allocateStamp.1 = some s →
      Published env command f s
        (c.allocateStamp.2.resumed sh n
          (Event.wait last f true)).releaseAsyncStorage.allocateStamp.2 r c' →
      Submitted env command f c r c'

/-- The calls that a returning `publishCommand` makes, in order, for the stamp `s` allocated in
the state `c`: a push that is accepted; or a refused push and a wait on the last pending
stamp, which fails, or succeeds and is followed by the release of every pending stamp and
by a second push, accepted, or refused and followed by the release of `s`. -/
def PublishShape (c : ChannelClient) (command f s : Nat) (r : Option Nat)
    (evs : List Event) : Prop :=
  (r = some s ∧ evs = [Event.push (c.entryFor command s) true]) ∨
    ∃ last, c.asyncTagsStorage.getLast? = some last ∧
      ((r = none ∧
          evs = [Event.push (c.entryFor command s) false, Event.wait last f false]) ∨
        (r = some s ∧
          evs = [Event.push (c.entryFor command s) false, Event.wait last f true] ++
            c.asyncTagsStorage.map Event.free ++ [Event.push (c.entryFor command s) true]) ∨
        (r = none ∧
          evs = [Event.push (c.entryFor command s) false, Event.wait last f true] ++
            c.asyncTagsStorage.map Event.free ++
            [Event.push (c.entryFor command s) false, Event.free s]))

/-- The calls that a returning `submitCommand` makes, in order. -/
def SubmitShape (c : ChannelClient) (command f : Nat) (r : Option Nat)
    (evs : List Event) : Prop :=
  (∃ s pevs, evs = Event.allocate (some s) :: pevs ∧ PublishShape c command f s r pevs) ∨
    ∃ last, c.asyncTagsStorage.getLast? = some last ∧
      ((r = none ∧ evs = [Event.allocate none, Event.wait last f false]) ∨
        (r = none ∧
          evs = [Event.allocate none, Event.wait last f true] ++
            c.asyncTagsStorage.map Event.free ++ [Event.allocate none]) ∨
        (∃ s, r = some s ∧
          evs = [Event.allocate none, Event.wait last f true] ++
            c.asyncTagsStorage.map Event.free ++
            [Event.allocate (some s), Event.push (c.entryFor command s) true]))

/-- The results of the calls of `completionStamps.allocate()` on record in `evs`. -/
def allocations (evs : List Event) : List (Option Nat) :=
  evs.filterMap (fun ev => match ev with
    | Event.allocate r => some r
    | _ => none)

/-- The calls of `ring.push` on record in `evs`, each with its result. -/
def pushes (evs : List Event) : List (RingEntry × Bool) :=
  evs.filterMap (fun ev => match ev with
    | Event.push e ok => some (e, ok)
    | _ => none)

/-- The waits on record in `evs`: stamp waited on, flags, result. -/
def waits (evs : List Event) : List (Nat × Nat × Bool) :=
  evs.filterMap (fun ev => match ev with
    | Event.wait st fl ok => some (st, fl, ok)
    | _ => none)

/-- The stamps given to `completionStamps.free` on record in `evs`. -/
def frees (evs : List Event) : List Nat :=
  evs.filterMap (fun ev => match ev with
    | Event.free t => some t
    | _ => none)

/-- What a returning `submitCommand` or `publishCommand` has done to the pending storage,
given the calls `evs` it made from the state `c`: either no wait succeeded, nothing was
released and both pending lists and the heap are as they were; or the wait on `last`
succeeded, the release of every pending stamp follows it at once, in list order, no release
precedes it, and both pending lists are empty. -/
def Reclaim (c c' : ChannelClient) (f : Nat) (evs : List Event) : Prop :=
  ((∀ w ∈ waits evs, w.2.2 = false) ∧ frees evs = [] ∧
      c'.asyncTagsStorage = c.asyncTagsStorage ∧
      c'.asyncCommandsSpaceStorage = c.asyncCommandsSpaceStorage ∧ c'.heap = c.heap) ∨
    ∃ last pre post, c.asyncTagsStorage.getLast? = some last ∧
      evs = pre ++ Event.wait last f true :: (c.asyncTagsStorage.map Event.free ++ post) ∧
      waits pre = [] ∧ frees pre = [] ∧ waits post = [] ∧
      c'.asyncTagsStorage = [] ∧ c'.asyncCommandsSpaceStorage = [] ∧
      c'.heap = c.asyncCommandsSpaceStorage.foldl List.erase c.heap

/-- `stop()`. -/
def stop (c : ChannelClient) : ChannelClient :=
  { c with shared := { c.shared with stopped := true } }

/-- `shouldSynchronizeNextCommandWithSemaphores(commandLatency)`. -/
def shouldSynchronizeNextCommandWithSemaphores (c : ChannelClient) (commandLatency : F32) :
    Bool :=
  commandLatency.gt c.semaphoreWaitThreshold

/-- What `init` obtains from outside the class.  `mapped` is the address and size of the
segment that `allocateShmemOnRemote` and the importer give (`none` when the allocation is
invalid or the mapping is null); `clientSemInit` / `serverSemInit` tell whether the
semaphores could be initialised; `response` is the service synchronization method of the
answer to `ReqLaunchRpcShmemRingBuffer` (`none` when the request cannot be sent, or the
answer cannot be received or is invalid); `calAsynchronousCalls` is the value of the
environment flag of that name, if it is set (`Cal::Utils::getCalEnvFlag(name, default)`
gives the default when it is not). -/
structure Handshake where
  mapped : Option (Nat × Nat)
  clientSemInit : Bool
  serverSemInit : Bool
  response : Option ServiceSynchronizationMethod
  calAsynchronousCalls : Option Bool

/-- `createRingBuffer()`: the returned flag, the client, and the members of the base class
as `partition` leaves them.  On success the client works on the mapped segment, whose ring
has been reset and whose semaphores have been initialised.
Modelled from the spec: `Cal::Ipc::initializeSemaphore` (`shared/ipc.h` is not among the
sources) leaves a semaphore with count 0. -/
def createRingBuffer (hs : Handshake) (c : ChannelClient) :
    Bool × ChannelClient × CommandsChannel :=
  match hs.mapped with
  | none => (false, c, CommandsChannel.sampleChannel)
  | some (mmappedPtr, mmappedSize) =>
    match CommandsChannel.partition CommandsChannel.sampleChannel (fun _ => 0) mmappedPtr
        mmappedSize true hs.clientSemInit hs.serverSemInit with
    | (false, ch, _) => (false, c, ch)
    | (true, ch, _) =>
      (true,
        { c with
          shmem := ch.shmem
          shared := { c.shared with
            ring := { c.shared.ring with
              capacity := ch.ring.capacity, head := 0, tail := 0, iteration := 0 }
            hostptrCopiesRing := { c.shared.hostptrCopiesRing with
              capacity := ch.hostptrCopiesRing.capacity, head := 0, tail := 0, iteration := 0 }
            semClient := 0
            semServer := 0 } },
        ch)

/-- `enableRpc()`. -/
def enableRpc (hs : Handshake) (c : ChannelClient) : Bool × ChannelClient :=
  match hs.response with
  | none => (false, c)
  | some method => (true, { c with serviceSynchronizationMethod := method })

/-- The `switch` of `init`: the value of `semaphoreWaitThreshold` after it, `current` being
the value before. -/
def thresholdAfterSwitch (clientSynchronizationMethod : ClientSynchronizationMethod)
    (current : F32) : F32 :=
  match clientSynchronizationMethod with
  | ClientSynchronizationMethod.activePolling => SemaphoreThresholds.unreachableAlwaysActiveWait
  | ClientSynchronizationMethod.semaphores => SemaphoreThresholds.unreachableAlwaysSemaphores
  | ClientSynchronizationMethod.latencyBased => SemaphoreThresholds.base
  | ClientSynchronizationMethod.unknown => current

/-- `init(clientSynchronizationMethod, useSharedVaForRpcChannel)`. -/
def init (hs : Handshake) (clientSynchronizationMethod : ClientSynchronizationMethod)
    (useSharedVaForRpcChannel : Bool) (c : ChannelClient) : Bool × ChannelClient :=
  if clientSynchronizationMethod = ClientSynchronizationMethod.unknown then
    (false, c)
  else
    let c1 := { c with
      clientSynchronizationMethod := clientSynchronizationMethod
      semaphoreWaitThreshold :=
        thresholdAfterSwitch clientSynchronizationMethod c.semaphoreWaitThreshold
      usesSharedVaForRpcChannel := useSharedVaForRpcChannel }
    match createRingBuffer hs c1 with
    | (false, c2, _) => (false, c2)
    | (true, c2, ch) =>
      match enableRpc hs c2 with
      | (false, c3) => (false, c3)
      | (true, c3) =>
        (true,
          { c3 with
            completionStamps :=
              ⟨ch.getAsLocalAddress ch.layout.completionStampsStart,
                toU64 ch.layout.completionStampsCapacity, []⟩
            heap := []
            useAsyncCalls := hs.calAsynchronousCalls.getD c3.useAsyncCalls })

/-- A handshake that succeeds: a segment of five pages mapped at 65536, a service that
polls, and no `calAsynchronousCalls` flag. -/
def sampleHandshake : Handshake :=
  { mapped := some (65536, 20480)
    clientSemInit := true
    serverSemInit := true
    response := some ServiceSynchronizationMethod.activePolling
    calAsynchronousCalls := none }

/-- `encodeHeapOffsetFromLocalPtr(localAddress)`: the offset, carried in a pointer. -/
def encodeHeapOffsetFromLocalPtr (c : ChannelClient) (localAddress : Nat) : Nat :=
  byteDistanceAbs c.shmem localAddress % 18446744073709551616

/-- `acquireHostptrCopiesUpdate()`: the chunk returned and the client afterwards. -/
def acquireHostptrCopiesUpdate (c : ChannelClient) : MemChunk × ChannelClient :=
  if c.shared.hostptrCopiesRing.peekEmpty then
    (⟨0, 0⟩, c)
  else
    let locationToUpdate := c.shared.hostptrCopiesRing.peekHead
    (locationToUpdate,
      { c with shared := { c.shared with
        hostptrCopiesRing := c.shared.hostptrCopiesRing.pop.2 } })

/-- Consecutive calls of `acquireHostptrCopiesUpdate()`, `n` of them: the chunks returned,
in call order, and the client afterwards. -/
def acquireHostptrCopies : Nat → ChannelClient → List MemChunk × ChannelClient
  | 0, c => ([], c)
  | n + 1, c =>
    let p := c.acquireHostptrCopiesUpdate
    let q := acquireHostptrCopies n p.2
    (p.1 :: q.1, q.2)

/-- The stamp pool `t` and the pending-stamp list agree: every claimed slot is a slot of the
pool, no two pending stamps sit in the same slot, and every pending stamp sits in a claimed
slot. -/
def PoolInv (t : TagAllocator) (pending : List Nat) : Prop :=
  (∀ i ∈ t.used, i < t.capacity) ∧ (pending.map t.slotOf).Nodup ∧
    ∀ s ∈ pending, t.slotOf s ∈ t.used

/-- The stamp `s` sits in a claimed slot of the pool `t` that holds no pending stamp. -/
def Holds (t : TagAllocator) (pending : List Nat) (s : Nat) : Prop :=
  t.slotOf s ∈ t.used ∧ t.slotOf s ∉ pending.map t.slotOf

/-- The client states reached from a client with nothing pending and no stamp claimed, as
`init` leaves it, by calls of `callAsynchronous`, `callSynchronous` and `submitCommand` that
return, the surroundings acting at will between two calls as they do during the waits. -/
inductive Reachable (env : Surroundings) : ChannelClient → Prop where
  | start (c : ChannelClient) :
      c.asyncTagsStorage = [] → c.asyncCommandsSpaceStorage = [] →
      c.completionStamps.used = [] → Reachable env c
  | between (c : ChannelClient) : Reachable env c → Reachable env (c.yield env)
  | callAsynchronous (c c' : ChannelClient) (command f commandSpace fuel : Nat) (b : Bool) :
      Reachable env c →
      ChannelClient.callAsynchronous env command f commandSpace fuel c =
        Outcome.returned b c' →
      Reachable env c'
  | callSynchronous (c c' : ChannelClient) (command f fuel : Nat) (b : Bool) :
      Reachable env c →
      ChannelClient.callSynchronous env command f fuel c = Outcome.returned b c' →
      Reachable env c'
  | submitCommand (c c' : ChannelClient) (command f fuel : Nat) (r : Option Nat) :
      Reachable env c →
      ChannelClient.submitCommand env command f fuel c = Outcome.returned r c' →
      Reachable env c'

/-- A service that, whenever it acts, takes the oldest entry off the ring, if there is one
(`ChannelServer::activeWait`), and completes it (`signalCompletion` with no flag set): the
stamp of the entry becomes ready.  `shmem` is the address of the segment. -/
def promptService (shmem : Nat) : Surroundings :=
  ⟨fun _ sh =>
      if sh.ring.peekEmpty then sh
      else
        { sh with
          ring := sh.ring.pop.2
          stamps := Function.update sh.stamps
            (Utils.moveByBytes shmem sh.ring.peekHead.completionStampOffset)
            CompletionStampReady },
    fun _ => true⟩

/-- Surroundings in which nothing happens: the shared state stays as it is and every
`sem_post` succeeds. -/
def idle : Surroundings := ⟨fun _ sh => sh, fun _ => true⟩

/-- A client over a ring of two slots, a host-pointer copies ring of four slots and a pool of
two completion stamps laid out at address 69632, with nothing pending; used to instantiate
the theorems. -/
def sampleClient : ChannelClient :=
  { shmem := 65536
    shared :=
      { ring := ⟨fun _ => ⟨0, 0⟩, 2, 0, 0, 0⟩
        hostptrCopiesRing := ⟨fun _ => ⟨0, 0⟩, 4, 0, 0, 0⟩
        stamps := fun _ => CompletionStampReady
        semClient := 0
        semServer := 0
        stopped := false }
    completionStamps := ⟨69632, 2, []⟩
    heap := []
    asyncCommandsSpaceStorage := []
    asyncTagsStorage := []
    serviceSynchronizationMethod := ServiceSynchronizationMethod.activePolling
    clientSynchronizationMethod := ClientSynchronizationMethod.activePolling
    semaphoreWaitThreshold := SemaphoreThresholds.unreachableAlwaysActiveWait
    useAsyncCalls := true
    usesSharedVaForRpcChannel := false
    now := 0
    log := [] }

/-- `sampleClient` with both stamps claimed, one asynchronous command pending on the stamp at
69632, which is not ready, and the stop flag raised. -/
def stoppedClient : ChannelClient :=
  { sampleClient with
    shared := { sampleClient.shared with
      stamps := Function.update (fun _ => CompletionStampReady) 69632 CompletionStampNotReady
      stopped := true }
    completionStamps := ⟨69632, 2, [1, 0]⟩
    heap := [81920]
    asyncCommandsSpaceStorage := [81920]
    asyncTagsStorage := [69632] }

/-- The state in which `submitCommand idle 81984 0 3` leaves `stoppedClient`: the allocation
that found no stamp and the wait that failed are on record, nothing else has changed. -/
def stoppedClientAfterSubmit : ChannelClient :=
  { stoppedClient with log := [Event.allocate none, Event.wait 69632 0 false] }

/-- The state in which `submitCommand idle 81984 0 3` leaves `sampleClient`: the stamp at
69632 is claimed and not ready, and the entry of the command at 81984 is in slot 0 of the
ring. -/
def sampleClientAfterSubmit : ChannelClient :=
  { sampleClient with
    shared :=
      { ring := ⟨Function.update (fun _ => ⟨0, 0⟩) 0 ⟨16448, 4096⟩, 2, 0, 1, 0⟩
        hostptrCopiesRing := ⟨fun _ => ⟨0, 0⟩, 4, 0, 0, 0⟩
        stamps := Function.update (fun _ => CompletionStampReady) 69632 CompletionStampNotReady
        semClient := 0
        semServer := 0
        stopped := false }
    completionStamps := ⟨69632, 2, [0]⟩
    log := [Event.allocate (some 69632), Event.push ⟨16448, 4096⟩ true] }

/-- `sampleClient` with both stamps claimed and two asynchronous commands pending, the older
one on the stamp at 69632 and the newer one on the stamp at 69636; both stamps are ready. -/
def backlogClient : ChannelClient :=
  { sampleClient with
    completionStamps := ⟨69632, 2, [1, 0]⟩
    heap := [81920, 82944]
    asyncCommandsSpaceStorage := [81920, 82944]
    asyncTagsStorage := [69632, 69636] }

/-- Surroundings in which the service runs `signalCompletion(s, f)` at the scheduling point
`T` and nothing else happens: the stamp at `s` becomes ready and, if `f` asks for it, the
client semaphore is posted.  Every `sem_post` of the client succeeds. -/
def signalCompletionAt (s f T : Nat) : Surroundings :=
  ⟨fun n sh =>
      if n = T then
        { sh with
          stamps := Function.update sh.stamps s CompletionStampReady
          semClient :=
            if f &&& signalSemaphoreOnCompletion ≠ 0 then sh.semClient + 1 else sh.semClient }
      else sh,
    fun _ => true⟩

/-- The surroundings `signalCompletionAt 69632 0 0` with a service semaphore on which every
`sem_post` fails. -/
def brokenPost : Surroundings := ⟨(signalCompletionAt 69632 0 0).act, fun _ => false⟩

/-- `sampleClient` talking to a service that waits on its semaphore. -/
def semaphoreClient : ChannelClient :=
  { sampleClient with serviceSynchronizationMethod := ServiceSynchronizationMethod.semaphores }

/-- The state in which `submitCommand idle 81984 0 3` leaves `backlogClient`: both pending
lists and the heap are empty, the stamp at 69632 is claimed anew and not ready, and the entry
of the command is in slot 0 of the ring. -/
def backlogClientAfterSubmit : ChannelClient :=
  { sampleClientAfterSubmit with
    log := [Event.allocate none, Event.wait 69636 0 true, Event.free 69632, Event.free 69636,
      Event.allocate (some 69632), Event.push ⟨16448, 4096⟩ true] }

/-- The state in which `callSynchronous (signalCompletionAt 69632 0 1) 81984 0 4` leaves
`backlogClient`: nothing is pending, no stamp is claimed, the entry of the command is in
slot 0 of the ring and two scheduling points have passed. -/
def backlogClientAfterCall : ChannelClient :=
  { sampleClient with
    shared :=
      { ring := ⟨Function.update (fun _ => ⟨0, 0⟩) 0 ⟨16448, 4096⟩, 2, 0, 1, 0⟩
        hostptrCopiesRing := ⟨fun _ => ⟨0, 0⟩, 4, 0, 0, 0⟩
        stamps := Function.update
          (Function.update (fun _ => CompletionStampReady) 69632 CompletionStampNotReady)
          69632 CompletionStampReady
        semClient := 0
        semServer := 0
        stopped := false }
    now := 2
    log := [Event.allocate none, Event.wait 69636 0 true, Event.free 69632, Event.free 69636,
      Event.allocate (some 69632), Event.push ⟨16448, 4096⟩ true, Event.wait 69632 0 true,
      Event.free 69632] }

/-- `sampleClient` with a pool of three completion stamps: more stamps than ring slots, as
in the default layout. -/
def roomyClient : ChannelClient :=
  { sampleClient with completionStamps := ⟨69632, 3, []⟩ }

/-- The state in which `callAsynchronous(command, commandSpace)` with no flag leaves `c`, the
command sitting at the start of its space at `commandSpace`. -/
def afterAsynchronous (env : Surroundings) (commandSpace : Nat) (c : ChannelClient) :
    ChannelClient :=
  (callAsynchronous env commandSpace 0 commandSpace 1 c).after?.getD c

/-- `roomyClient` after three asynchronous calls, the service taking each command off the
ring before the next call. -/
def overrunClient : ChannelClient :=
  afterAsynchronous (promptService 65536) 83968
    ((afterAsynchronous (promptService 65536) 82944
      ((afterAsynchronous (promptService 65536) 81920 roomyClient).yield
        (promptService 65536))).yield (promptService 65536))

/-- What `wait(completionStamp, messageFlags)` makes of the outcome of the wait routine it
has called: the call goes on record with its result. -/
def recordWait (completionStamp messageFlags : Nat) :
    Outcome ChannelClient Bool → Outcome ChannelClient Bool
  | Outcome.returned processed c1 =>
    Outcome.returned processed
      { c1 with log := c1.log ++ [Event.wait completionStamp messageFlags processed] }
  | Outcome.waiting => Outcome.waiting
  | Outcome.undefined => Outcome.undefined

/-- FIFO completion, for the stamps `pending` listed in submission order, in the shared state
`sh`: the service sets the stamps ready in the order of the list, so when a stamp of the list
is no longer `CompletionStampNotReady`, it and every stamp before it in the list are
`CompletionStampReady`. -/
def FifoCompletion (pending : List Nat) (sh : Shared) : Prop :=
  ∀ l1 t l2, pending = l1 ++ t :: l2 → sh.stamps t ≠ CompletionStampNotReady →
    ∀ u ∈ l1 ++ [t], sh.stamps u = CompletionStampReady

/-- `sampleClient` after `callAsynchronous` of a command at 81920 that carries no flag: the
command is pending on the stamp at 69632, which is not ready, and its entry fills the ring of
two slots. -/
def pendingClient : ChannelClient := afterAsynchronous idle 81920 sampleClient

/-- `pendingClient` with the stop flag raised. -/
def stoppedPendingClient : ChannelClient :=
  { pendingClient with shared := { pendingClient.shared with stopped := true } }

/-- `pendingClient` after the service has taken the pending command off the ring and completed
it: the stamp at 69632 is ready and the ring is empty. -/
def servedClient : ChannelClient := pendingClient.yield (promptService 65536)

/-- The state in which `submitCommand (promptService 65536) 82944 0 3` leaves `servedClient`:
the stamp at 69636 is claimed and its entry is in the ring, the command on the stamp at 69632
is still pending. -/
def servedClientAfterSubmit : ChannelClient :=
  (submitCommand (promptService 65536) 82944 0 3 servedClient).after?.getD servedClient

/-- The state in which `callSynchronous (promptService 65536) 82944 0 3` leaves `servedClient`:
the service has completed the command, and both stamps have been freed. -/
def servedClientAfterCall : ChannelClient :=
  (callSynchronous (promptService 65536) 82944 0 3 servedClient).after?.getD servedClient

end ChannelClient

/-- `ChannelServer::CommandPacket`; the pointers are addresses, null being 0. -/
structure CommandPacket where
  command : Nat
  commandMaxSize : Nat
  completionStamp : Nat
deriving DecidableEq

/-- A step of the server that the theorems count, in the order made: one iteration of the
polling loop of `activeWait` (with or without `std::this_thread::yield()`), one call of
`waitOnServiceSemaphore`, the pop of a ring entry, a `sem_post` on the client semaphore or
on the service semaphore with its result. -/
inductive ServerEvent where
  | polled (yielded : Bool)
  | waitOnService
  | pop (entry : RingEntry)
  | signalClient (posted : Bool)
  | signalService (posted : Bool)
deriving DecidableEq

/-- The members of `ChannelServer` that the calls below read and write.  `shared` is the
state that the client process and the other threads of the service read and write too; its
flag `stopped` is the member `stopped` of this object.  `heapEnd` is `layout.heapEnd`, `now`
counts the scheduling points passed and `log` records the steps made. -/
structure ChannelServer where
  shmem : Nat
  heapEnd : Int
  shared : Shared
  serviceSynchronizationMethod : ServiceSynchronizationMethod
  now : Nat
  log : List ServerEvent

namespace ChannelServer

/-- One scheduling point: the surroundings (the client, and the other threads of the
service) act on the shared state.  Nothing in the class clears `stopped`, so a flag that is
set stays set. -/
def yield (env : Surroundings) (s : ChannelServer) : ChannelServer :=
  { s with
    shared := { env.act s.now s.shared with
      stopped := s.shared.stopped || (env.act s.now s.shared).stopped }
    now := s.now + 1 }

/-- `getAsLocalAddress(offset)`. -/
def getAsLocalAddress (s : ChannelServer) (offset : Int) : Nat :=
  moveByBytes s.shmem offset

/-- `decodeLocalPtrFromHeapOffset(heapOffset)`; `heapOffset` is the offset carried in a
pointer. -/
def decodeLocalPtrFromHeapOffset (s : ChannelServer) (heapOffset : Nat) : Nat :=
  moveByBytes s.shmem ((heapOffset % 18446744073709551616 : Nat) : Int)

/-- `signalServiceSemaphore()`. -/
def signalServiceSemaphore (env : Surroundings) (s : ChannelServer) : Bool × ChannelServer :=
  let ret := env.postSucceeds s.now
  (ret, { s with
    shared := if ret then { s.shared with semServer := s.shared.semServer + 1 } else s.shared
    log := s.log ++ [ServerEvent.signalService ret] })

/-- The `sem_wait` of `waitOnServiceSemaphore()`: it blocks until the count of the service
semaphore is positive and takes one from it. -/
def blockOnServiceSemaphore (env : Surroundings) : Nat → ChannelServer →
    Outcome ChannelServer Bool
  | 0, _ => Outcome.waiting
  | fuel + 1, s =>
    if s.shared.semServer = 0 then
      blockOnServiceSemaphore env fuel (s.yield env)
    else
      Outcome.returned true { s with shared := { s.shared with semServer := s.shared.semServer - 1 } }

/-- `waitOnServiceSemaphore()`. -/
def waitOnServiceSemaphore (env : Surroundings) (fuel : Nat) (s : ChannelServer) :
    Outcome ChannelServer Bool :=
  blockOnServiceSemaphore env fuel { s with log := s.log ++ [ServerEvent.waitOnService] }

/-- The end of `activeWait` and of `semaphoreWait`: the head entry is read and popped, and
the packet is built from it. -/
def takeRequest (s : ChannelServer) : CommandPacket × ChannelServer :=
  let newRequest := s.shared.ring.peekHead
  (⟨s.getAsLocalAddress newRequest.messageOffset,
      toU64 (toInt64 (s.heapEnd - newRequest.messageOffset)),
      s.getAsLocalAddress newRequest.completionStampOffset⟩,
    { s with
      shared := { s.shared with ring := s.shared.ring.pop.2 }
      log := s.log ++ [ServerEvent.pop newRequest] })

/-- `activeWait(yieldThread)`.  The surroundings act once in every iteration of the loop,
between the test of the ring and the test of `stopped`. -/
def activeWait (env : Surroundings) (yieldThread : Bool) : Nat → ChannelServer →
    Outcome ChannelServer CommandPacket
  | 0, _ => Outcome.waiting
  | fuel + 1, s =>
    if s.shared.ring.peekEmpty then
      if ({ s with log := s.log ++ [ServerEvent.polled yieldThread] }.yield env).shared.stopped
      then
        Outcome.returned ⟨0, 0, 0⟩
          ({ s with log := s.log ++ [ServerEvent.polled yieldThread] }.yield env)
      else
        activeWait env yieldThread fuel
          ({ s with log := s.log ++ [ServerEvent.polled yieldThread] }.yield env)
    else
      Outcome.returned s.takeRequest.1 s.takeRequest.2

/-- `semaphoreWait()`. -/
def semaphoreWait (env : Surroundings) : Nat → ChannelServer →
    Outcome ChannelServer CommandPacket
  | 0, _ => Outcome.waiting
  | fuel + 1, s =>
    if s.shared.ring.peekEmpty then
      match waitOnServiceSemaphore env fuel s with
      | Outcome.returned _ s1 =>
        if s1.shared.stopped then
          Outcome.returned ⟨0, 0, 0⟩ s1
        else
          semaphoreWait env fuel s1
      | Outcome.waiting => Outcome.waiting
      | Outcome.undefined => Outcome.undefined
    else
      Outcome.returned s.takeRequest.1 s.takeRequest.2

/-- `wait(yieldThread)`. -/
def wait (env : Surroundings) (yieldThread : Bool) (fuel : Nat) (s : ChannelServer) :
    Outcome ChannelServer CommandPacket :=
  match s.serviceSynchronizationMethod with
  | ServiceSynchronizationMethod.activePolling => activeWait env yieldThread fuel s
  | ServiceSynchronizationMethod.semaphores => semaphoreWait env fuel s
  | ServiceSynchronizationMethod.unknown => Outcome.returned ⟨0, 0, 0⟩ s

/-- `stop()`. -/
def stop (env : Surroundings) (s : ChannelServer) : ChannelServer :=
  if s.serviceSynchronizationMethod = ServiceSynchronizationMethod.semaphores then
    ({ s with shared := { s.shared with stopped := true } }.signalServiceSemaphore env).2
  else
    { s with shared := { s.shared with stopped := true } }

/-- `pushHostptrCopyToUpdate(memChunk)`: the returned flag and the server afterwards. -/
def pushHostptrCopyToUpdate (s : ChannelServer) (memChunk : MemChunk) : Bool × ChannelServer :=
  if (s.shared.hostptrCopiesRing.push memChunk).1 = false then
    (false, { s with shared := { s.shared with
      hostptrCopiesRing := (s.shared.hostptrCopiesRing.push memChunk).2 } })
  else
    (true, { s with shared := { s.shared with
      hostptrCopiesRing := (s.shared.hostptrCopiesRing.push memChunk).2 } })

/-- Consecutive calls of `pushHostptrCopyToUpdate`, one for each chunk: the returned flags,
in call order, and the server afterwards. -/
def pushHostptrCopies : ChannelServer → List MemChunk → List Bool × ChannelServer
  | s, [] => ([], s)
  | s, memChunk :: rest =>
    let p := s.pushHostptrCopyToUpdate memChunk
    let q := pushHostptrCopies p.2 rest
    (p.1 :: q.1, q.2)

/-- A server over the segment of `sampleClient`, which it has mapped at address 131072; it
polls the ring. -/
def sampleServer : ChannelServer :=
  { shmem := 131072
    heapEnd := 20480
    shared := ChannelClient.sampleClient.shared
    serviceSynchronizationMethod := ServiceSynchronizationMethod.activePolling
    now := 0
    log := [] }

/-- Two chunks that a service hands back, used to instantiate the theorems. -/
def sampleCopies : List MemChunk := [⟨1000, 16⟩, ⟨2000, 32⟩]

/-- `sampleClient` seeing the segment as `sampleServer` leaves it after it has pushed
`sampleCopies`. -/
def sampleClientWithCopies : ChannelClient :=
  { ChannelClient.sampleClient with shared := (sampleServer.pushHostptrCopies sampleCopies).2.shared }

/-- `sampleServer` with one command waiting in the ring: the entry that `sampleClient`
pushes for the command at 81984 and the stamp at 69632. -/
def busyServer : ChannelServer :=
  { sampleServer with shared := ChannelClient.sampleClientAfterSubmit.shared }

/-- The state in which `wait` leaves `busyServer`: the entry has been popped. -/
def busyServerAfterWait : ChannelServer :=
  { busyServer with
    shared := { busyServer.shared with
      ring := ⟨Function.update (fun _ => ⟨0, 0⟩) 0 ⟨16448, 4096⟩, 2, 1, 1, 0⟩ }
    log := [ServerEvent.pop ⟨16448, 4096⟩] }

/-- `busyServer` with no service synchronization method set. -/
def unknownServer : ChannelServer :=
  { busyServer with serviceSynchronizationMethod := ServiceSynchronizationMethod.unknown }

/-- `sampleServer` waiting on its semaphore instead of polling: the ring is empty, the count
of the service semaphore is 0 and `stop()` has not been called. -/
def semaphoreServer : ChannelServer :=
  { sampleServer with serviceSynchronizationMethod := ServiceSynchronizationMethod.semaphores }

/-- Surroundings in which nothing happens and every `sem_post` fails. -/
def deafPost : Surroundings := ⟨fun _ sh => sh, fun _ => false⟩

/-- `sampleServer`, whose segment of 20480 bytes is mapped at 131072, with one entry in the
ring whose message offset, 40960, lies beyond the end of the heap. -/
def strayServer : ChannelServer :=
  { sampleServer with
    shared := { sampleServer.shared with
      ring := ⟨Function.update (fun _ => ⟨0, 0⟩) 0 ⟨40960, 4096⟩, 2, 0, 1, 0⟩ } }

/-- `sampleServer` over an empty host-pointer copies ring of capacity 2^63 + 504, the capacity
that `partition` gives the ring for the layout `wrappedCopiesLayout`. -/
def wideServer : ChannelServer :=
  { sampleServer with
    shared := { sampleServer.shared with
      hostptrCopiesRing := ⟨fun _ => ⟨0, 0⟩, 9223372036854776312, 0, 0, 0⟩ } }

end ChannelServer

end Rpc

namespace Icd

namespace LevelZero

namespace IcdL0CommandList

/-- `ChunkEntry`: a host memory range `{address, size}`; `address` is the pointer value as
`uintptr_t`. -/
structure ChunkEntry where
  address : Nat
  size : Nat
deriving DecidableEq

/-- `rangesOverlap(srcPtr, srcSize, dstPtr, dstSize)`, in `uintptr_t` arithmetic. -/
def rangesOverlap (srcPtr srcSize dstPtr dstSize : Nat) : Bool :=
  let srcBegin := srcPtr
  let srcEnd := (srcBegin + srcSize) % 18446744073709551616
  let dstBegin := dstPtr
  let dstEnd := (dstBegin + dstSize) % 18446744073709551616
  (decide (srcBegin ≤ dstBegin) && decide (dstBegin < srcEnd)) ||
    (decide (dstBegin ≤ srcBegin) && decide (srcBegin < dstEnd))

/-- `mergeChunks(first, second)`, in `uintptr_t` arithmetic. -/
def mergeChunks (first second : ChunkEntry) : ChunkEntry :=
  let firstBegin := first.address
  let firstEnd := (firstBegin + first.size) % 18446744073709551616
  let secondBegin := second.address
  let secondEnd := (secondBegin + second.size) % 18446744073709551616
  let mergedBegin := min firstBegin secondBegin
  let mergedEnd := max firstEnd secondEnd
  let mergedAddress := mergedBegin
  let mergedSize := (mergedEnd + 18446744073709551616 - mergedBegin) % 18446744073709551616
  ⟨mergedAddress, mergedSize⟩

/-- The `overlappingCount == 1` branch: `std::find_if` locates the first chunk that
overlaps the new range and that chunk is assigned its merge with the new range. -/
def mergeIntoFirstOverlapping (ptr size : Nat) : List ChunkEntry → List ChunkEntry
  | [] => []
  | chunk :: rest =>
    if rangesOverlap chunk.address chunk.size ptr size then
      mergeChunks ⟨ptr, size⟩ chunk :: rest
    else
      chunk :: mergeIntoFirstOverlapping ptr size rest

/-- The loop of the last branch over the chunks still to visit: `newChunks` and
`currentChunk` after the loop. -/
def mergeLoop (ptr size : Nat) :
    List ChunkEntry → List ChunkEntry → ChunkEntry → List ChunkEntry × ChunkEntry
  | [], newChunks, currentChunk => (newChunks, currentChunk)
  | chunk :: rest, newChunks, currentChunk =>
    if rangesOverlap chunk.address chunk.size ptr size = false then
      mergeLoop ptr size rest (newChunks ++ [chunk]) currentChunk
    else
      mergeLoop ptr size rest newChunks (mergeChunks currentChunk chunk)

/-- `registerMemoryToContainer(ptr, size, memory)`: the content of `memory` afterwards. -/
def registerMemoryToContainer (ptr size : Nat) (memory : List ChunkEntry) : List ChunkEntry :=
  let overlaps := fun (chunk : ChunkEntry) => rangesOverlap chunk.address chunk.size ptr size
  let overlappingCount := memory.countP overlaps
  if overlappingCount = 0 then
    memory ++ [⟨ptr, size⟩]
  else if overlappingCount = 1 then
    mergeIntoFirstOverlapping ptr size memory
  else
    let loop := mergeLoop ptr size memory [] ⟨ptr, size⟩
    loop.1 ++ [loop.2]

/-- The byte at address `b` lies in the chunk `[address, address + size)`. -/
def ChunkEntry.covers (c : ChunkEntry) (b : Nat) : Prop := c.address ≤ b ∧ b < c.address + c.size

instance (c : ChunkEntry) (b : Nat) : Decidable (c.covers b) :=
  inferInstanceAs (Decidable (c.address ≤ b ∧ b < c.address + c.size))

/-- The chunk has no address wraparound: its end is representable as `uintptr_t`. -/
def ChunkEntry.NoWrap (c : ChunkEntry) : Prop := c.address + c.size < 18446744073709551616

instance (c : ChunkEntry) : Decidable c.NoWrap :=
  inferInstanceAs (Decidable (c.address + c.size < 18446744073709551616))

/-- Two chunks share no byte. -/
def ChunkEntry.Disjoint (a c : ChunkEntry) : Prop := ∀ b, ¬ (a.covers b ∧ c.covers b)

/-- Two chunks do not overlap in the sense of `rangesOverlap`. -/
def ChunkEntry.Separate (a c : ChunkEntry) : Prop :=
  rangesOverlap a.address a.size c.address c.size = false

instance (a c : ChunkEntry) : Decidable (a.Separate c) :=
  inferInstanceAs (Decidable (rangesOverlap a.address a.size c.address c.size = false))

/-- `m` is the bounding range of `n` and of chunks taken from `S`, every byte of which lies
in `n` or in one of those chunks. -/
def Hull (S : ChunkEntry → Prop) (n m : ChunkEntry) : Prop :=
  m.NoWrap ∧ m.address ≤ n.address ∧ n.address + n.size ≤ m.address + m.size ∧
    (∀ b, m.covers b → n.covers b ∨ ∃ a, S a ∧ a.covers b) ∧
    (m.address = n.address ∨ ∃ a, S a ∧ m.address = a.address)

/-- `m` is the bounding union of the chunks `cs`: it starts at their minimum start and ends
at their maximum end. -/
def IsBoundingUnion (m : ChunkEntry) (cs : List ChunkEntry) : Prop :=
  (∀ c ∈ cs, m.address ≤ c.address) ∧ (∃ c ∈ cs, m.address = c.address) ∧
    (∀ c ∈ cs, c.address + c.size ≤ m.address + m.size) ∧
    (∃ c ∈ cs, m.address + m.size = c.address + c.size)

instance (m : ChunkEntry) (cs : List ChunkEntry) : Decidable (IsBoundingUnion m cs) :=
  inferInstanceAs (Decidable
    ((∀ c ∈ cs, m.address ≤ c.address) ∧ (∃ c ∈ cs, m.address = c.address) ∧
      (∀ c ∈ cs, c.address + c.size ≤ m.address + m.size) ∧
      (∃ c ∈ cs, m.address + m.size = c.address + c.size)))

/-- Three tracked chunks, `[0, 10)`, `[20, 30)` and `[40, 45)`, used to instantiate the
theorems. -/
def sampleChunks : List ChunkEntry := [⟨0, 10⟩, ⟨20, 10⟩, ⟨40, 5⟩]

end IcdL0CommandList

namespace Logic

namespace HostptrCopiesReader

open Cal.Rpc

/-- The loop of `getHostptrCopiesToUpdate(channel)` with `memoryToRead` filled so far and
`fuel` iterations granted: the vector returned and the channel afterwards, or `none` when the
iterations are used up before the loop has ended.  The byte count `bytesCountToCopy` of a
chunk is the member `size` of `MemChunk`, the second member of the `{nullptr, 0u}` that
`acquireHostptrCopiesUpdate` returns for an empty ring. -/
def collectHostptrCopies : Nat → ChannelClient → List MemChunk →
    Option (List MemChunk × ChannelClient)
  | 0, _, _ => none
  | fuel + 1, channel, memoryToRead =>
    if channel.acquireHostptrCopiesUpdate.1.size = 0 then
      some (memoryToRead, channel.acquireHostptrCopiesUpdate.2)
    else
      collectHostptrCopies fuel channel.acquireHostptrCopiesUpdate.2
        (memoryToRead ++ [channel.acquireHostptrCopiesUpdate.1])

/-- `HostptrCopiesReader::getHostptrCopiesToUpdate(channel)`. -/
def getHostptrCopiesToUpdate (fuel : Nat) (channel : ChannelClient) :
    Option (List MemChunk × ChannelClient) :=
  collectHostptrCopies fuel channel []

/-- `sampleClient` with three chunks pending in its host-pointer copies ring, the second of
zero bytes. -/
def clientWithEmptyCopy : ChannelClient :=
  { ChannelClient.sampleClient with
    shared := (ChannelServer.sampleServer.pushHostptrCopies
      [⟨1000, 16⟩, ⟨2000, 0⟩, ⟨3000, 32⟩]).2.shared }

end HostptrCopiesReader

end Logic

end LevelZero

end Icd

namespace Service

namespace LevelZero

/-- Modelled from the spec: the element type of `ongoingOperations` and of the vectors of
`operationsForResubmit` (`service/level_zero/ongoing_hostptr_copies_manager.h` is not among
the sources), with the members that the functions of the manager read and write.  Handles
and pointers are their values as integers. -/
structure OngoingOperation where
  commandList : Nat
  associatedEvent : Nat
  destination : Nat
  destinationSize : Nat
  isFinished : Bool
  canBeResubmitted : Bool
deriving DecidableEq

/-- `OngoingHostptrCopiesManager::OngoingHostptrCopy`: what `acquireFinishedCopies` returns
for one operation. -/
structure OngoingHostptrCopy where
  destination : Nat
  destinationSize : Nat
deriving DecidableEq

/-- A call made on the `ArtificialEventsManager`
(`service/level_zero/artificial_events_manager.h` is not among the sources), with the event
passed. -/
inductive EventsManagerCall where
  | resetObtainedEvent (event : Nat)
  | returnObtainedEvent (event : Nat)
deriving DecidableEq

/-- The members of `OngoingHostptrCopiesManager`.  `operationsForResubmit` maps a command
list to its vector of staged operations, `none` when the map has no such key. -/
structure OngoingHostptrCopiesManager where
  ongoingOperations : List OngoingOperation
  operationsForResubmit : Nat → Option (List OngoingOperation)

namespace OngoingHostptrCopiesManager

/-- `registerCopyOperation(commandList, associatedEvent, destination, destinationSize,
canBeResubmitted)`. -/
def registerCopyOperation (m : OngoingHostptrCopiesManager)
    (commandList associatedEvent destination destinationSize : Nat)
    (canBeResubmitted : Bool) : OngoingHostptrCopiesManager :=
  { m with ongoingOperations := m.ongoingOperations ++
      [⟨commandList, associatedEvent, destination, destinationSize, false, canBeResubmitted⟩] }

/-- `updateAwaitedEvents()`: the count returned and the manager afterwards.
`queryEventStatus event` tells whether `zeEventQueryStatus(event)` is
`ZE_RESULT_SUCCESS`. -/
def updateAwaitedEvents (queryEventStatus : Nat → Bool) (m : OngoingHostptrCopiesManager) :
    Nat × OngoingHostptrCopiesManager :=
  (m.ongoingOperations.countP
      (fun operation => !operation.isFinished && queryEventStatus operation.associatedEvent),
    { m with ongoingOperations := m.ongoingOperations.map (fun operation =>
        if operation.isFinished then operation
        else if queryEventStatus operation.associatedEvent then
          { operation with isFinished := true }
        else operation) })

/-- `resubmitOperationsOfCommandList(commandList)`. -/
def resubmitOperationsOfCommandList (m : OngoingHostptrCopiesManager) (commandList : Nat) :
    OngoingHostptrCopiesManager :=
  match m.operationsForResubmit commandList with
  | none => m
  | some operationsOfCommandList =>
    { ongoingOperations := m.ongoingOperations ++
        operationsOfCommandList.map (fun operation => { operation with isFinished := false })
      operationsForResubmit := Function.update m.operationsForResubmit commandList (some []) }

/-- `freeOperationsOfCommandList(commandList, eventsManager)`: the manager afterwards and
the calls made on the events manager, in order. -/
def freeOperationsOfCommandList (m : OngoingHostptrCopiesManager) (commandList : Nat) :
    OngoingHostptrCopiesManager × List EventsManagerCall :=
  let calls := m.ongoingOperations.filterMap (fun operation =>
    if operation.commandList = commandList then
      some (EventsManagerCall.returnObtainedEvent operation.associatedEvent)
    else none)
  let needsToCallRemove :=
    m.ongoingOperations.any (fun operation => decide (operation.commandList = commandList))
  let ongoing :=
    if needsToCallRemove then
      m.ongoingOperations.filter (fun operation => !decide (operation.commandList = commandList))
    else m.ongoingOperations
  match m.operationsForResubmit commandList with
  | some staged =>
    ({ ongoingOperations := ongoing
       operationsForResubmit := Function.update m.operationsForResubmit commandList none },
      calls ++ staged.map
        (fun operation => EventsManagerCall.returnObtainedEvent operation.associatedEvent))
  | none => ({ m with ongoingOperations := ongoing }, calls)

/-- One iteration of the loop of `acquireFinishedCopies` over `operation`: the map
`operationsForResubmit`, the calls made on the events manager and `result` afterwards. -/
def acquireStep
    (state : (Nat → Option (List OngoingOperation)) × List EventsManagerCall ×
      List OngoingHostptrCopy)
    (operation : OngoingOperation) :
    (Nat → Option (List OngoingOperation)) × List EventsManagerCall ×
      List OngoingHostptrCopy :=
  if operation.isFinished = false then
    state
  else if operation.canBeResubmitted then
    (Function.update state.1 operation.commandList
        (some ((state.1 operation.commandList).getD [] ++ [operation])),
      state.2.1 ++ [EventsManagerCall.resetObtainedEvent operation.associatedEvent],
      state.2.2 ++ [⟨operation.destination, operation.destinationSize⟩])
  else
    (state.1,
      state.2.1 ++ [EventsManagerCall.returnObtainedEvent operation.associatedEvent],
      state.2.2 ++ [⟨operation.destination, operation.destinationSize⟩])

/-- `acquireFinishedCopies(eventsManager)`: the vector returned, the manager afterwards and
the calls made on the events manager, in order. -/
def acquireFinishedCopies (m : OngoingHostptrCopiesManager) :
    List OngoingHostptrCopy × OngoingHostptrCopiesManager × List EventsManagerCall :=
  let count := m.ongoingOperations.countP (fun operation => operation.isFinished)
  if count = 0 then
    ([], m, [])
  else
    let loop := m.ongoingOperations.foldl acquireStep (m.operationsForResubmit, [], [])
    (loop.2.2,
      { ongoingOperations :=
          m.ongoingOperations.filter (fun operation => !operation.isFinished)
        operationsForResubmit := loop.1 },
      loop.2.1)

/-- The call that `acquireFinishedCopies` makes on the events manager for a finished
operation. -/
def disposition (operation : OngoingOperation) : EventsManagerCall :=
  if operation.canBeResubmitted then
    EventsManagerCall.resetObtainedEvent operation.associatedEvent
  else
    EventsManagerCall.returnObtainedEvent operation.associatedEvent

/-- Every operation staged for resubmission sits in the vector of its own command list. -/
def WellKeyed (m : OngoingHostptrCopiesManager) : Prop :=
  ∀ commandList staged, m.operationsForResubmit commandList = some staged →
    ∀ operation ∈ staged, operation.commandList = commandList

/-- The vector of a command list after the operations `added` have been appended to it, one
`operationsForResubmit[commandList].push_back` each: the key exists as soon as one
operation has been appended. -/
def appended (bucket : Option (List OngoingOperation)) (added : List OngoingOperation) :
    Option (List OngoingOperation) :=
  if added = [] then bucket else some (bucket.getD [] ++ added)

/-- The manager states reached from an empty manager by calls of its member functions. -/
inductive Reachable : OngoingHostptrCopiesManager → Prop where
  | empty : Reachable ⟨[], fun _ => none⟩
  | registerCopyOperation (m : OngoingHostptrCopiesManager)
      (commandList associatedEvent destination destinationSize : Nat)
      (canBeResubmitted : Bool) :
      Reachable m →
      Reachable (m.registerCopyOperation commandList associatedEvent destination
        destinationSize canBeResubmitted)
  | updateAwaitedEvents (m : OngoingHostptrCopiesManager) (queryEventStatus : Nat → Bool) :
      Reachable m → Reachable (m.updateAwaitedEvents queryEventStatus).2
  | resubmitOperationsOfCommandList (m : OngoingHostptrCopiesManager) (commandList : Nat) :
      Reachable m → Reachable (m.resubmitOperationsOfCommandList commandList)
  | freeOperationsOfCommandList (m : OngoingHostptrCopiesManager) (commandList : Nat) :
      Reachable m → Reachable (m.freeOperationsOfCommandList commandList).1
  | acquireFinishedCopies (m : OngoingHostptrCopiesManager) :
      Reachable m → Reachable m.acquireFinishedCopies.2.1

/-- A manager with four ongoing operations, of the command lists 7 and 8, two of them
finished, and one operation of the command list 7 staged for resubmission; used to
instantiate the theorems. -/
def sampleManager : OngoingHostptrCopiesManager :=
  { ongoingOperations :=
      [⟨7, 101, 4096, 64, true, true⟩, ⟨8, 102, 8192, 32, false, false⟩,
        ⟨7, 103, 12288, 16, true, false⟩, ⟨7, 104, 16384, 8, false, true⟩]
    operationsForResubmit := Function.update (fun _ => none) 7 (some [⟨7, 100, 0, 128, true, true⟩]) }

end OngoingHostptrCopiesManager

end LevelZero

end Service

end Cal

namespace Cal.Rpc.TypedRing

variable {α : Type}

theorem toInt64_of_range (z : Int) (h0 : -9223372036854775808 ≤ z)
    (h1 : z < 9223372036854775808) : toInt64 z = z := by
  unfold toInt64; omega

theorem push_unfold (r : TypedRing α) (el : α) :
    r.push el =
      if r.tail ≥ r.head then
        if toInt64 (r.capacity : Int) > toInt64 (r.tail + 1) then
          (true, { r with data := Function.update r.data r.tail el,
                          tail := toInt64 (r.tail + 1) })
        else if r.head = 0 then (false, r)
        else (true, { r with data := Function.update r.data r.tail el, tail := 0,
                             iteration := (r.iteration + 1) % 18446744073709551616 })
      else if toInt64 (r.tail + 1) < r.head then
        (true, { r with data := Function.update r.data r.tail el,
                        tail := toInt64 (r.tail + 1) })
      else (false, r) := rfl

theorem pop_unfold (r : TypedRing α) :
    r.pop =
      if r.head = r.tail then (false, r)
      else (true, { r with head := if toInt64 (r.head + 1) = toInt64 (r.capacity : Int) then 0
                                   else toInt64 (r.head + 1) }) := by
  unfold pop peekEmpty peekHeadOffset peekTailOffset
  by_cases h : r.head = r.tail <;> simp [h]

theorem succ_emod (cap : Nat) (t : Int) (h0 : 0 ≤ t) (h1 : t < (cap : Int)) :
    (t + 1) % (cap : Int) = nextIndex cap t := by
  unfold nextIndex
  split
  · next h => rw [h]; exact Int.emod_self
  · next h => exact Int.emod_eq_of_lt (by omega) (by omega)

theorem slotsFrom_update (data : Int → α) (cap : Nat) (t : Int) (el : α) (ht0 : 0 ≤ t)
    (ht1 : t < (cap : Int)) :
    ∀ (n : Nat) (h : Int), 0 ≤ h → h < (cap : Int) → distance cap h t = n →
      slotsFrom (Function.update data t el) cap h (n + 1) = slotsFrom data cap h n ++ [el] := by
  intro n
  induction n with
  | zero =>
    intro h hh0 hh1 hd
    have : h = t := by unfold distance at hd; split_ifs at hd <;> omega
    subst this
    simp [slotsFrom]
  | succ n ih =>
    intro h hh0 hh1 hd
    have hne : h ≠ t := by
      intro e; subst e; simp [distance] at hd
    have hstep : slotsFrom (Function.update data t el) cap (nextIndex cap h) (n + 1)
        = slotsFrom data cap (nextIndex cap h) n ++ [el] := by
      apply ih
      · unfold nextIndex; split_ifs <;> omega
      · unfold nextIndex; split_ifs <;> omega
      · unfold nextIndex distance at *; split_ifs at * <;> omega
    rw [slotsFrom, hstep, Function.update_noteq hne]
    simp [slotsFrom]

theorem push_of_not_full (r : TypedRing α) (el : α) (hr : r.InRange) (hf : ¬ r.isFull) :
    (r.push el).1 = true ∧ (r.push el).2.InRange ∧
      (r.push el).2.pending = r.pending ++ [el] := by
  obtain ⟨h0, h1, t0, t1, hc⟩ := hr
  have hfull : nextIndex r.capacity r.tail ≠ r.head := by
    rw [← succ_emod r.capacity r.tail t0 t1]; exact hf
  have hcap : toInt64 (r.capacity : Int) = (r.capacity : Int) :=
    toInt64_of_range _ (by omega) (by omega)
  have htl : toInt64 (r.tail + 1) = r.tail + 1 := toInt64_of_range _ (by omega) (by omega)
  have hupd := slotsFrom_update r.data r.capacity r.tail el t0 t1 r.count r.head h0 h1 rfl
  have hd1 : r.tail + 1 ≠ r.head → r.tail + 1 < (r.capacity : Int) →
      distance r.capacity r.head (r.tail + 1) = r.count + 1 := by
    intro _ _; unfold count distance; split_ifs <;> omega
  have hd0 : r.tail + 1 = (r.capacity : Int) → r.head ≠ 0 →
      distance r.capacity r.head 0 = r.count + 1 := by
    intro _ _; unfold count distance; split_ifs <;> omega
  unfold nextIndex at hfull
  rw [push_unfold, hcap, htl]
  by_cases hge : r.tail ≥ r.head
  · rw [if_pos hge]
    by_cases hlt : (r.capacity : Int) > r.tail + 1
    · rw [if_pos hlt]
      refine ⟨rfl, ⟨h0, h1, by simp only; omega, by simp only; omega, hc⟩, ?_⟩
      unfold pending
      show slotsFrom _ r.capacity r.head (distance r.capacity r.head (r.tail + 1)) = _
      rw [hd1 (by omega) (by omega)]; exact hupd
    · rw [if_neg hlt]
      have hz : r.head ≠ 0 := by
        intro e; split_ifs at hfull <;> omega
      rw [if_neg hz]
      refine ⟨rfl, ⟨h0, h1, by simp only; omega, by simp only; omega, hc⟩, ?_⟩
      unfold pending
      show slotsFrom _ r.capacity r.head (distance r.capacity r.head 0) = _
      rw [hd0 (by omega) hz]; exact hupd
  · rw [if_neg hge]
    have hlt : r.tail + 1 < r.head := by split_ifs at hfull <;> omega
    rw [if_pos hlt]
    refine ⟨rfl, ⟨h0, h1, by simp only; omega, by simp only; omega, hc⟩, ?_⟩
    unfold pending
    show slotsFrom _ r.capacity r.head (distance r.capacity r.head (r.tail + 1)) = _
    rw [hd1 (by omega) (by omega)]; exact hupd

theorem pop_of_not_empty (r : TypedRing α) (hr : r.InRange) (he : r.peekEmpty = false) :
    r.pop.1 = true ∧ r.pop.2.InRange ∧ r.pending = r.peekHead :: r.pop.2.pending := by
  obtain ⟨h0, h1, t0, t1, hc⟩ := hr
  have hne : r.head ≠ r.tail := by
    simpa [peekEmpty, peekHeadOffset, peekTailOffset] using he
  have hcap : toInt64 (r.capacity : Int) = (r.capacity : Int) :=
    toInt64_of_range _ (by omega) (by omega)
  have hhd : toInt64 (r.head + 1) = r.head + 1 := toInt64_of_range _ (by omega) (by omega)
  have hcount : r.count = distance r.capacity (nextIndex r.capacity r.head) r.tail + 1 := by
    unfold count distance nextIndex; split_ifs <;> omega
  have hn0 : 0 ≤ nextIndex r.capacity r.head := by unfold nextIndex; split_ifs <;> omega
  have hn1 : nextIndex r.capacity r.head < (r.capacity : Int) := by
    unfold nextIndex; split_ifs <;> omega
  rw [pop_unfold, if_neg hne, hcap, hhd]
  refine ⟨rfl, ⟨hn0, hn1, t0, t1, hc⟩, ?_⟩
  unfold pending peekHead peekHeadOffset
  rw [hcount]
  rfl

theorem fifo_general : ∀ (ops : List (Op α)) (r : TypedRing α), r.InRange →
    neverOverruns r ops →
    ∃ rest, r.pending ++ pushedValues ops = popTrace r ops ++ rest := by
  intro ops
  induction ops with
  | nil => intro r _ _; exact ⟨r.pending, by simp [pushedValues, popTrace]⟩
  | cons op ops ih =>
    intro r hr hn
    cases op with
    | push el =>
      obtain ⟨hf, hn2⟩ := hn
      obtain ⟨_, hr2, hp⟩ := push_of_not_full r el hr hf
      obtain ⟨rest, h⟩ := ih (r.push el).2 hr2 hn2
      refine ⟨rest, ?_⟩
      rw [hp] at h
      simpa [pushedValues, popTrace] using h
    | pop =>
      obtain ⟨he, hn2⟩ := hn
      obtain ⟨_, hr2, hp⟩ := pop_of_not_empty r hr he
      obtain ⟨rest, h⟩ := ih r.pop.2 hr2 hn2
      refine ⟨rest, ?_⟩
      rw [hp]
      simpa [pushedValues, popTrace] using h

theorem popTrace_length : ∀ (ops : List (Op α)) (r : TypedRing α),
    (popTrace r ops).length = popCount ops := by
  intro ops
  induction ops with
  | nil => intro r; rfl
  | cons op ops ih =>
    intro r
    cases op with
    | push el => simpa [popTrace, popCount] using ih _
    | pop => simpa [popTrace, popCount] using ih _

theorem pending_reset (r : TypedRing α) : r.reset.pending = [] := by
  simp [pending, reset, count, distance, slotsFrom]

theorem push_degenerate (r : TypedRing α) (el : α) (hd : r.Degenerate) :
    r.push el = (false, r) := by
  obtain ⟨h, t, hc⟩ := hd
  have h1 : toInt64 (0 + 1) = 1 := by unfold toInt64; omega
  rw [push_unfold, h, t, h1]
  simp only [ge_iff_le, le_refl, if_true, gt_iff_lt]
  rw [if_neg (by omega)]

theorem trace_degenerate : ∀ (ops : List (Op α)) (r : TypedRing α), r.Degenerate →
    neverOverruns r ops → popTrace r ops = [] ∧ popCount ops = 0 := by
  intro ops
  induction ops with
  | nil => intro r _ _; exact ⟨rfl, rfl⟩
  | cons op ops ih =>
    intro r hd hn
    cases op with
    | push el =>
      have hp := push_degenerate r el hd
      have h2 : neverOverruns (r.push el).2 ops := hn.2
      rw [hp] at h2
      have := ih r hd h2
      simpa [popTrace, popCount, hp] using this
    | pop =>
      have he : r.peekEmpty = false := hn.1
      obtain ⟨h, t, _⟩ := hd
      simp [peekEmpty, peekHeadOffset, peekTailOffset, h, t] at he

theorem inRange_or_degenerate_reset (r : TypedRing α)
    (h64 : r.capacity < 18446744073709551616) : r.reset.InRange ∨ r.reset.Degenerate := by
  by_cases hc : 1 ≤ r.capacity ∧ r.capacity < 9223372036854775808
  · left
    refine ⟨le_refl _, ?_, le_refl _, ?_, hc.2⟩ <;>
    · show (0 : Int) < (r.capacity : Int)
      omega
  · right
    refine ⟨rfl, rfl, ?_⟩
    show toInt64 (r.capacity : Int) ≤ 1
    unfold toInt64
    omega

theorem pushAll_append : ∀ (as bs : List α) (r : TypedRing α),
    pushAll r (as ++ bs) =
      ((pushAll r as).1 ++ (pushAll (pushAll r as).2 bs).1, (pushAll (pushAll r as).2 bs).2) := by
  intro as
  induction as with
  | nil => intro bs r; rfl
  | cons a as ih =>
    intro bs r
    show ((r.push a).1 :: (pushAll (r.push a).2 (as ++ bs)).1,
        (pushAll (r.push a).2 (as ++ bs)).2) = _
    rw [ih]
    rfl

theorem pushAll_room : ∀ (els : List α) (r : TypedRing α), r.head = 0 → 0 ≤ r.tail →
    r.tail + (els.length : Int) < (r.capacity : Int) → r.capacity < 9223372036854775808 →
    (pushAll r els).1 = List.replicate els.length true ∧ (pushAll r els).2.head = 0 ∧
      (pushAll r els).2.tail = r.tail + (els.length : Int) ∧
      (pushAll r els).2.capacity = r.capacity := by
  intro els
  induction els with
  | nil => intro r h t _ _; exact ⟨rfl, h, by simp [pushAll], rfl⟩
  | cons el els ih =>
    intro r h t hlen hc
    simp only [List.length_cons, Nat.cast_add, Nat.cast_one] at hlen
    have hcap : toInt64 (r.capacity : Int) = (r.capacity : Int) :=
      toInt64_of_range _ (by omega) (by omega)
    have htl : toInt64 (r.tail + 1) = r.tail + 1 := toInt64_of_range _ (by omega) (by omega)
    have hp : r.push el =
        (true, { r with data := Function.update r.data r.tail el, tail := r.tail + 1 }) := by
      rw [push_unfold, hcap, htl, if_pos (show r.tail ≥ r.head by omega),
        if_pos (show (r.capacity : Int) > r.tail + 1 by omega)]
    obtain ⟨a, b, c, d⟩ :=
      ih { r with data := Function.update r.data r.tail el, tail := r.tail + 1 } h
        (by simp only; omega) (by simp only; omega) hc
    simp only [pushAll, hp]
    refine ⟨?_, b, ?_, d⟩
    · rw [a]; rfl
    · rw [c]; simp only [List.length_cons, Nat.cast_add, Nat.cast_one]; omega

theorem push_at_last_slot (r : TypedRing α) (el : α) (h : r.head = 0)
    (t : r.tail + 1 = (r.capacity : Int)) (hc : r.capacity < 9223372036854775808) :
    (r.push el).1 = false := by
  have hcap : toInt64 (r.capacity : Int) = (r.capacity : Int) :=
    toInt64_of_range _ (by omega) (by omega)
  have htl : toInt64 (r.tail + 1) = r.tail + 1 := toInt64_of_range _ (by omega) (by omega)
  rw [push_unfold, hcap, htl]
  split_ifs <;> first | rfl | omega

theorem push_capacity (r : TypedRing α) (el : α) : (r.push el).2.capacity = r.capacity := by
  rw [push_unfold]; split_ifs <;> rfl

theorem pop_capacity (r : TypedRing α) : r.pop.2.capacity = r.capacity := by
  rw [pop_unfold]; split_ifs <;> rfl

theorem push_of_full (r : TypedRing α) (el : α) (hr : r.InRange) (hf : r.isFull) :
    r.push el = (false, r) := by
  obtain ⟨h0, h1, t0, t1, hc⟩ := hr
  have hfull : nextIndex r.capacity r.tail = r.head := by
    rw [← succ_emod r.capacity r.tail t0 t1]; exact hf
  have hcap : toInt64 (r.capacity : Int) = (r.capacity : Int) :=
    toInt64_of_range _ (by omega) (by omega)
  have htl : toInt64 (r.tail + 1) = r.tail + 1 := toInt64_of_range _ (by omega) (by omega)
  unfold nextIndex at hfull
  rw [push_unfold, hcap, htl]
  split_ifs at hfull ⊢ <;> first | rfl | omega

theorem push_inRange (r : TypedRing α) (el : α) (hr : r.InRange) : (r.push el).2.InRange := by
  by_cases hf : r.isFull
  · rw [push_of_full r el hr hf]; exact hr
  · exact (push_of_not_full r el hr hf).2.1

theorem pop_inRange (r : TypedRing α) (hr : r.InRange) : r.pop.2.InRange := by
  by_cases he : r.head = r.tail
  · rw [pop_unfold, if_pos he]; exact hr
  · exact (pop_of_not_empty r hr (by simp [peekEmpty, peekHeadOffset, peekTailOffset, he])).2.1

theorem pop_degenerate (r : TypedRing α) (hd : r.Degenerate) : r.pop = (false, r) := by
  rw [pop_unfold, if_pos (by rw [hd.1, hd.2.1])]

theorem reachable_inv (r : TypedRing α) (hr : Reachable r) :
    r.capacity < 18446744073709551616 → r.InRange ∨ r.Degenerate := by
  induction hr with
  | reset r => exact inRange_or_degenerate_reset r
  | push r el _ ih =>
    intro h64
    rw [push_capacity] at h64
    rcases ih h64 with h | h
    · exact Or.inl (push_inRange r el h)
    · rw [push_degenerate r el h]; exact Or.inr h
  | pop r _ ih =>
    intro h64
    rw [pop_capacity] at h64
    rcases ih h64 with h | h
    · exact Or.inl (pop_inRange r h)
    · rw [pop_degenerate r h]; exact Or.inr h

theorem pop_head_of_inRange (r : TypedRing α) (hr : r.InRange) (hne : r.head ≠ r.tail) :
    r.pop.2.head = (r.head + 1) % (r.capacity : Int) := by
  obtain ⟨h0, h1, t0, t1, hc⟩ := hr
  have hcap : toInt64 (r.capacity : Int) = (r.capacity : Int) :=
    toInt64_of_range _ (by omega) (by omega)
  have hhd : toInt64 (r.head + 1) = r.head + 1 := toInt64_of_range _ (by omega) (by omega)
  rw [pop_unfold, if_neg hne, hcap, hhd, succ_emod r.capacity r.head h0 h1]
  rfl

end Cal.Rpc.TypedRing

namespace Cal.Rpc.TypedRing

variable {α : Type}

/-- C1 (ring FIFO). For every capacity (a `size_t`, hence below 2^64; in particular every
capacity of at least 2) and every sequence of `push` / `pop` calls on a ring starting from `reset()` in which no push is
attempted on a full ring and no pop on an empty ring, the values read through `peekHead()`
immediately before each pop are the pushed values, in the order they were pushed: the
`k` pops of the sequence read the first `k` pushed values. -/
theorem ring_fifo (r : TypedRing α) (ops : List (Op α))
    (h64 : r.capacity < 18446744073709551616) (hok : neverOverruns r.reset ops) :
    popTrace r.reset ops = (pushedValues ops).take (popCount ops) := by
  rcases inRange_or_degenerate_reset r h64 with hr | hd
  · obtain ⟨rest, h⟩ := fifo_general ops r.reset hr hok
    rw [pending_reset, List.nil_append] at h
    rw [h, ← popTrace_length ops r.reset, List.take_left]
  · obtain ⟨h1, h2⟩ := trace_degenerate ops r.reset hd hok
    rw [h1, h2, List.take_zero]

/-- Instance of `ring_fifo` on a ring of four slots, with pushes and pops interleaved across
the wraparound of both counters. -/
theorem ring_fifo_witness :
    neverOverruns ring4.reset
        [Op.push 1, Op.push 2, Op.pop, Op.push 3, Op.push 4, Op.pop, Op.pop, Op.push 5,
          Op.pop, Op.pop] ∧
      popTrace ring4.reset
        [Op.push 1, Op.push 2, Op.pop, Op.push 3, Op.push 4, Op.pop, Op.pop, Op.push 5,
          Op.pop, Op.pop] =
      (pushedValues
        [Op.push 1, Op.push 2, Op.pop, Op.push 3, Op.push 4, Op.pop, Op.pop, Op.push 5,
          Op.pop, Op.pop]).take
        (popCount
          [Op.push 1, Op.push 2, Op.pop, Op.push 3, Op.push 4, Op.pop, Op.pop, Op.push 5,
            Op.pop, Op.pop]) :=
  ⟨by decide, ring_fifo ring4 _ (by decide) (by decide)⟩

/-- C2. For every ring state, if `push(item)` returns false then the ring is left exactly as
it was: head offset, tail offset, every data slot and the iteration counter are those of
before the call, so `peekEmpty()` and both offsets answer the same. -/
theorem push_false_unchanged (r : TypedRing α) (el : α) (hfail : (r.push el).1 = false) :
    (r.push el).2 = r ∧
      (r.push el).2.peekHeadOffset = r.peekHeadOffset ∧
      (r.push el).2.peekTailOffset = r.peekTailOffset ∧
      (r.push el).2.data = r.data ∧
      (r.push el).2.peekIteration = r.peekIteration ∧
      (r.push el).2.peekEmpty = r.peekEmpty := by
  have h : (r.push el).2 = r := by
    rw [push_unfold] at hfail ⊢
    split_ifs at hfail ⊢ <;> rfl
  rw [h]
  exact ⟨rfl, rfl, rfl, rfl, rfl, rfl⟩

/-- Instance of `push_false_unchanged`: a push on a ring of four slots that already holds
three entries. -/
theorem push_false_unchanged_witness :
    ((pushAll ring4.reset [1, 2, 3]).2.push 4).1 = false ∧
      (((pushAll ring4.reset [1, 2, 3]).2.push 4).2 = (pushAll ring4.reset [1, 2, 3]).2 ∧
        ((pushAll ring4.reset [1, 2, 3]).2.push 4).2.peekHeadOffset =
          (pushAll ring4.reset [1, 2, 3]).2.peekHeadOffset ∧
        ((pushAll ring4.reset [1, 2, 3]).2.push 4).2.peekTailOffset =
          (pushAll ring4.reset [1, 2, 3]).2.peekTailOffset ∧
        ((pushAll ring4.reset [1, 2, 3]).2.push 4).2.data =
          (pushAll ring4.reset [1, 2, 3]).2.data ∧
        ((pushAll ring4.reset [1, 2, 3]).2.push 4).2.peekIteration =
          (pushAll ring4.reset [1, 2, 3]).2.peekIteration ∧
        ((pushAll ring4.reset [1, 2, 3]).2.push 4).2.peekEmpty =
          (pushAll ring4.reset [1, 2, 3]).2.peekEmpty) :=
  ⟨by decide, push_false_unchanged (pushAll ring4.reset [1, 2, 3]).2 4 (by decide)⟩

/-- C3, the claim refuted at capacity 2: from a freshly reset ring of capacity 2, the
second of two consecutive pushes returns false. -/
theorem push_capacity_items_counterexample :
    ring2.getCapacity = 2 ∧ (pushAll ring2.reset [7, 8]).1 = [true, false] ∧
      ¬ (∀ b ∈ (pushAll ring2.reset [7, 8]).1, b = true) := by
  decide

/-- C3 as amended (ring capacity boundary). Starting from a freshly reset ring of capacity
`c` with `1 ≤ c < 2^63`, of `c` consecutive push calls with no intervening pop the first
`c - 1` return true and the `c`-th returns false: one slot always stays free. -/
theorem push_capacity_boundary (r : TypedRing α) (els : List α) (el : α)
    (hlen : els.length + 1 = r.capacity) (hc : r.capacity < 9223372036854775808) :
    (pushAll r.reset (els ++ [el])).1 = List.replicate els.length true ++ [false] := by
  have hroom := pushAll_room els r.reset rfl (le_refl _)
    (by show (0 : Int) + (els.length : Int) < (r.capacity : Int); omega) hc
  obtain ⟨a, b, c, d⟩ := hroom
  have hlast := push_at_last_slot (pushAll r.reset els).2 el b
    (by rw [c, d]; show (0 : Int) + (els.length : Int) + 1 = (r.capacity : Int); omega)
    (by rw [d]; exact hc)
  rw [pushAll_append, a]
  simp only [pushAll, hlast]

/-- Instance of `push_capacity_boundary` on a ring of four slots. -/
theorem push_capacity_boundary_witness :
    [1, 2, 3].length + 1 = ring4.capacity ∧ ring4.capacity < 9223372036854775808 ∧
      (pushAll ring4.reset ([1, 2, 3] ++ [4])).1 =
        List.replicate [1, 2, 3].length true ++ [false] :=
  ⟨by decide, by decide, push_capacity_boundary ring4 [1, 2, 3] 4 (by decide) (by decide)⟩

/-- C4 as amended. For every ring state whose head and tail are slot indices (0 ≤ head <
capacity, 0 ≤ tail < capacity) and whose capacity is below 2^63, so that
`static_cast<int64_t>(capacity)` keeps its value, `push` returns false if and only if the ring is full in the sense that advancing the tail by one
with wraparound, `(tail + 1) mod capacity`, would make it equal to head; in every other
state `push` returns true, stores the item in slot `tail` (no other slot changes) and sets
tail to `(tail + 1) mod capacity`, leaving head in place. -/
theorem push_full_iff (r : TypedRing α) (el : α) (h0 : 0 ≤ r.head)
    (h1 : r.head < (r.capacity : Int)) (t0 : 0 ≤ r.tail) (t1 : r.tail < (r.capacity : Int))
    (hc : r.capacity < 9223372036854775808) :
    ((r.push el).1 = false ↔ (r.tail + 1) % (r.capacity : Int) = r.head) ∧
      ((r.tail + 1) % (r.capacity : Int) ≠ r.head →
        (r.push el).1 = true ∧
          (r.push el).2.data = Function.update r.data r.tail el ∧
          (r.push el).2.tail = (r.tail + 1) % (r.capacity : Int) ∧
          (r.push el).2.head = r.head ∧
          (r.push el).2.capacity = r.capacity) := by
  have hcap : toInt64 (r.capacity : Int) = (r.capacity : Int) :=
    toInt64_of_range _ (by omega) (by omega)
  have htl : toInt64 (r.tail + 1) = r.tail + 1 := toInt64_of_range _ (by omega) (by omega)
  rw [succ_emod r.capacity r.tail t0 t1, push_unfold, hcap, htl]
  unfold nextIndex
  refine ⟨?_, ?_⟩
  · split_ifs <;> simp <;> omega
  · intro hne
    split_ifs at hne ⊢ <;> first | exact ⟨rfl, rfl, rfl, rfl, rfl⟩ | omega

/-- Instance of `push_full_iff`: a ring of four slots with head = 2 and tail = 3, where
the push wraps the tail to slot 0. -/
theorem push_full_iff_witness :
    (0 : Int) ≤ 2 ∧ (2 : Int) < ((4 : Nat) : Int) ∧ (0 : Int) ≤ 3 ∧
      (3 : Int) < ((4 : Nat) : Int) ∧ (4 : Nat) < 9223372036854775808 ∧
      (((push (TypedRing.mk (fun _ => 0) 4 2 3 0) 9).1 = false ↔
          ((3 : Int) + 1) % ((4 : Nat) : Int) = 2) ∧
        (((3 : Int) + 1) % ((4 : Nat) : Int) ≠ 2 →
          (push (TypedRing.mk (fun _ => 0) 4 2 3 0) 9).1 = true ∧
            (push (TypedRing.mk (fun _ => 0) 4 2 3 0) 9).2.data =
              Function.update (fun _ => 0) 3 9 ∧
            (push (TypedRing.mk (fun _ => 0) 4 2 3 0) 9).2.tail =
              ((3 : Int) + 1) % ((4 : Nat) : Int) ∧
            (push (TypedRing.mk (fun _ => 0) 4 2 3 0) 9).2.head = 2 ∧
            (push (TypedRing.mk (fun _ => 0) 4 2 3 0) 9).2.capacity = 4)) :=
  ⟨by decide, by decide, by decide, by decide, by decide,
    push_full_iff (TypedRing.mk (fun _ => (0 : Nat)) 4 2 3 0) 9 (by decide) (by decide)
      (by decide) (by decide) (by decide)⟩

/-- C5. `pop` returns false if and only if the ring is empty (head == tail), and in that
case changes nothing; otherwise, in every state the ring reaches from `reset()` through
`push` and `pop` calls (capacity being a `size_t`), it returns true and sets head to
`(head + 1) mod capacity`, leaving tail, slots, capacity and iteration counter in place. -/
theorem pop_spec (r : TypedRing α) :
    (r.pop.1 = false ↔ r.head = r.tail) ∧
      (r.head = r.tail → r.pop.2 = r) ∧
      (r.head ≠ r.tail → r.pop.1 = true ∧ r.pop.2.tail = r.tail ∧ r.pop.2.data = r.data ∧
        r.pop.2.capacity = r.capacity ∧ r.pop.2.iteration = r.iteration) ∧
      (Reachable r → r.capacity < 18446744073709551616 → r.head ≠ r.tail →
        r.pop.2.head = (r.head + 1) % (r.capacity : Int)) := by
  refine ⟨?_, ?_, ?_, ?_⟩
  · rw [pop_unfold]; split_ifs with h <;> simp [h]
  · intro h; rw [pop_unfold, if_pos h]
  · intro h; rw [pop_unfold, if_neg h]; exact ⟨rfl, rfl, rfl, rfl, rfl⟩
  · intro hr h64 hne
    rcases reachable_inv r hr h64 with h | h
    · exact pop_head_of_inRange r h hne
    · exact absurd (h.1.trans h.2.1.symm) hne

/-- Instance of `pop_spec` at a state reached from `reset()`: a ring of four slots after
three pushes, three pops and one more push, whose head then wraps from slot 3 to slot 0. -/
theorem pop_spec_witness :
    Reachable ring4Wrapped ∧ ring4Wrapped.capacity < 18446744073709551616 ∧
      ring4Wrapped.head ≠ ring4Wrapped.tail ∧ ring4Wrapped.head = 3 ∧
      ring4Wrapped.pop.2.head = (ring4Wrapped.head + 1) % (ring4Wrapped.capacity : Int) :=
  ⟨Reachable.push _ 4 (Reachable.pop _ (Reachable.pop _ (Reachable.pop _
      (Reachable.push _ 3 (Reachable.push _ 2 (Reachable.push _ 1 (Reachable.reset ring4))))))),
    by decide, by decide, by decide,
    (pop_spec ring4Wrapped).2.2.2
      (Reachable.push _ 4 (Reachable.pop _ (Reachable.pop _ (Reachable.pop _
        (Reachable.push _ 3 (Reachable.push _ 2 (Reachable.push _ 1
          (Reachable.reset ring4))))))))
      (by decide) (by decide)⟩

end Cal.Rpc.TypedRing

namespace Cal.Rpc.CommandsChannel

open Cal.Utils

theorem toU64_toInt64 (n : Nat) (h : n < 18446744073709551616) :
    toU64 (toInt64 (n : Int)) = n := by
  unfold toU64 toInt64
  omega

theorem toU64_of_range (z : Int) (h0 : 0 ≤ z) (h1 : z < 18446744073709551616) :
    (toU64 z : Int) = z := by
  unfold toU64
  omega

theorem regions_defaultLayout (shmemSize : Nat) :
    regions (defaultLayout shmemSize) =
      defaultFixedRegions ++ [("heap", ⟨16384, toU64 (toInt64 (shmemSize : Int))⟩, 4096)] := by
  rfl

theorem partition_layout (ch : CommandsChannel) (mem : Nat → Int) (shmem shmemSize : Nat)
    (initializeControlBlock clientSemInit serverSemInit : Bool)
    (hptr : isAlignedPow2 pageSize4KB shmem = true)
    (hsize : isAlignedPow2 pageSize4KB shmemSize = true)
    (hmin : DefaultLayout.minShmemSize ≤ shmemSize) :
    (partition ch mem shmem shmemSize initializeControlBlock clientSemInit
      serverSemInit).2.1.layout = defaultLayout shmemSize := by
  unfold partition
  rw [if_neg (by simp [hptr]), if_neg (by simp [hsize]), if_neg (by omega)]
  unfold initControlBlock attachRings
  cases initializeControlBlock <;> cases clientSemInit <;> cases serverSemInit <;> rfl

theorem covers_apart (a c : AddressRange) (h : apart a c) (b : Nat) :
    ¬ (a.covers b ∧ c.covers b) := by
  unfold apart at h
  unfold AddressRange.covers
  omega

theorem foldl_intersects (i : Nat) (range : AddressRange) :
    ∀ (l : List (Nat × String × AddressRange × Nat)) (v : Bool),
      l.foldl
          (fun v rhs =>
            if i = rhs.1 then v else if range.intersects rhs.2.2.1 then false else v) v =
        (v && l.all (fun rhs => decide (i = rhs.1) || !range.intersects rhs.2.2.1)) := by
  intro l
  induction l with
  | nil => intro v; simp
  | cons x xs ih =>
    intro v
    rw [List.foldl_cons, ih, List.all_cons]
    by_cases hi : i = x.1
    · simp [hi]
    · cases hx : range.intersects x.2.2.1 <;> simp [hi, hx]

theorem checkRegion_eq (channel : AddressRange) (ranges : List (String × AddressRange × Nat))
    (valid : Bool) (entry : Nat × String × AddressRange × Nat) :
    checkRegion channel ranges valid entry = (valid && regionOk channel ranges entry) := by
  unfold checkRegion regionOk
  simp only [foldl_intersects]
  cases channel.contains entry.2.2.1 <;>
    cases (isAligned entry.2.2.1.start entry.2.2.2 && isAligned entry.2.2.1.stop entry.2.2.2) <;>
    cases valid <;> simp

theorem foldl_checkRegion (channel : AddressRange)
    (ranges : List (String × AddressRange × Nat)) :
    ∀ (l : List (Nat × String × AddressRange × Nat)) (v : Bool),
      l.foldl (checkRegion channel ranges) v = (v && l.all (regionOk channel ranges)) := by
  intro l
  induction l with
  | nil => intro v; simp
  | cons x xs ih =>
    intro v
    rw [List.foldl_cons, ih, checkRegion_eq, List.all_cons, Bool.and_assoc]

theorem isInBounds_eq_all (el : CommandsChannelLayout) (channelSize : Nat) :
    isInBounds el channelSize =
      (regions el).enum.all (regionOk (AddressRange.mk 0 channelSize) (regions el)) := by
  unfold isInBounds
  simp only [foldl_checkRegion, Bool.true_and]

theorem isInBounds_checks (el : CommandsChannelLayout) (channelSize : Nat)
    (h : isInBounds el channelSize = true) (i : Nat) (p : String × AddressRange × Nat)
    (hp : (regions el)[i]? = some p) :
    p.2.1.stop ≤ channelSize ∧ p.2.1.start % p.2.2 = 0 ∧ p.2.1.stop % p.2.2 = 0 ∧
      ∀ (j : Nat) (q : String × AddressRange × Nat), (regions el)[j]? = some q → i ≠ j →
        ¬ (p.2.1.start < q.2.1.stop ∧ q.2.1.start < p.2.1.stop) := by
  rw [isInBounds_eq_all, List.all_eq_true] at h
  have hi := h (i, p) (List.mk_mem_enum_iff_getElem?.mpr hp)
  unfold regionOk at hi
  simp only [Bool.and_eq_true, List.all_eq_true, Bool.or_eq_true, decide_eq_true_eq,
    Bool.not_eq_true', AddressRange.contains, isAligned, beq_iff_eq] at hi
  obtain ⟨⟨⟨_, hstop⟩, ha, hb⟩, hall⟩ := hi
  refine ⟨hstop, ha, hb, ?_⟩
  intro j q hq hij
  have hj := hall (j, q) (List.mk_mem_enum_iff_getElem?.mpr hq)
  rcases hj with hj | hj
  · exact absurd hj hij
  · simpa [AddressRange.intersects] using hj

end Cal.Rpc.CommandsChannel

namespace Cal.Rpc.CommandsChannel

open Cal.Utils

/-- C6 (layout non-overlap). For every page-aligned segment size (a `size_t`) of at least
`DefaultLayout::minShmemSize`, in the layout computed by the default `partition()` the ten
named regions (ringHead, ringTail, semClient, semServer, ring entries, completion stamps,
hostptrCopiesRingHead, hostptrCopiesRingTail, hostptr-copies ring entries, heap) are
non-empty byte ranges, pairwise disjoint, and each lies within `[0, segmentSize)`. -/
theorem default_layout_regions_disjoint (ch : CommandsChannel) (mem : Nat → Int)
    (shmem shmemSize : Nat) (initializeControlBlock clientSemInit serverSemInit : Bool)
    (hptr : isAlignedPow2 pageSize4KB shmem = true)
    (hsize : isAlignedPow2 pageSize4KB shmemSize = true)
    (hmin : DefaultLayout.minShmemSize ≤ shmemSize)
    (h64 : shmemSize < 18446744073709551616) :
    (regions (partition ch mem shmem shmemSize initializeControlBlock clientSemInit
        serverSemInit).2.1.layout).map (fun p => p.1) =
        ["ringHead", "ringTail", "semClient", "semServer", "ring", "completionStamps",
          "hostptrCopiesRingHead", "hostptrCopiesRingTail", "hostptrCopiesRing", "heap"] ∧
      List.Pairwise (fun p q => ∀ b, ¬ (p.2.1.covers b ∧ q.2.1.covers b))
        (regions (partition ch mem shmem shmemSize initializeControlBlock clientSemInit
          serverSemInit).2.1.layout) ∧
      ∀ p ∈ regions (partition ch mem shmem shmemSize initializeControlBlock clientSemInit
          serverSemInit).2.1.layout,
        p.2.1.start < p.2.1.stop ∧ ∀ b, p.2.1.covers b → b < shmemSize := by
  rw [partition_layout ch mem shmem shmemSize initializeControlBlock clientSemInit
    serverSemInit hptr hsize hmin, regions_defaultLayout, toU64_toInt64 shmemSize h64]
  have hmin2 : 20480 ≤ shmemSize := hmin
  refine ⟨rfl, ?_, ?_⟩
  · rw [List.pairwise_append]
    refine ⟨?_, List.pairwise_singleton _ _, ?_⟩
    · have hfixed : List.Pairwise (fun p q => apart p.2.1 q.2.1) defaultFixedRegions := by
        decide
      exact hfixed.imp (fun h b => covers_apart _ _ h b)
    · intro p hp q hq b
      have hstop : p.2.1.stop ≤ 16384 := by
        revert p
        decide
      rw [List.mem_singleton] at hq
      subst hq
      unfold AddressRange.covers
      simp only
      omega
  · intro p hp
    rw [List.mem_append, List.mem_singleton] at hp
    rcases hp with hp | hp
    · have hfix : p.2.1.start < p.2.1.stop ∧ p.2.1.stop ≤ 16384 := by
        revert p
        decide
      refine ⟨hfix.1, fun b hb => ?_⟩
      unfold AddressRange.covers at hb
      omega
    · subst hp
      refine ⟨by simp only; omega, fun b hb => ?_⟩
      unfold AddressRange.covers at hb
      simp only at hb
      omega

/-- Instance of `default_layout_regions_disjoint`: a five-page segment mapped at a
page-aligned address, with the control block initialised. -/
theorem default_layout_regions_disjoint_witness :
    isAlignedPow2 pageSize4KB 8192 = true ∧ isAlignedPow2 pageSize4KB 20480 = true ∧
      DefaultLayout.minShmemSize ≤ 20480 ∧ (20480 : Nat) < 18446744073709551616 ∧
      ((regions (partition sampleChannel (fun _ => 0) 8192 20480 true true true).2.1.layout).map
          (fun p => p.1) =
          ["ringHead", "ringTail", "semClient", "semServer", "ring", "completionStamps",
            "hostptrCopiesRingHead", "hostptrCopiesRingTail", "hostptrCopiesRing", "heap"] ∧
        List.Pairwise (fun p q => ∀ b, ¬ (p.2.1.covers b ∧ q.2.1.covers b))
          (regions (partition sampleChannel (fun _ => 0) 8192 20480 true true true).2.1.layout) ∧
        ∀ p ∈ regions (partition sampleChannel (fun _ => 0) 8192 20480 true true true).2.1.layout,
          p.2.1.start < p.2.1.stop ∧ ∀ b, p.2.1.covers b → b < 20480) :=
  ⟨by decide, by decide, by decide, by decide,
    default_layout_regions_disjoint sampleChannel (fun _ => 0) 8192 20480 true true true
      (by decide) (by decide) (by decide) (by decide)⟩

/-- C9. The default `partition(shmem, size, initializeControlBlock)` returns false for every
segment size smaller than `DefaultLayout::minShmemSize`, which is `DefaultLayout::heapStart`
plus one 4 KB page of minimum heap, and in that case the channel (layout, shmem pointer,
shmemSize, both ring objects, semaphore pointers) and the ring counters in the segment are
left unmodified. -/
theorem partition_rejects_small_segment (ch : CommandsChannel) (mem : Nat → Int)
    (shmem shmemSize : Nat) (initializeControlBlock clientSemInit serverSemInit : Bool)
    (hsmall : shmemSize < DefaultLayout.minShmemSize) :
    DefaultLayout.minShmemSize = DefaultLayout.heapStart + pageSize4KB ∧
      (partition ch mem shmem shmemSize initializeControlBlock clientSemInit
        serverSemInit).1 = false ∧
      (partition ch mem shmem shmemSize initializeControlBlock clientSemInit
        serverSemInit).2.1 = ch ∧
      (partition ch mem shmem shmemSize initializeControlBlock clientSemInit
        serverSemInit).2.2 = mem := by
  refine ⟨rfl, ?_⟩
  unfold partition
  split_ifs <;> exact ⟨rfl, rfl, rfl⟩

/-- Instance of `partition_rejects_small_segment`: a page-aligned segment of four pages, one
page short of the minimum. -/
theorem partition_rejects_small_segment_witness :
    16384 < DefaultLayout.minShmemSize ∧
      (DefaultLayout.minShmemSize = DefaultLayout.heapStart + pageSize4KB ∧
        (partition sampleChannel (fun _ => 0) 8192 16384 true true true).1 = false ∧
        (partition sampleChannel (fun _ => 0) 8192 16384 true true true).2.1 = sampleChannel ∧
        (partition sampleChannel (fun _ => 0) 8192 16384 true true true).2.2 = fun _ => 0) :=
  ⟨by decide,
    partition_rejects_small_segment sampleChannel (fun _ => 0) 8192 16384 true true true
      (by decide)⟩

/-- C7 (layout rejection). The byte range of a region is the range `[start, end)` that the
validator derives from the layout, in `size_t`; the table `regions` pairs it with the
region's required alignment: 8 bytes for the head and tail counters, `sizeof(sem_t)` for the
semaphores, the cacheline for ring, stamps and hostptr ring, the 4 KB page for the heap.
For every peer-supplied layout and segment size, if two distinct named regions have
intersecting byte ranges, or some region's byte range is not contained in
`[0, segmentSize)`, or some region's start or end violates its required alignment, then
`isInBounds` returns false and the supplied-layout `partition()` returns false. -/
theorem isInBounds_rejects (isValid : CommandsChannelLayout → Bool) (ch : CommandsChannel)
    (mem : Nat → Int) (shmem segmentSize : Nat) (el : CommandsChannelLayout)
    (initializeControlBlock clientSemInit serverSemInit : Bool)
    (hbad :
      (∃ (i j : Nat) (p q : String × AddressRange × Nat), i ≠ j ∧
          (regions el)[i]? = some p ∧ (regions el)[j]? = some q ∧
          ∃ b, p.2.1.covers b ∧ q.2.1.covers b) ∨
        (∃ p ∈ regions el, ∃ b, p.2.1.covers b ∧ ¬ b < segmentSize) ∨
        (∃ p ∈ regions el, p.2.1.start % p.2.2 ≠ 0 ∨ p.2.1.stop % p.2.2 ≠ 0)) :
    (regions el).map (fun p => (p.1, p.2.2)) =
        [("ringHead", 8), ("ringTail", 8), ("semClient", sizeofSem), ("semServer", sizeofSem),
          ("ring", cachelineSize), ("completionStamps", cachelineSize),
          ("hostptrCopiesRingHead", 8), ("hostptrCopiesRingTail", 8),
          ("hostptrCopiesRing", cachelineSize), ("heap", pageSize4KB)] ∧
      isInBounds el segmentSize = false ∧
      (partitionWithLayout isValid ch mem shmem segmentSize el initializeControlBlock
        clientSemInit serverSemInit).1 = false := by
  have hfalse : isInBounds el segmentSize = false := by
    cases hacc : isInBounds el segmentSize
    · rfl
    · exfalso
      rcases hbad with ⟨i, j, p, q, hij, hp, hq, b, hpb, hqb⟩ | ⟨p, hp, b, hb, hout⟩ |
        ⟨p, hp, hal⟩
      · have h := (isInBounds_checks el segmentSize hacc i p hp).2.2.2 j q hq hij
        unfold AddressRange.covers at hpb hqb
        omega
      · obtain ⟨i, hi⟩ := List.getElem?_of_mem hp
        have h := (isInBounds_checks el segmentSize hacc i p hi).1
        unfold AddressRange.covers at hb
        omega
      · obtain ⟨i, hi⟩ := List.getElem?_of_mem hp
        have h := isInBounds_checks el segmentSize hacc i p hi
        rcases hal with hal | hal
        · exact hal h.2.1
        · exact hal h.2.2.1
  refine ⟨rfl, hfalse, ?_⟩
  unfold partitionWithLayout
  rw [hfalse, Bool.and_false, if_pos rfl]

/-- Instance of `isInBounds_rejects`: in `overlappingLayout` the ring and the completion
stamps share the byte at offset 4100. -/
theorem isInBounds_rejects_witness :
    (regions overlappingLayout)[4]? = some ("ring", ⟨128, 4112⟩, 64) ∧
      (regions overlappingLayout)[5]? = some ("completionStamps", ⟨4096, 8192⟩, 64) ∧
      (AddressRange.mk 128 4112).covers 4100 ∧ (AddressRange.mk 4096 8192).covers 4100 ∧
      ((regions overlappingLayout).map (fun p => (p.1, p.2.2)) =
          [("ringHead", 8), ("ringTail", 8), ("semClient", sizeofSem),
            ("semServer", sizeofSem), ("ring", cachelineSize),
            ("completionStamps", cachelineSize), ("hostptrCopiesRingHead", 8),
            ("hostptrCopiesRingTail", 8), ("hostptrCopiesRing", cachelineSize),
            ("heap", pageSize4KB)] ∧
        isInBounds overlappingLayout 20480 = false ∧
        (partitionWithLayout (fun _ => true) sampleChannel (fun _ => 0) 8192 20480
          overlappingLayout true true true).1 = false) :=
  ⟨by decide, by decide, by decide, by decide,
    isInBounds_rejects (fun _ => true) sampleChannel (fun _ => 0) 8192 20480 overlappingLayout
      true true true
      (Or.inl ⟨4, 5, ("ring", ⟨128, 4112⟩, 64), ("completionStamps", ⟨4096, 8192⟩, 64),
        by decide, by decide, by decide, 4100, by decide, by decide⟩)⟩

/-- C8, evaluated at a layout the validator accepts although its ring is larger than the
segment: with `ringCapacity = 248 + 2^60` the byte size `ringCapacity * sizeof(RingEntry)`
wraps around modulo 2^64 to 3968, `isInBounds` returns true for a five-page segment, the
true end of the ring, `ringStart + ringCapacity * sizeof(RingEntry)`, lies beyond the
segment size, and the supplied-layout `partition()` (given a layout `isValid()` lets
through) builds the ring with that capacity. -/
theorem isInBounds_accepts_wrapped_ring :
    toU64 (wrappedRingLayout.ringCapacity * sizeofRingEntry) = 3968 ∧
      isInBounds wrappedRingLayout 20480 = true ∧
      ¬ (wrappedRingLayout.ringStart + wrappedRingLayout.ringCapacity * sizeofRingEntry
          ≤ 20480) ∧
      (partitionWithLayout (fun _ => true) sampleChannel (fun _ => 0) 8192 20480
        wrappedRingLayout false true true).1 = true ∧
      (partitionWithLayout (fun _ => true) sampleChannel (fun _ => 0) 8192 20480
        wrappedRingLayout false true true).2.1.ring.capacity = 248 + 1152921504606846976 := by
  decide

end Cal.Rpc.CommandsChannel

namespace Cal.Icd.LevelZero.IcdL0CommandList

theorem rangesOverlap_iff (a sa b sb : Nat) (ha : a + sa < 18446744073709551616)
    (hb : b + sb < 18446744073709551616) :
    rangesOverlap a sa b sb = true ↔ (a ≤ b ∧ b < a + sa) ∨ (b ≤ a ∧ a < b + sb) := by
  unfold rangesOverlap
  simp only [Bool.or_eq_true, Bool.and_eq_true, decide_eq_true_eq,
    Nat.mod_eq_of_lt ha, Nat.mod_eq_of_lt hb]

theorem rangesOverlap_comm (a sa b sb : Nat) :
    rangesOverlap a sa b sb = rangesOverlap b sb a sa := by
  unfold rangesOverlap
  simp only
  rw [Bool.or_comm]

theorem mergeChunks_spec (f s : ChunkEntry) (hf : f.NoWrap) (hs : s.NoWrap) :
    (mergeChunks f s).address = (if f.address ≤ s.address then f.address else s.address) ∧
      (mergeChunks f s).address + (mergeChunks f s).size =
        (if f.address + f.size ≤ s.address + s.size then s.address + s.size
         else f.address + f.size) := by
  unfold ChunkEntry.NoWrap at hf hs
  have h1 : (mergeChunks f s).address =
      (if f.address ≤ s.address then f.address else s.address) := by
    show min f.address s.address = _
    rw [Nat.min_def]
  have h2 : (mergeChunks f s).size =
      ((if f.address + f.size ≤ s.address + s.size then s.address + s.size
          else f.address + f.size) + 18446744073709551616 -
        (if f.address ≤ s.address then f.address else s.address)) % 18446744073709551616 := by
    show (max ((f.address + f.size) % 18446744073709551616)
        ((s.address + s.size) % 18446744073709551616) + 18446744073709551616 -
        min f.address s.address) % 18446744073709551616 = _
    rw [Nat.mod_eq_of_lt hf, Nat.mod_eq_of_lt hs, Nat.min_def, Nat.max_def]
  refine ⟨h1, ?_⟩
  rw [h1, h2]
  split_ifs <;> omega

theorem hull_self (S : ChunkEntry → Prop) (n : ChunkEntry) (hn : n.NoWrap) : Hull S n n :=
  ⟨hn, le_refl _, le_refl _, fun _ hb => Or.inl hb, Or.inl rfl⟩

theorem hull_merge (S : ChunkEntry → Prop) (n cur a : ChunkEntry) (hn : n.NoWrap)
    (hcur : Hull S n cur) (ha : a.NoWrap) (hS : S a)
    (hov : rangesOverlap a.address a.size n.address n.size = true) :
    Hull S n (mergeChunks cur a) := by
  obtain ⟨hw, hlo, hhi, hcov, haddr⟩ := hcur
  obtain ⟨h1, h2⟩ := mergeChunks_spec cur a hw ha
  rw [rangesOverlap_iff _ _ _ _ ha hn] at hov
  unfold ChunkEntry.NoWrap at *
  have e1 : (mergeChunks cur a).address ≤ cur.address ∧
      (mergeChunks cur a).address ≤ a.address ∧
      ((mergeChunks cur a).address = cur.address ∨
        (mergeChunks cur a).address = a.address) := by
    rw [h1]; split_ifs <;> omega
  have e2 : cur.address + cur.size ≤ (mergeChunks cur a).address + (mergeChunks cur a).size ∧
      a.address + a.size ≤ (mergeChunks cur a).address + (mergeChunks cur a).size ∧
      ((mergeChunks cur a).address + (mergeChunks cur a).size = cur.address + cur.size ∨
        (mergeChunks cur a).address + (mergeChunks cur a).size = a.address + a.size) := by
    rw [h2]; split_ifs <;> omega
  clear h1 h2
  have k1 : (mergeChunks cur a).address + (mergeChunks cur a).size < 18446744073709551616 := by
    clear hcov haddr; omega
  have k2 : (mergeChunks cur a).address ≤ n.address := by clear hcov haddr; omega
  have k3 : n.address + n.size ≤ (mergeChunks cur a).address + (mergeChunks cur a).size := by
    clear hcov haddr; omega
  refine ⟨k1, k2, k3, ?_, ?_⟩
  · intro b hb
    unfold ChunkEntry.covers at hb
    by_cases hc : cur.covers b
    · exact hcov b hc
    · refine Or.inr ⟨a, hS, ?_⟩
      unfold ChunkEntry.covers at hc ⊢
      clear hcov haddr
      omega
  · rcases e1.2.2 with h | h
    · rw [h]; exact haddr
    · exact Or.inr ⟨a, hS, h⟩

theorem hull_foldl (S : ChunkEntry → Prop) (n : ChunkEntry) (hn : n.NoWrap) :
    ∀ (group : List ChunkEntry) (cur : ChunkEntry), Hull S n cur →
      (∀ a ∈ group, a.NoWrap ∧ S a ∧ rangesOverlap a.address a.size n.address n.size = true) →
      Hull S n (group.foldl mergeChunks cur) := by
  intro group
  induction group with
  | nil => intro cur h _; exact h
  | cons a rest ih =>
    intro cur h hall
    obtain ⟨ha, hS, hov⟩ := hall a (List.mem_cons_self _ _)
    exact ih (mergeChunks cur a) (hull_merge S n cur a hn h ha hS hov)
      (fun c hc => hall c (List.mem_cons_of_mem _ hc))

theorem mergeLoop_eq (ptr size : Nat) :
    ∀ (memory newChunks : List ChunkEntry) (currentChunk : ChunkEntry),
      mergeLoop ptr size memory newChunks currentChunk =
        (newChunks ++ memory.filter (fun c => !rangesOverlap c.address c.size ptr size),
          (memory.filter (fun c => rangesOverlap c.address c.size ptr size)).foldl mergeChunks
            currentChunk) := by
  intro memory
  induction memory with
  | nil => intro acc cur; simp [mergeLoop]
  | cons c rest ih =>
    intro acc cur
    unfold mergeLoop
    cases hc : rangesOverlap c.address c.size ptr size
    · simp [ih, hc]
    · simp [ih, hc]

theorem mergeIntoFirstOverlapping_eq (ptr size : Nat) :
    ∀ (memory : List ChunkEntry),
      memory.countP (fun c => rangesOverlap c.address c.size ptr size) = 1 →
      ∃ l1 a l2, memory = l1 ++ a :: l2 ∧
        rangesOverlap a.address a.size ptr size = true ∧
        (∀ c ∈ l1, rangesOverlap c.address c.size ptr size = false) ∧
        (∀ c ∈ l2, rangesOverlap c.address c.size ptr size = false) ∧
        mergeIntoFirstOverlapping ptr size memory = l1 ++ mergeChunks ⟨ptr, size⟩ a :: l2 := by
  intro memory
  induction memory with
  | nil => intro h; simp at h
  | cons c rest ih =>
    intro h
    cases hc : rangesOverlap c.address c.size ptr size
    · rw [List.countP_cons_of_neg _ _ (by simp [hc])] at h
      obtain ⟨l1, a, l2, hm, ha, h1, h2, hres⟩ := ih h
      refine ⟨c :: l1, a, l2, by rw [hm]; rfl, ha, ?_, h2, ?_⟩
      · intro x hx
        rcases List.mem_cons.mp hx with hx | hx
        · rw [hx]; exact hc
        · exact h1 x hx
      · simp [mergeIntoFirstOverlapping, hc, hres]
    · rw [List.countP_cons_of_pos _ _ (by simp [hc])] at h
      have h0 : rest.countP (fun c => rangesOverlap c.address c.size ptr size) = 0 := by omega
      rw [List.countP_eq_zero] at h0
      refine ⟨[], c, rest, rfl, hc, by simp, ?_, ?_⟩
      · intro x hx
        simpa using h0 x hx
      · simp [mergeIntoFirstOverlapping, hc]

theorem register_pairwise (R : ChunkEntry → ChunkEntry → Prop) (hsym : ∀ x y, R x y → R y x)
    (ptr size : Nat) (memory : List ChunkEntry) (hn : (ChunkEntry.mk ptr size).NoWrap)
    (hmem : ∀ c ∈ memory, c.NoWrap) (hR : memory.Pairwise R)
    (hhull : ∀ c m, c ∈ memory → rangesOverlap c.address c.size ptr size = false →
      Hull (fun a => a ∈ memory ∧ rangesOverlap a.address a.size ptr size = true)
        ⟨ptr, size⟩ m → R c m) :
    (registerMemoryToContainer ptr size memory).Pairwise R := by
  unfold registerMemoryToContainer
  simp only
  split_ifs with h0 h1
  · rw [List.countP_eq_zero] at h0
    rw [List.pairwise_append]
    refine ⟨hR, List.pairwise_singleton _ _, ?_⟩
    intro c hc m hm
    rw [List.mem_singleton] at hm
    subst hm
    exact hhull c _ hc (by simpa using h0 c hc) (hull_self _ _ hn)
  · obtain ⟨l1, a, l2, hm, ha, hl1, hl2, hres⟩ := mergeIntoFirstOverlapping_eq ptr size memory h1
    have hamem : a ∈ memory := by rw [hm]; simp
    have hM : Hull (fun a => a ∈ memory ∧ rangesOverlap a.address a.size ptr size = true)
        ⟨ptr, size⟩ (mergeChunks ⟨ptr, size⟩ a) :=
      hull_merge _ _ _ a hn (hull_self _ _ hn) (hmem a hamem) ⟨hamem, ha⟩ ha
    rw [hres]
    rw [hm, List.pairwise_append, List.pairwise_cons] at hR
    obtain ⟨p1, ⟨_, p2⟩, p3⟩ := hR
    rw [List.pairwise_append, List.pairwise_cons]
    refine ⟨p1, ⟨?_, p2⟩, ?_⟩
    · intro y hy
      exact hsym _ _ (hhull y _ (by rw [hm]; simp [hy]) (hl2 y hy) hM)
    · intro x hx y hy
      rcases List.mem_cons.mp hy with hy | hy
      · rw [hy]
        exact hhull x _ (by rw [hm]; simp [hx]) (hl1 x hx) hM
      · exact p3 x hx y (List.mem_cons_of_mem _ hy)
  · rw [mergeLoop_eq]
    simp only [List.nil_append]
    rw [List.pairwise_append]
    refine ⟨hR.filter _, List.pairwise_singleton _ _, ?_⟩
    intro c hc m hm
    rw [List.mem_singleton] at hm
    subst hm
    rw [List.mem_filter] at hc
    refine hhull c _ hc.1 (by simpa using hc.2) ?_
    apply hull_foldl _ _ hn _ _ (hull_self _ _ hn)
    intro a ha
    rw [List.mem_filter] at ha
    exact ⟨hmem a ha.1, ⟨ha.1, ha.2⟩, ha.2⟩

theorem register_noWrap (ptr size : Nat) (memory : List ChunkEntry)
    (hn : (ChunkEntry.mk ptr size).NoWrap) (hmem : ∀ c ∈ memory, c.NoWrap) :
    ∀ c ∈ registerMemoryToContainer ptr size memory, c.NoWrap := by
  unfold registerMemoryToContainer
  simp only
  split_ifs with h0 h1
  · intro c hc
    rcases List.mem_append.mp hc with hc | hc
    · exact hmem c hc
    · rw [List.mem_singleton] at hc; rw [hc]; exact hn
  · obtain ⟨l1, a, l2, hm, ha, _, _, hres⟩ := mergeIntoFirstOverlapping_eq ptr size memory h1
    have hamem : a ∈ memory := by rw [hm]; simp
    have hM := hull_merge (fun _ => True) _ _ a hn (hull_self _ _ hn) (hmem a hamem) trivial ha
    rw [hres]
    intro c hc
    rcases List.mem_append.mp hc with hc | hc
    · exact hmem c (by rw [hm]; simp [hc])
    · rcases List.mem_cons.mp hc with hc | hc
      · rw [hc]; exact hM.1
      · exact hmem c (by rw [hm]; simp [hc])
  · rw [mergeLoop_eq]
    simp only [List.nil_append]
    intro c hc
    rcases List.mem_append.mp hc with hc | hc
    · exact hmem c (List.mem_filter.mp hc).1
    · rw [List.mem_singleton] at hc
      rw [hc]
      refine (hull_foldl (fun _ => True) _ hn _ _ (hull_self _ _ hn) ?_).1
      intro a ha
      rw [List.mem_filter] at ha
      exact ⟨hmem a ha.1, trivial, ha.2⟩

theorem disjoint_symm (x y : ChunkEntry) (h : x.Disjoint y) : y.Disjoint x :=
  fun b hb => h b ⟨hb.2, hb.1⟩

theorem separate_symm (x y : ChunkEntry) (h : x.Separate y) : y.Separate x := by
  unfold ChunkEntry.Separate at h ⊢
  rw [rangesOverlap_comm]; exact h

theorem disjoint_of_hull (ptr size : Nat) (memory : List ChunkEntry)
    (hn : (ChunkEntry.mk ptr size).NoWrap) (hmem : ∀ c ∈ memory, c.NoWrap)
    (hR : memory.Pairwise ChunkEntry.Disjoint) (c m : ChunkEntry) (hc : c ∈ memory)
    (hov : rangesOverlap c.address c.size ptr size = false)
    (hm : Hull (fun a => a ∈ memory ∧ rangesOverlap a.address a.size ptr size = true)
      ⟨ptr, size⟩ m) : c.Disjoint m := by
  intro b hb
  obtain ⟨hcb, hmb⟩ := hb
  have hn2 : ptr + size < 18446744073709551616 := hn
  rcases hm.2.2.2.1 b hmb with hnb | ⟨a, ⟨hamem, haov⟩, hab⟩
  · have : rangesOverlap c.address c.size ptr size = true := by
      rw [rangesOverlap_iff _ _ _ _ (hmem c hc) hn2]
      unfold ChunkEntry.covers at hcb hnb
      simp only at hnb
      omega
    rw [hov] at this
    exact Bool.noConfusion this
  · have hne : c ≠ a := by
      intro e; rw [e, haov] at hov; exact Bool.noConfusion hov
    exact hR.forall disjoint_symm hc hamem hne b ⟨hcb, hab⟩

theorem separate_of_hull (ptr size : Nat) (memory : List ChunkEntry)
    (hn : (ChunkEntry.mk ptr size).NoWrap) (hmem : ∀ c ∈ memory, c.NoWrap)
    (hR : memory.Pairwise ChunkEntry.Separate) (c m : ChunkEntry) (hc : c ∈ memory)
    (hov : rangesOverlap c.address c.size ptr size = false)
    (hm : Hull (fun a => a ∈ memory ∧ rangesOverlap a.address a.size ptr size = true)
      ⟨ptr, size⟩ m) : c.Separate m := by
  obtain ⟨hw, _, _, hcov, haddr⟩ := hm
  have hcw := hmem c hc
  have hn2 : ptr + size < 18446744073709551616 := hn
  have hnot : ¬ ((c.address ≤ ptr ∧ ptr < c.address + c.size) ∨
      (ptr ≤ c.address ∧ c.address < ptr + size)) := by
    rw [← rangesOverlap_iff _ _ _ _ hcw hn2, hov]
    exact Bool.noConfusion
  have hsep : ∀ a, a ∈ memory → rangesOverlap a.address a.size ptr size = true →
      ¬ ((c.address ≤ a.address ∧ a.address < c.address + c.size) ∨
        (a.address ≤ c.address ∧ c.address < a.address + a.size)) := by
    intro a hamem haov
    have hne : c ≠ a := by
      intro e; rw [e, haov] at hov; exact Bool.noConfusion hov
    have hs : c.Separate a := hR.forall separate_symm hc hamem hne
    unfold ChunkEntry.Separate at hs
    rw [← rangesOverlap_iff _ _ _ _ hcw (hmem a hamem), hs]
    exact Bool.noConfusion
  unfold ChunkEntry.Separate
  cases hcm : rangesOverlap c.address c.size m.address m.size
  · rfl
  · exfalso
    rw [rangesOverlap_iff _ _ _ _ hcw hw] at hcm
    rcases hcm with h | h
    · rcases haddr with e | ⟨a, ⟨hamem, haov⟩, e⟩
      · simp only at e
        apply hnot
        left
        omega
      · apply hsep a hamem haov
        left
        omega
    · rcases hcov c.address ⟨h.1, h.2⟩ with hnb | ⟨a, ⟨hamem, haov⟩, hab⟩
      · apply hnot
        right
        unfold ChunkEntry.covers at hnb
        simp only at hnb
        omega
      · apply hsep a hamem haov
        right
        unfold ChunkEntry.covers at hab
        omega

end Cal.Icd.LevelZero.IcdL0CommandList

namespace Cal.Icd.LevelZero.IcdL0CommandList

/-- C10 (range-tracker disjointness invariant). For every chunk list in which no two chunks
overlap and every new range `{ptr, size}`, none of them with address wraparound, after
`registerMemoryToContainer(ptr, size, list)` no two chunks of the list overlap and none
has address wraparound.  Overlap is taken in both senses: sharing a byte (`Disjoint`) and
the test `rangesOverlap` of the source (`Separate`), which differ on chunks of size 0. -/
theorem registerMemoryToContainer_disjoint (ptr size : Nat) (memory : List ChunkEntry)
    (hnew : ptr + size < 18446744073709551616)
    (hmem : ∀ c ∈ memory, c.address + c.size < 18446744073709551616) :
    (memory.Pairwise ChunkEntry.Disjoint →
        (registerMemoryToContainer ptr size memory).Pairwise ChunkEntry.Disjoint) ∧
      (memory.Pairwise ChunkEntry.Separate →
        (registerMemoryToContainer ptr size memory).Pairwise ChunkEntry.Separate) ∧
      ∀ c ∈ registerMemoryToContainer ptr size memory,
        c.address + c.size < 18446744073709551616 := by
  refine ⟨?_, ?_, register_noWrap ptr size memory hnew hmem⟩
  · intro hR
    exact register_pairwise _ disjoint_symm ptr size memory hnew hmem hR
      (disjoint_of_hull ptr size memory hnew hmem hR)
  · intro hR
    exact register_pairwise _ separate_symm ptr size memory hnew hmem hR
      (separate_of_hull ptr size memory hnew hmem hR)

/-- Instance of `registerMemoryToContainer_disjoint`: the range `[5, 25)` bridges the first
two of the three chunks of `sampleChunks`. -/
theorem registerMemoryToContainer_disjoint_witness :
    (5 : Nat) + 20 < 18446744073709551616 ∧
      (∀ c ∈ sampleChunks, c.address + c.size < 18446744073709551616) ∧
      sampleChunks.Pairwise ChunkEntry.Disjoint ∧
      sampleChunks.Pairwise ChunkEntry.Separate ∧
      registerMemoryToContainer 5 20 sampleChunks = [⟨40, 5⟩, ⟨0, 30⟩] ∧
      (registerMemoryToContainer 5 20 sampleChunks).Pairwise ChunkEntry.Disjoint ∧
      (registerMemoryToContainer 5 20 sampleChunks).Pairwise ChunkEntry.Separate ∧
      ∀ c ∈ registerMemoryToContainer 5 20 sampleChunks,
        c.address + c.size < 18446744073709551616 :=
  have hdisj : sampleChunks.Pairwise ChunkEntry.Disjoint :=
    (by decide : sampleChunks.Pairwise
      (fun a c => a.address + a.size ≤ c.address ∨ c.address + c.size ≤ a.address)).imp
      (fun h b hb => by unfold ChunkEntry.covers at hb; omega)
  ⟨by decide, by decide, hdisj, by decide, by decide,
    (registerMemoryToContainer_disjoint 5 20 sampleChunks (by decide) (by decide)).1 hdisj,
    (registerMemoryToContainer_disjoint 5 20 sampleChunks (by decide) (by decide)).2.1
      (by decide),
    (registerMemoryToContainer_disjoint 5 20 sampleChunks (by decide) (by decide)).2.2⟩

end Cal.Icd.LevelZero.IcdL0CommandList

namespace Cal.Icd.LevelZero.IcdL0CommandList

theorem mergeChunks_bounds (cur a : ChunkEntry) (hc : cur.NoWrap) (ha : a.NoWrap) :
    ((mergeChunks cur a).address ≤ cur.address ∧ (mergeChunks cur a).address ≤ a.address ∧
        ((mergeChunks cur a).address = cur.address ∨
          (mergeChunks cur a).address = a.address)) ∧
      (cur.address + cur.size ≤ (mergeChunks cur a).address + (mergeChunks cur a).size ∧
        a.address + a.size ≤ (mergeChunks cur a).address + (mergeChunks cur a).size ∧
        ((mergeChunks cur a).address + (mergeChunks cur a).size = cur.address + cur.size ∨
          (mergeChunks cur a).address + (mergeChunks cur a).size = a.address + a.size)) := by
  obtain ⟨h1, h2⟩ := mergeChunks_spec cur a hc ha
  unfold ChunkEntry.NoWrap at hc ha
  refine ⟨?_, ?_⟩
  · rw [h1]; split_ifs <;> omega
  · rw [h2]; split_ifs <;> omega

theorem boundingUnion_merge (cur a : ChunkEntry) (seen : List ChunkEntry) (hc : cur.NoWrap)
    (ha : a.NoWrap) (hb : IsBoundingUnion cur seen) :
    IsBoundingUnion (mergeChunks cur a) (seen ++ [a]) ∧ (mergeChunks cur a).NoWrap := by
  obtain ⟨⟨e1, e2, e3⟩, ⟨f1, f2, f3⟩⟩ := mergeChunks_bounds cur a hc ha
  obtain ⟨b1, ⟨x, hx, bx⟩, b3, ⟨y, hy, by4⟩⟩ := hb
  refine ⟨⟨?_, ?_, ?_, ?_⟩, ?_⟩
  · intro c hcm
    rcases List.mem_append.mp hcm with h | h
    · exact le_trans e1 (b1 c h)
    · rw [List.mem_singleton] at h; rw [h]; exact e2
  · rcases e3 with h | h
    · exact ⟨x, List.mem_append_left _ hx, h.trans bx⟩
    · exact ⟨a, List.mem_append_right _ (List.mem_singleton_self a), h⟩
  · intro c hcm
    rcases List.mem_append.mp hcm with h | h
    · exact le_trans (b3 c h) f1
    · rw [List.mem_singleton] at h; rw [h]; exact f2
  · rcases f3 with h | h
    · exact ⟨y, List.mem_append_left _ hy, h.trans by4⟩
    · exact ⟨a, List.mem_append_right _ (List.mem_singleton_self a), h⟩
  · unfold ChunkEntry.NoWrap at hc ha ⊢
    rcases f3 with h | h <;> omega

theorem boundingUnion_foldl : ∀ (group seen : List ChunkEntry) (cur : ChunkEntry), cur.NoWrap →
    (∀ a ∈ group, a.NoWrap) → IsBoundingUnion cur seen →
    IsBoundingUnion (group.foldl mergeChunks cur) (seen ++ group) ∧
      (group.foldl mergeChunks cur).NoWrap := by
  intro group
  induction group with
  | nil => intro seen cur hc _ hb; simpa using ⟨hb, hc⟩
  | cons a rest ih =>
    intro seen cur hc hall hb
    obtain ⟨hb2, hc2⟩ := boundingUnion_merge cur a seen hc (hall a (List.mem_cons_self _ _)) hb
    have := ih (seen ++ [a]) (mergeChunks cur a) hc2
      (fun c hcm => hall c (List.mem_cons_of_mem _ hcm)) hb2
    simpa using this

theorem boundingUnion_self (n : ChunkEntry) : IsBoundingUnion n [n] :=
  ⟨fun c hc => by rw [List.mem_singleton] at hc; rw [hc],
    ⟨n, List.mem_singleton_self n, rfl⟩,
    fun c hc => by rw [List.mem_singleton] at hc; rw [hc],
    ⟨n, List.mem_singleton_self n, rfl⟩⟩

theorem set_middle (l1 l2 : List ChunkEntry) (a m : ChunkEntry) :
    (l1 ++ a :: l2).set l1.length m = l1 ++ m :: l2 := by
  induction l1 with
  | nil => rfl
  | cons x xs ih => simp [List.set, ih]

end Cal.Icd.LevelZero.IcdL0CommandList

namespace Cal.Icd.LevelZero.IcdL0CommandList

/-- C11 (chunk merge bridging). For every chunk list and new range, none with address
wraparound, such that the new range overlaps `k ≥ 2` stored chunks,
`registerMemoryToContainer` replaces those `k` chunks by a single chunk equal to the
bounding union (minimum start, maximum end) of the new range and all `k` overlapping
chunks, and every non-overlapping chunk remains in the list unchanged and in its original
relative order: the list afterwards is the non-overlapping chunks, in order, followed by
the merged chunk. -/
theorem registerMemoryToContainer_bridging (ptr size : Nat) (memory : List ChunkEntry)
    (hnew : ptr + size < 18446744073709551616)
    (hmem : ∀ c ∈ memory, c.address + c.size < 18446744073709551616)
    (hk : 2 ≤ memory.countP (fun c => rangesOverlap c.address c.size ptr size)) :
    ∃ m, registerMemoryToContainer ptr size memory =
        memory.filter (fun c => !rangesOverlap c.address c.size ptr size) ++ [m] ∧
      IsBoundingUnion m
        (⟨ptr, size⟩ :: memory.filter (fun c => rangesOverlap c.address c.size ptr size)) := by
  refine ⟨(memory.filter (fun c => rangesOverlap c.address c.size ptr size)).foldl mergeChunks
    ⟨ptr, size⟩, ?_, ?_⟩
  · unfold registerMemoryToContainer
    simp only
    rw [if_neg (by omega), if_neg (by omega), mergeLoop_eq]
    simp only [List.nil_append]
  · exact (boundingUnion_foldl _ [⟨ptr, size⟩] ⟨ptr, size⟩ hnew
      (fun a ha => hmem a (List.mem_filter.mp ha).1) (boundingUnion_self _)).1

/-- Instance of `registerMemoryToContainer_bridging`: chunks `[0, 10)` and `[20, 30)` plus
the new range `[5, 25)` yield the single chunk `[0, 30)`. -/
theorem registerMemoryToContainer_bridging_witness :
    (5 : Nat) + 20 < 18446744073709551616 ∧
      (∀ c ∈ [ChunkEntry.mk 0 10, ChunkEntry.mk 20 10],
        c.address + c.size < 18446744073709551616) ∧
      2 ≤ [ChunkEntry.mk 0 10, ChunkEntry.mk 20 10].countP
        (fun c => rangesOverlap c.address c.size 5 20) ∧
      registerMemoryToContainer 5 20 [⟨0, 10⟩, ⟨20, 10⟩] = [⟨0, 30⟩] ∧
      ∃ m, registerMemoryToContainer 5 20 [⟨0, 10⟩, ⟨20, 10⟩] =
          [ChunkEntry.mk 0 10, ChunkEntry.mk 20 10].filter
            (fun c => !rangesOverlap c.address c.size 5 20) ++ [m] ∧
        IsBoundingUnion m
          (⟨5, 20⟩ :: [ChunkEntry.mk 0 10, ChunkEntry.mk 20 10].filter
            (fun c => rangesOverlap c.address c.size 5 20)) :=
  ⟨by decide, by decide, by decide, by decide,
    registerMemoryToContainer_bridging 5 20 [⟨0, 10⟩, ⟨20, 10⟩] (by decide) (by decide)
      (by decide)⟩

/-- C12, the claim refuted at size 0: registering the empty range `{5, 0}` twice into an
empty tracker leaves two chunks, not the single chunk that registering it once leaves. -/
theorem register_twice_counterexample :
    registerMemoryToContainer 5 0 [] = [⟨5, 0⟩] ∧
      registerMemoryToContainer 5 0 (registerMemoryToContainer 5 0 []) = [⟨5, 0⟩, ⟨5, 0⟩] ∧
      registerMemoryToContainer 5 0 (registerMemoryToContainer 5 0 []) ≠
        registerMemoryToContainer 5 0 [] := by
  decide

/-- C12 as amended (chunk merge idempotence). For every pointer and non-zero size whose range
does not wrap around the address space, registering the same range `{pointer, size}` twice
into an initially empty range tracker leaves exactly one chunk, equal to `{pointer, size}`,
the same tracker contents as registering it once. -/
theorem register_twice (ptr size : Nat) (hsize : 1 ≤ size)
    (hnew : ptr + size < 18446744073709551616) :
    registerMemoryToContainer ptr size [] = [⟨ptr, size⟩] ∧
      registerMemoryToContainer ptr size (registerMemoryToContainer ptr size []) =
        [⟨ptr, size⟩] := by
  have h1 : registerMemoryToContainer ptr size [] = [⟨ptr, size⟩] := rfl
  have hov : rangesOverlap ptr size ptr size = true := by
    rw [rangesOverlap_iff _ _ _ _ hnew hnew]; omega
  have hm : mergeChunks ⟨ptr, size⟩ ⟨ptr, size⟩ = ⟨ptr, size⟩ := by
    obtain ⟨a, b⟩ := mergeChunks_spec ⟨ptr, size⟩ ⟨ptr, size⟩ hnew hnew
    simp only [le_refl, if_true] at a b
    cases hmc : mergeChunks ⟨ptr, size⟩ ⟨ptr, size⟩ with
    | mk ad sz =>
      rw [hmc] at a b
      simp only at a b
      subst a
      congr
      omega
  refine ⟨h1, ?_⟩
  rw [h1]
  unfold registerMemoryToContainer
  simp [hov, mergeIntoFirstOverlapping, hm]

/-- Instance of `register_twice`: the range `[4096, 4160)`. -/
theorem register_twice_witness :
    (1 : Nat) ≤ 64 ∧ (4096 : Nat) + 64 < 18446744073709551616 ∧
      registerMemoryToContainer 4096 64 [] = [⟨4096, 64⟩] ∧
      registerMemoryToContainer 4096 64 (registerMemoryToContainer 4096 64 []) =
        [⟨4096, 64⟩] :=
  ⟨by decide, by decide, register_twice 4096 64 (by decide) (by decide)⟩

/-- C13 (exactly one overlap). For every chunk list and new range, none with address
wraparound, such that the new range overlaps exactly one stored chunk,
`registerMemoryToContainer` replaces that chunk, at its position `i`, by the bounding union
of it and the new range (start = min of starts, end = max of ends), and leaves the list
length and every other chunk unchanged. -/
theorem registerMemoryToContainer_single_overlap (ptr size : Nat) (memory : List ChunkEntry)
    (hnew : ptr + size < 18446744073709551616)
    (hmem : ∀ c ∈ memory, c.address + c.size < 18446744073709551616)
    (h1 : memory.countP (fun c => rangesOverlap c.address c.size ptr size) = 1) :
    ∃ (i : Nat) (a m : ChunkEntry), memory[i]? = some a ∧
      rangesOverlap a.address a.size ptr size = true ∧
      registerMemoryToContainer ptr size memory = memory.set i m ∧
      m.address = min ptr a.address ∧
      m.address + m.size = max (ptr + size) (a.address + a.size) ∧
      (registerMemoryToContainer ptr size memory).length = memory.length ∧
      ∀ j, j ≠ i → (registerMemoryToContainer ptr size memory)[j]? = memory[j]? := by
  obtain ⟨l1, a, l2, hm, ha, _, _, hres⟩ := mergeIntoFirstOverlapping_eq ptr size memory h1
  have hamem : a ∈ memory := by rw [hm]; simp
  have hreg : registerMemoryToContainer ptr size memory =
      memory.set l1.length (mergeChunks ⟨ptr, size⟩ a) := by
    unfold registerMemoryToContainer
    simp only
    rw [if_neg (by omega), if_pos h1, hres]
    conv_rhs => rw [hm]
    rw [set_middle]
  obtain ⟨e1, e2⟩ := mergeChunks_spec ⟨ptr, size⟩ a hnew (hmem a hamem)
  refine ⟨l1.length, a, mergeChunks ⟨ptr, size⟩ a, ?_, ha, hreg, ?_, ?_, ?_, ?_⟩
  · rw [hm, List.getElem?_append_right (le_refl _)]; simp
  · rw [e1, Nat.min_def]
  · rw [e2, Nat.max_def]
  · rw [hreg, List.length_set]
  · intro j hj
    rw [hreg, List.getElem?_set_ne (Ne.symm hj)]

/-- Instance of `registerMemoryToContainer_single_overlap`: among the three chunks of
`sampleChunks`, the range `[25, 35)` overlaps only the second, `[20, 30)`. -/
theorem registerMemoryToContainer_single_overlap_witness :
    (25 : Nat) + 10 < 18446744073709551616 ∧
      (∀ c ∈ sampleChunks, c.address + c.size < 18446744073709551616) ∧
      sampleChunks.countP (fun c => rangesOverlap c.address c.size 25 10) = 1 ∧
      registerMemoryToContainer 25 10 sampleChunks = [⟨0, 10⟩, ⟨20, 15⟩, ⟨40, 5⟩] ∧
      ∃ (i : Nat) (a m : ChunkEntry), sampleChunks[i]? = some a ∧
        rangesOverlap a.address a.size 25 10 = true ∧
        registerMemoryToContainer 25 10 sampleChunks = sampleChunks.set i m ∧
        m.address = min 25 a.address ∧
        m.address + m.size = max (25 + 10) (a.address + a.size) ∧
        (registerMemoryToContainer 25 10 sampleChunks).length = sampleChunks.length ∧
        ∀ j, j ≠ i → (registerMemoryToContainer 25 10 sampleChunks)[j]? = sampleChunks[j]? :=
  ⟨by decide, by decide, by decide, by decide,
    registerMemoryToContainer_single_overlap 25 10 sampleChunks (by decide) (by decide)
      (by decide)⟩

end Cal.Icd.LevelZero.IcdL0CommandList

namespace Cal.Rpc.ChannelClient

theorem drifts_trans (env : Surroundings) (a b d : Shared) (h1 : Drifts env a b)
    (h2 : Drifts env b d) : Drifts env a d := by
  induction h2 with
  | refl => exact h1
  | act x n _ ih => exact Drifts.act a x n ih
  | take x _ ih => exact Drifts.take a x ih

theorem spin_returned (env : Surroundings) (s : Nat) :
    ∀ (fuel : Nat) (c : ChannelClient) (ok : Bool) (c1 : ChannelClient),
      spinUntilProcessed env s fuel c = Outcome.returned ok c1 →
      ∃ sh n, c1 = { c with shared := sh, now := n } ∧ c.now ≤ n ∧ Drifts env c.shared sh ∧
        (ok = true → sh.stamps s ≠ CompletionStampNotReady) ∧
        (ok = false → sh.stopped = true) := by
  intro fuel
  induction fuel with
  | zero => intro c ok c1 h; simp [spinUntilProcessed] at h
  | succ fuel ih =>
    intro c ok c1 h
    unfold spinUntilProcessed at h
    split_ifs at h with h1 h2
    · injection h with hok hc
      subst hok hc
      exact ⟨c.shared, c.now, rfl, le_refl _, Drifts.refl _, fun e => by simp at e,
        fun _ => h2⟩
    · obtain ⟨sh, n, e, hn, hd, a, b⟩ := ih (c.yield env) ok c1 h
      refine ⟨sh, n, e, ?_, ?_, a, b⟩
      · have : (c.yield env).now = c.now + 1 := rfl
        omega
      · exact drifts_trans env _ _ _ (Drifts.act _ _ c.now (Drifts.refl _)) hd
    · injection h with hok hc
      subst hok hc
      exact ⟨c.shared, c.now, rfl, le_refl _, Drifts.refl _, fun _ => h1,
        fun e => by simp at e⟩

theorem waitOnClientSemaphore_returned (env : Surroundings) :
    ∀ (fuel : Nat) (c : ChannelClient) (ok : Bool) (c1 : ChannelClient),
      waitOnClientSemaphore env fuel c = Outcome.returned ok c1 →
      ∃ sh n, c1 = { c with shared := sh, now := n } ∧ c.now ≤ n ∧ Drifts env c.shared sh := by
  intro fuel
  induction fuel with
  | zero => intro c ok c1 h; simp [waitOnClientSemaphore] at h
  | succ fuel ih =>
    intro c ok c1 h
    unfold waitOnClientSemaphore at h
    split_ifs at h with h1
    · obtain ⟨sh, n, e, hn, hd⟩ := ih (c.yield env) ok c1 h
      refine ⟨sh, n, e, ?_, ?_⟩
      · have : (c.yield env).now = c.now + 1 := rfl
        omega
      · exact drifts_trans env _ _ _ (Drifts.act _ _ c.now (Drifts.refl _)) hd
    · injection h with hok hc
      subst hc
      exact ⟨_, c.now, rfl, le_refl _, Drifts.take _ _ (Drifts.refl _)⟩

theorem wait_returned (env : Surroundings) (s f fuel : Nat) (c : ChannelClient) (ok : Bool)
    (c2 : ChannelClient) (h : wait env s f fuel c = Outcome.returned ok c2) :
    ∃ sh n, c2 = c.resumed sh n (Event.wait s f ok) ∧ c.now ≤ n ∧ Drifts env c.shared sh ∧
      (ok = true → sh.stamps s ≠ CompletionStampNotReady) ∧
      (ok = false → sh.stopped = true) := by
  unfold wait at h
  split at h
  · next processed c1 hw =>
    injection h with hok hc
    subst hok
    split_ifs at hw with hf
    · unfold semaphoreWait at hw
      split at hw
      · next b cs hs =>
        obtain ⟨sh1, n1, e1, hn1, hd1⟩ := waitOnClientSemaphore_returned env fuel c b cs hs
        split_ifs at hw with hst
        · injection hw with hok2 hc2
          subst hok2 hc2 hc
          refine ⟨sh1, n1, ?_, hn1, hd1, fun e => by simp at e, fun _ => ?_⟩
          · rw [e1]; rfl
          · rw [e1] at hst; exact hst
        · obtain ⟨sh, n, e, hn, hd, a, b2⟩ := spin_returned env s fuel cs processed c1 hw
          subst hc
          refine ⟨sh, n, ?_, ?_, ?_, a, b2⟩
          · rw [e, e1]; rfl
          · rw [e1] at hn; exact le_trans hn1 hn
          · rw [e1] at hd; exact drifts_trans env _ _ _ hd1 hd
      · simp at hw
      · simp at hw
    · unfold activeWait at hw
      obtain ⟨sh, n, e, hn, hd, a, b⟩ := spin_returned env s fuel c processed c1 hw
      subst hc
      exact ⟨sh, n, by rw [e]; rfl, hn, hd, a, b⟩
  · simp at h
  · simp at h

theorem foldl_freeStamp : ∀ (l : List Nat) (c : ChannelClient),
    l.foldl freeStamp c =
      { c with completionStamps := l.foldl TagAllocator.free c.completionStamps,
               log := c.log ++ l.map Event.free } := by
  intro l
  induction l with
  | nil => intro c; simp
  | cons x xs ih => intro c; simp [ih, freeStamp]

theorem foldl_freeSpace : ∀ (l : List Nat) (c : ChannelClient),
    l.foldl freeSpace c = { c with heap := l.foldl List.erase c.heap } := by
  intro l
  induction l with
  | nil => intro c; simp
  | cons x xs ih => intro c; simp [ih, freeSpace]

theorem releaseAsyncStorage_eq (c : ChannelClient) :
    c.releaseAsyncStorage =
      { c with completionStamps := c.asyncTagsStorage.foldl TagAllocator.free c.completionStamps,
               heap := c.asyncCommandsSpaceStorage.foldl List.erase c.heap,
               asyncTagsStorage := [],
               asyncCommandsSpaceStorage := [],
               log := c.log ++ c.asyncTagsStorage.map Event.free } := by
  unfold releaseAsyncStorage
  simp only [foldl_freeStamp, foldl_freeSpace]

theorem waitForLastTag_returned (env : Surroundings) (f fuel : Nat) (c : ChannelClient)
    (ok : Bool) (c2 : ChannelClient)
    (h : waitForLastTag env f fuel c = Outcome.returned ok c2) :
    ∃ last sh n, c.asyncTagsStorage.getLast? = some last ∧ Drifts env c.shared sh ∧
      ((ok = false ∧ sh.stopped = true ∧ c2 = c.resumed sh n (Event.wait last f false)) ∨
        (ok = true ∧ sh.stamps last ≠ CompletionStampNotReady ∧
          c2 = (c.resumed sh n (Event.wait last f true)).releaseAsyncStorage)) := by
  unfold waitForLastTag at h
  split at h
  · simp at h
  · next last hl =>
    split at h
    · next c1 hw =>
      injection h with hok hc
      obtain ⟨sh, n, e, _, hd, _, b⟩ := wait_returned env last f fuel c false c1 hw
      exact ⟨last, sh, n, hl, hd, Or.inl ⟨hok.symm, b rfl, by rw [← hc, e]⟩⟩
    · next c1 hw =>
      injection h with hok hc
      obtain ⟨sh, n, e, _, hd, a, _⟩ := wait_returned env last f fuel c true c1 hw
      exact ⟨last, sh, n, hl, hd, Or.inr ⟨hok.symm, a rfl, by rw [← hc, e]⟩⟩
    · simp at h
    · simp at h

theorem publishCommand_returned (env : Surroundings) (command f fuel s : Nat)
    (c : ChannelClient) (r : Option Nat) (c' : ChannelClient)
    (h : publishCommand env command f fuel s c = Outcome.returned r c') :
    Published env command f s c r c' := by
  unfold publishCommand at h
  split at h
  · next c2 hp =>
    injection h with hr hc
    subst hr hc
    have h1 : ((c.markNotReady s).pushRing (c.entryFor command s)).1 = true := by rw [hp]
    have h2 : c2 = ((c.markNotReady s).pushRing (c.entryFor command s)).2 := by rw [hp]
    rw [h2]
    exact Published.pushed h1
  · next c2 hp =>
    have h1 : ((c.markNotReady s).pushRing (c.entryFor command s)).1 = false := by rw [hp]
    have h2 : c2 = ((c.markNotReady s).pushRing (c.entryFor command s)).2 := by rw [hp]
    split at h
    · next c3 hw =>
      injection h with hr hc
      subst hr hc
      obtain ⟨last, sh, n, hl, hd, hcase⟩ := waitForLastTag_returned env f fuel c2 false c3 hw
      rcases hcase with ⟨_, hst, e⟩ | ⟨hco, _, _⟩
      · rw [h2] at hd
        rw [e, h2]
        exact Published.aborted last sh n h1 (by rw [h2] at hl; exact hl) hst hd
      · simp at hco
    · next c3 hw =>
      obtain ⟨last, sh, n, hl, hd, hcase⟩ := waitForLastTag_returned env f fuel c2 true c3 hw
      rcases hcase with ⟨hco, _, _⟩ | ⟨_, hst, e⟩
      · simp at hco
      · rw [h2] at hl e hd
        split at h
        · next c4 hp2 =>
          injection h with hr hc
          subst hr hc
          have h3 : (c3.pushRing (c.entryFor command s)).1 = true := by rw [hp2]
          have h4 : c4 = (c3.pushRing (c.entryFor command s)).2 := by rw [hp2]
          rw [h4]
          rw [e] at h3 ⊢
          exact Published.retried last sh n h1 hl hst hd h3
        · next c4 hp2 =>
          injection h with hr hc
          subst hr hc
          have h3 : (c3.pushRing (c.entryFor command s)).1 = false := by rw [hp2]
          have h4 : c4 = (c3.pushRing (c.entryFor command s)).2 := by rw [hp2]
          rw [h4]
          rw [e] at h3 ⊢
          exact Published.refused last sh n h1 hl hst hd h3
    · simp at h
    · simp at h

theorem submitCommand_returned (env : Surroundings) (command f fuel : Nat)
    (c : ChannelClient) (r : Option Nat) (c' : ChannelClient)
    (h : submitCommand env command f fuel c = Outcome.returned r c') :
    Submitted env command f c r c' := by
  unfold submitCommand at h
  split at h
  · next s c1 ha =>
    have h1 : c.allocateStamp.1 = some s := by rw [ha]
    have h2 : c1 = c.allocateStamp.2 := by rw [ha]
    rw [h2] at h
    exact Submitted.allocated s r c' h1 (publishCommand_returned env command f fuel s _ r c' h)
  · next c1 ha =>
    have h1 : c.allocateStamp.1 = none := by rw [ha]
    have h2 : c1 = c.allocateStamp.2 := by rw [ha]
    split at h
    · next c2 hw =>
      injection h with hr hc
      subst hr hc
      obtain ⟨last, sh, n, hl, hd, hcase⟩ := waitForLastTag_returned env f fuel c1 false c2 hw
      rcases hcase with ⟨_, hst, e⟩ | ⟨hco, _, _⟩
      · rw [h2] at hl hd
        rw [e, h2]
        exact Submitted.aborted last sh n h1 hl hst hd
      · simp at hco
    · next c2 hw =>
      obtain ⟨last, sh, n, hl, hd, hcase⟩ := waitForLastTag_returned env f fuel c1 true c2 hw
      rcases hcase with ⟨hco, _, _⟩ | ⟨_, hst, e⟩
      · simp at hco
      · rw [h2] at hl hd e
        split at h
        · next s c3 ha2 =>
          have h3 : c2.allocateStamp.1 = some s := by rw [ha2]
          have h4 : c3 = c2.allocateStamp.2 := by rw [ha2]
          rw [h4] at h
          have hp := publishCommand_returned env command f fuel s _ r c' h
          rw [e] at h3 hp
          exact Submitted.reallocated last sh n s r c' h1 hl hst hd h3 hp
        · next c3 ha2 =>
          injection h with hr hc
          subst hr hc
          have h3 : c2.allocateStamp.1 = none := by rw [ha2]
          have h4 : c3 = c2.allocateStamp.2 := by rw [ha2]
          rw [h4]
          rw [e] at h3 ⊢
          exact Submitted.exhausted last sh n h1 hl hst hd h3
    · simp at h
    · simp at h

theorem published_log (env : Surroundings) (command f s : Nat) (c : ChannelClient)
    (r : Option Nat) (c' : ChannelClient) (hp : Published env command f s c r c') :
    ∃ evs, c'.log = c.log ++ evs ∧ PublishShape c command f s r evs := by
  cases hp with
  | pushed h1 =>
    refine ⟨[Event.push (c.entryFor command s) true], ?_, Or.inl ⟨rfl, rfl⟩⟩
    simp only [pushRing, markNotReady] at h1 ⊢
    simp [h1]
  | aborted last sh n h1 hl hst hd =>
    refine ⟨_, ?_, Or.inr ⟨last, hl, Or.inl ⟨rfl, rfl⟩⟩⟩
    simp only [pushRing, markNotReady, resumed] at h1 ⊢
    simp [h1]
  | retried last sh n h1 hl hst hd h3 =>
    refine ⟨_, ?_, Or.inr ⟨last, hl, Or.inr (Or.inl ⟨rfl, rfl⟩)⟩⟩
    simp only [pushRing, markNotReady, resumed, releaseAsyncStorage_eq] at h1 h3 ⊢
    simp [h1, h3]
  | refused last sh n h1 hl hst hd h3 =>
    refine ⟨_, ?_, Or.inr ⟨last, hl, Or.inr (Or.inr ⟨rfl, rfl⟩)⟩⟩
    simp only [pushRing, markNotReady, resumed, releaseAsyncStorage_eq, freeStamp] at h1 h3 ⊢
    simp [h1, h3]

theorem submitted_log (env : Surroundings) (command f : Nat) (c : ChannelClient)
    (r : Option Nat) (c' : ChannelClient) (hs : Submitted env command f c r c') :
    ∃ evs, c'.log = c.log ++ evs ∧ SubmitShape c command f r evs := by
  cases hs with
  | allocated s r c' ha hp =>
    obtain ⟨pevs, hlog, hshape⟩ := published_log env command f s _ r c' hp
    refine ⟨Event.allocate (some s) :: pevs, ?_, Or.inl ⟨s, pevs, rfl, hshape⟩⟩
    simp only [allocateStamp] at ha hlog
    rw [hlog, ha]
    simp
  | aborted last sh n ha hl hst hd =>
    refine ⟨_, ?_, Or.inr ⟨last, hl, Or.inl ⟨rfl, rfl⟩⟩⟩
    simp only [allocateStamp, resumed] at ha ⊢
    simp [ha]
  | exhausted last sh n ha hl hst hd h3 =>
    refine ⟨_, ?_, Or.inr ⟨last, hl, Or.inr (Or.inl ⟨rfl, rfl⟩)⟩⟩
    simp only [allocateStamp, resumed, releaseAsyncStorage_eq] at ha h3 ⊢
    simp [ha, h3]
  | reallocated last sh n s r c' ha hl hst hd h3 hp =>
    obtain ⟨pevs, hlog, hshape⟩ := published_log env command f s _ r c' hp
    rcases hshape with ⟨hr, hpe⟩ | ⟨l2, hl2, _⟩
    · refine ⟨_, ?_, Or.inr ⟨last, hl, Or.inr (Or.inr ⟨s, hr, rfl⟩)⟩⟩
      simp only [allocateStamp, resumed, releaseAsyncStorage_eq] at ha h3 hlog hpe ⊢
      rw [hlog, hpe, ha, h3]
      simp [entryFor, getAsShmemOffset]
    · exfalso
      simp [allocateStamp, releaseAsyncStorage_eq] at hl2

end Cal.Rpc.ChannelClient

namespace Cal.Rpc.ChannelClient

@[simp]
theorem allocations_nil : allocations [] = [] := rfl

@[simp]
theorem allocations_append (a b : List Event) : allocations (a ++ b) = allocations a ++ allocations b :=
  List.filterMap_append _ _ _

@[simp]
theorem allocations_allocate (r : Option Nat) (l : List Event) :
    allocations (Event.allocate r :: l) = r :: allocations l := rfl

@[simp]
theorem allocations_free (t : Nat) (l : List Event) :
    allocations (Event.free t :: l) = allocations l := rfl

@[simp]
theorem allocations_push (e : RingEntry) (ok : Bool) (l : List Event) :
    allocations (Event.push e ok :: l) = allocations l := rfl

@[simp]
theorem allocations_wait (st fl : Nat) (ok : Bool) (l : List Event) :
    allocations (Event.wait st fl ok :: l) = allocations l := rfl

@[simp]
theorem allocations_signalService (b : Bool) (l : List Event) :
    allocations (Event.signalService b :: l) = allocations l := rfl

@[simp]
theorem allocations_map_free (l : List Nat) : allocations (l.map Event.free) = [] := by
  induction l with
  | nil => rfl
  | cons x xs ih => simpa using ih

@[simp]
theorem pushes_nil : pushes [] = [] := rfl

@[simp]
theorem pushes_append (a b : List Event) : pushes (a ++ b) = pushes a ++ pushes b :=
  List.filterMap_append _ _ _

@[simp]
theorem pushes_allocate (r : Option Nat) (l : List Event) :
    pushes (Event.allocate r :: l) = pushes l := rfl

@[simp]
theorem pushes_free (t : Nat) (l : List Event) :
    pushes (Event.free t :: l) = pushes l := rfl

@[simp]
theorem pushes_push (e : RingEntry) (ok : Bool) (l : List Event) :
    pushes (Event.push e ok :: l) = (e, ok) :: pushes l := rfl

@[simp]
theorem pushes_wait (st fl : Nat) (ok : Bool) (l : List Event) :
    pushes (Event.wait st fl ok :: l) = pushes l := rfl

@[simp]
theorem pushes_signalService (b : Bool) (l : List Event) :
    pushes (Event.signalService b :: l) = pushes l := rfl

@[simp]
theorem pushes_map_free (l : List Nat) : pushes (l.map Event.free) = [] := by
  induction l with
  | nil => rfl
  | cons x xs ih => simpa using ih

@[simp]
theorem waits_nil : waits [] = [] := rfl

@[simp]
theorem waits_append (a b : List Event) : waits (a ++ b) = waits a ++ waits b :=
  List.filterMap_append _ _ _

@[simp]
theorem waits_allocate (r : Option Nat) (l : List Event) :
    waits (Event.allocate r :: l) = waits l := rfl

@[simp]
theorem waits_free (t : Nat) (l : List Event) :
    waits (Event.free t :: l) = waits l := rfl

@[simp]
theorem waits_push (e : RingEntry) (ok : Bool) (l : List Event) :
    waits (Event.push e ok :: l) = waits l := rfl

@[simp]
theorem waits_wait (st fl : Nat) (ok : Bool) (l : List Event) :
    waits (Event.wait st fl ok :: l) = (st, fl, ok) :: waits l := rfl

@[simp]
theorem waits_signalService (b : Bool) (l : List Event) :
    waits (Event.signalService b :: l) = waits l := rfl

@[simp]
theorem waits_map_free (l : List Nat) : waits (l.map Event.free) = [] := by
  induction l with
  | nil => rfl
  | cons x xs ih => simpa using ih

@[simp]
theorem frees_nil : frees [] = [] := rfl

@[simp]
theorem frees_append (a b : List Event) : frees (a ++ b) = frees a ++ frees b :=
  List.filterMap_append _ _ _

@[simp]
theorem frees_allocate (r : Option Nat) (l : List Event) :
    frees (Event.allocate r :: l) = frees l := rfl

@[simp]
theorem frees_free (t : Nat) (l : List Event) :
    frees (Event.free t :: l) = t :: frees l := rfl

@[simp]
theorem frees_push (e : RingEntry) (ok : Bool) (l : List Event) :
    frees (Event.push e ok :: l) = frees l := rfl

@[simp]
theorem frees_wait (st fl : Nat) (ok : Bool) (l : List Event) :
    frees (Event.wait st fl ok :: l) = frees l := rfl

@[simp]
theorem frees_signalService (b : Bool) (l : List Event) :
    frees (Event.signalService b :: l) = frees l := rfl

@[simp]
theorem frees_map_free (l : List Nat) : frees (l.map Event.free) = l := by
  induction l with
  | nil => rfl
  | cons x xs ih => simpa using ih

end Cal.Rpc.ChannelClient

namespace Cal.Rpc.ChannelClient

end Cal.Rpc.ChannelClient

namespace Cal.Rpc.ChannelClient

theorem published_reclaim (env : Surroundings) (command f s : Nat) (c : ChannelClient)
    (r : Option Nat) (c' : ChannelClient) (hp : Published env command f s c r c') :
    ∃ evs, c'.log = c.log ++ evs ∧ PublishShape c command f s r evs ∧ allocations evs = [] ∧
      Reclaim c c' f evs := by
  cases hp with
  | pushed h1 =>
    refine ⟨[Event.push (c.entryFor command s) true], ?_, Or.inl ⟨rfl, rfl⟩, rfl, Or.inl ?_⟩
    · simp only [pushRing, markNotReady] at h1 ⊢
      simp [h1]
    · simp [pushRing, markNotReady]
  | aborted last sh n h1 hl hst hd =>
    refine ⟨_, ?_, Or.inr ⟨last, hl, Or.inl ⟨rfl, rfl⟩⟩, rfl, Or.inl ?_⟩
    · simp only [pushRing, markNotReady, resumed] at h1 ⊢
      simp [h1]
    · simp [pushRing, markNotReady, resumed]
  | retried last sh n h1 hl hst hd h3 =>
    refine ⟨_, ?_, Or.inr ⟨last, hl, Or.inr (Or.inl ⟨rfl, rfl⟩)⟩, by simp, Or.inr
      ⟨last, [Event.push (c.entryFor command s) false],
        [Event.push (c.entryFor command s) true], hl, by simp, rfl, rfl, rfl, ?_⟩⟩
    · simp only [pushRing, markNotReady, resumed, releaseAsyncStorage_eq] at h1 h3 ⊢
      simp [h1, h3]
    · simp [pushRing, markNotReady, resumed, releaseAsyncStorage_eq]
  | refused last sh n h1 hl hst hd h3 =>
    refine ⟨_, ?_, Or.inr ⟨last, hl, Or.inr (Or.inr ⟨rfl, rfl⟩)⟩, by simp, Or.inr
      ⟨last, [Event.push (c.entryFor command s) false],
        [Event.push (c.entryFor command s) false, Event.free s], hl, by simp, rfl, rfl, rfl,
        ?_⟩⟩
    · simp only [pushRing, markNotReady, resumed, releaseAsyncStorage_eq, freeStamp] at h1 h3 ⊢
      simp [h1, h3]
    · simp [pushRing, markNotReady, resumed, releaseAsyncStorage_eq, freeStamp]

theorem submitted_reclaim (env : Surroundings) (command f : Nat) (c : ChannelClient)
    (r : Option Nat) (c' : ChannelClient) (hs : Submitted env command f c r c') :
    ∃ evs, c'.log = c.log ++ evs ∧ SubmitShape c command f r evs ∧ Reclaim c c' f evs := by
  cases hs with
  | allocated s r c' ha hp =>
    obtain ⟨pevs, hlog, hshape, _, hrec⟩ := published_reclaim env command f s _ r c' hp
    refine ⟨Event.allocate (some s) :: pevs, ?_, Or.inl ⟨s, pevs, rfl, hshape⟩, ?_⟩
    · simp only [allocateStamp] at ha hlog
      rw [hlog, ha]
      simp
    · rcases hrec with ⟨a, b, d, e, g⟩ | ⟨last, pre, post, hl, he, a, b, b2, d, e, g⟩
      · exact Or.inl ⟨by simpa using a, by simpa using b, d, e, g⟩
      · exact Or.inr ⟨last, Event.allocate (some s) :: pre, post, hl, by rw [he]; rfl,
          by simpa using a, by simpa using b, b2, d, e, g⟩
  | aborted last sh n ha hl hst hd =>
    refine ⟨_, ?_, Or.inr ⟨last, hl, Or.inl ⟨rfl, rfl⟩⟩, Or.inl ?_⟩
    · simp only [allocateStamp, resumed] at ha ⊢
      simp [ha]
    · simp [allocateStamp, resumed]
  | exhausted last sh n ha hl hst hd h3 =>
    refine ⟨_, ?_, Or.inr ⟨last, hl, Or.inr (Or.inl ⟨rfl, rfl⟩)⟩, Or.inr
      ⟨last, [Event.allocate none], [Event.allocate none], hl, by simp, rfl, rfl, rfl, ?_⟩⟩
    · simp only [allocateStamp, resumed, releaseAsyncStorage_eq] at ha h3 ⊢
      simp [ha, h3]
    · simp [allocateStamp, resumed, releaseAsyncStorage_eq]
  | reallocated last sh n s r c' ha hl hst hd h3 hp =>
    obtain ⟨pevs, hlog, hshape, _, hrec⟩ := published_reclaim env command f s _ r c' hp
    rcases hshape with ⟨hr, hpe⟩ | ⟨l2, hl2, _⟩
    · rcases hrec with ⟨_, _, d, e, g⟩ | ⟨l3, _, _, hl3, _⟩
      · refine ⟨_, ?_, Or.inr ⟨last, hl, Or.inr (Or.inr ⟨s, hr, rfl⟩)⟩, Or.inr
          ⟨last, [Event.allocate none],
            [Event.allocate (some s), Event.push (c.entryFor command s) true], hl, by simp,
            rfl, rfl, rfl, ?_⟩⟩
        · simp only [allocateStamp, resumed, releaseAsyncStorage_eq] at ha h3 hlog hpe ⊢
          rw [hlog, hpe, ha, h3]
          simp [entryFor, getAsShmemOffset]
        · simp only [allocateStamp, resumed, releaseAsyncStorage_eq] at d e g
          exact ⟨d, e, g⟩
      · exfalso
        simp [allocateStamp, releaseAsyncStorage_eq] at hl3
    · exfalso
      simp [allocateStamp, releaseAsyncStorage_eq] at hl2

end Cal.Rpc.ChannelClient

namespace Cal.Rpc.ChannelClient

theorem notifyService_frame (env : Surroundings) (c : ChannelClient) :
    (c.notifyService env).2.asyncTagsStorage = c.asyncTagsStorage ∧
      (c.notifyService env).2.asyncCommandsSpaceStorage = c.asyncCommandsSpaceStorage ∧
      (c.notifyService env).2.completionStamps = c.completionStamps ∧
      (c.notifyService env).2.heap = c.heap ∧
      (c.notifyService env).2.now = c.now ∧
      (c.notifyService env).2.shared.stopped = c.shared.stopped ∧
      (c.notifyService env).2.shared.stamps = c.shared.stamps ∧
      (c.notifyService env).2.shared.semClient = c.shared.semClient ∧
      ∃ evs, (c.notifyService env).2.log = c.log ++ evs ∧ frees evs = [] ∧
        allocations evs = [] ∧ pushes evs = [] ∧ waits evs = [] := by
  unfold notifyService
  split_ifs with hm
  · refine ⟨rfl, rfl, rfl, rfl, rfl, ?_, ?_, ?_,
      ⟨[Event.signalService (env.postSucceeds c.now)], rfl, rfl, rfl, rfl, rfl⟩⟩
    · simp only [signalServiceSemaphore]
      split_ifs <;> rfl
    · simp only [signalServiceSemaphore]
      split_ifs <;> rfl
    · simp only [signalServiceSemaphore]
      split_ifs <;> rfl
  · exact ⟨rfl, rfl, rfl, rfl, rfl, rfl, rfl, rfl, ⟨[], by simp, rfl, rfl, rfl, rfl⟩⟩

theorem callSynchronous_returned (env : Surroundings) (command f fuel : Nat)
    (c : ChannelClient) (b : Bool) (c' : ChannelClient)
    (h : callSynchronous env command f fuel c = Outcome.returned b c') :
    (submitCommand env command f fuel c = Outcome.returned none c' ∧ b = false) ∨
      ∃ s c1, submitCommand env command f fuel c = Outcome.returned (some s) c1 ∧
        (((c1.notifyService env).1 = false ∧ b = false ∧ c' = (c1.notifyService env).2) ∨
          ((c1.notifyService env).1 = true ∧
            ∃ sh n, (c1.notifyService env).2.now ≤ n ∧
              Drifts env (c1.notifyService env).2.shared sh ∧
              ((sh.stopped = true ∧ b = false ∧
                  c' = (c1.notifyService env).2.resumed sh n (Event.wait s f false)) ∨
                (sh.stamps s ≠ CompletionStampNotReady ∧ b = true ∧
                  c' = (((c1.notifyService env).2.resumed sh n
                    (Event.wait s f true)).freeStamp s).releaseAsyncStorage)))) := by
  unfold callSynchronous at h
  split at h
  · next c1 hs =>
    injection h with hb hc
    subst hb hc
    exact Or.inl ⟨hs, rfl⟩
  · next s c1 hs =>
    refine Or.inr ⟨s, c1, hs, ?_⟩
    split at h
    · next c2 hn =>
      injection h with hb hc
      subst hb hc
      exact Or.inl ⟨by rw [hn], rfl, by rw [hn]⟩
    · next c2 hn =>
      have h1 : (c1.notifyService env).1 = true := by rw [hn]
      have h2 : c2 = (c1.notifyService env).2 := by rw [hn]
      refine Or.inr ⟨h1, ?_⟩
      split at h
      · next c3 hw =>
        injection h with hb hc
        subst hb hc
        obtain ⟨sh, n, e, hle, hd, _, hst⟩ := wait_returned env s f fuel c2 false c3 hw
        rw [h2] at hle hd e
        exact ⟨sh, n, hle, hd, Or.inl ⟨hst rfl, rfl, e⟩⟩
      · next c3 hw =>
        injection h with hb hc
        subst hb hc
        obtain ⟨sh, n, e, hle, hd, hrd, _⟩ := wait_returned env s f fuel c2 true c3 hw
        rw [h2] at hle hd e
        exact ⟨sh, n, hle, hd, Or.inr ⟨hrd rfl, rfl, by rw [e]⟩⟩
      · simp at h
      · simp at h
  · simp at h
  · simp at h

end Cal.Rpc.ChannelClient

namespace Cal.Rpc.ChannelClient

theorem spin_completes (env : Surroundings) (s T : Nat)
    (hready : ∀ sh, (env.act T sh).stamps s = CompletionStampReady)
    (hrun : ∀ n sh, (env.act n sh).stopped = sh.stopped) :
    ∀ (fuel : Nat) (c : ChannelClient), c.shared.stopped = false → T + 1 - c.now < fuel →
      (T < c.now → c.shared.stamps s ≠ CompletionStampNotReady) →
      ∃ c', spinUntilProcessed env s fuel c = Outcome.returned true c' := by
  intro fuel
  induction fuel with
  | zero => intro c _ h; omega
  | succ fuel ih =>
    intro c hst hf hinv
    unfold spinUntilProcessed
    split_ifs with h1 h2
    · rw [hst] at h2
      simp at h2
    · have hle : c.now ≤ T := by
        by_contra hc
        exact hinv (by omega) h1
      apply ih (c.yield env)
      · simp only [yield]
        rw [hrun]
        exact hst
      · simp only [yield]
        omega
      · intro hlt
        simp only [yield] at hlt ⊢
        have hT : c.now = T := by omega
        rw [hT, hready]
        decide
    · exact ⟨c, rfl⟩

theorem waitOnClientSemaphore_completes (env : Surroundings) (s T : Nat)
    (hready : ∀ sh, (env.act T sh).stamps s = CompletionStampReady)
    (hsig : ∀ sh, 0 < (env.act T sh).semClient)
    (hrun : ∀ n sh, (env.act n sh).stopped = sh.stopped) :
    ∀ (fuel : Nat) (c : ChannelClient), c.shared.stopped = false → T + 1 - c.now < fuel →
      (T < c.now → c.shared.stamps s ≠ CompletionStampNotReady ∧ 0 < c.shared.semClient) →
      ∃ b c', waitOnClientSemaphore env fuel c = Outcome.returned b c' ∧
        c'.shared.stopped = false ∧ T + 1 - c'.now ≤ T + 1 - c.now ∧
        (T < c'.now → c'.shared.stamps s ≠ CompletionStampNotReady) := by
  intro fuel
  induction fuel with
  | zero => intro c _ h; omega
  | succ fuel ih =>
    intro c hst hf hinv
    unfold waitOnClientSemaphore
    split_ifs with h1
    · have hle : c.now ≤ T := by
        by_contra hc
        have := (hinv (by omega)).2
        omega
      obtain ⟨b, c', e, a1, a2, a3⟩ := ih (c.yield env)
        (by simp only [yield]; rw [hrun]; exact hst)
        (by simp only [yield]; omega)
        (by
          intro hlt
          simp only [yield] at hlt ⊢
          have hT : c.now = T := by omega
          rw [hT, hready]
          exact ⟨by decide, hsig _⟩)
      refine ⟨b, c', e, a1, ?_, a3⟩
      simp only [yield] at a2
      omega
    · exact ⟨true, _, rfl, hst, le_refl _, fun hlt => (hinv hlt).1⟩

theorem wait_completes (env : Surroundings) (s f T : Nat)
    (hready : ∀ sh, (env.act T sh).stamps s = CompletionStampReady)
    (hsig : f &&& signalSemaphoreOnCompletion ≠ 0 → ∀ sh, 0 < (env.act T sh).semClient)
    (hrun : ∀ n sh, (env.act n sh).stopped = sh.stopped)
    (fuel : Nat) (c : ChannelClient) (hst : c.shared.stopped = false) (hT : c.now ≤ T)
    (hf : T + 1 - c.now < fuel) :
    ∃ c', wait env s f fuel c = Outcome.returned true c' := by
  unfold wait
  split_ifs with hflag
  · unfold semaphoreWait
    obtain ⟨b, c1, e, a1, a2, a3⟩ := waitOnClientSemaphore_completes env s T hready
      (hsig hflag) hrun fuel c hst hf (fun hlt => by omega)
    rw [e]
    simp only [a1]
    obtain ⟨c2, e2⟩ := spin_completes env s T hready hrun fuel c1 a1 (by omega) a3
    rw [e2]
    exact ⟨_, rfl⟩
  · unfold activeWait
    obtain ⟨c2, e2⟩ := spin_completes env s T hready hrun fuel c hst hf
      (fun hlt => by omega)
    rw [e2]
    exact ⟨_, rfl⟩

end Cal.Rpc.ChannelClient

namespace Cal.Rpc.ChannelClient

theorem tagAllocator_allocate_some (t : TagAllocator) (s : Nat) (h : t.allocate.1 = some s) :
    ∃ i, i < t.capacity ∧ i ∉ t.used ∧
      s = t.underlyingAllocation + i * sizeofCompletionStampT ∧
      t.allocate.2 = { t with used := i :: t.used } ∧ t.slotOf s = i := by
  cases hf : (List.range t.capacity).find? (fun i => decide (i ∉ t.used)) with
  | none =>
    unfold TagAllocator.allocate at h
    rw [hf] at h
    simp at h
  | some i =>
    have hp := List.find?_some hf
    have hm := List.mem_of_find?_eq_some hf
    unfold TagAllocator.allocate at h ⊢
    rw [hf] at h ⊢
    injection h with h
    refine ⟨i, List.mem_range.mp hm, by simpa using hp, h.symm, rfl, ?_⟩
    subst h
    simp [TagAllocator.slotOf, sizeofCompletionStampT]

theorem tagAllocator_allocate_none (t : TagAllocator) (h : t.allocate.1 = none) :
    t.allocate.2 = t ∧ ∀ i, i < t.capacity → i ∈ t.used := by
  cases hf : (List.range t.capacity).find? (fun i => decide (i ∉ t.used)) with
  | none =>
    refine ⟨?_, fun i hi => ?_⟩
    · unfold TagAllocator.allocate
      rw [hf]
    · have := List.find?_eq_none.mp hf i (List.mem_range.mpr hi)
      simpa using this
  | some i =>
    unfold TagAllocator.allocate at h
    rw [hf] at h
    simp at h

theorem tagAllocator_foldl_free (l : List Nat) : ∀ t : TagAllocator,
    (l.foldl TagAllocator.free t).underlyingAllocation = t.underlyingAllocation ∧
      (l.foldl TagAllocator.free t).capacity = t.capacity ∧
      (l.foldl TagAllocator.free t).used.Sublist t.used := by
  induction l with
  | nil => intro t; exact ⟨rfl, rfl, List.Sublist.refl _⟩
  | cons x xs ih =>
    intro t
    obtain ⟨a, b, d⟩ := ih (t.free x)
    exact ⟨a, b, d.trans (List.erase_sublist _ _)⟩

theorem submitCommand_direct (env : Surroundings) (command f fuel s : Nat) (c : ChannelClient)
    (hfree : c.completionStamps.allocate.1 = some s)
    (hslot : (c.shared.ring.push (c.entryFor command s)).1 = true) :
    submitCommand env command f fuel c =
      Outcome.returned (some s)
        ((c.allocateStamp.2.markNotReady s).pushRing
          (c.allocateStamp.2.entryFor command s)).2 := by
  unfold submitCommand
  split
  · next s1 c1 ha =>
    have e1 : s = s1 := by
      have h1 : c.allocateStamp.1 = some s1 := by rw [ha]
      simp only [allocateStamp] at h1
      rw [hfree] at h1
      injection h1
    have e2 : c.allocateStamp.2 = c1 := by rw [ha]
    subst e1 e2
    unfold publishCommand
    split
    · next c2 hp => rw [hp]
    · next c2 hp =>
      exfalso
      have h1 : ((c.allocateStamp.2.markNotReady s).pushRing
          (c.allocateStamp.2.entryFor command s)).1 = false := by rw [hp]
      simp only [pushRing, markNotReady, allocateStamp, entryFor, getAsShmemOffset] at h1
      simp only [entryFor, getAsShmemOffset] at hslot
      rw [hslot] at h1
      simp at h1
  · next c1 ha =>
    exfalso
    have h1 : c.allocateStamp.1 = none := by rw [ha]
    simp only [allocateStamp] at h1
    rw [hfree] at h1
    simp at h1

end Cal.Rpc.ChannelClient

namespace Cal.Rpc.ChannelClient

theorem createRingBuffer_threshold (hs : Handshake) (c : ChannelClient) :
    (createRingBuffer hs c).2.1.semaphoreWaitThreshold = c.semaphoreWaitThreshold := by
  unfold createRingBuffer
  split
  · rfl
  · split <;> rfl

theorem enableRpc_threshold (hs : Handshake) (c : ChannelClient) :
    (enableRpc hs c).2.semaphoreWaitThreshold = c.semaphoreWaitThreshold := by
  unfold enableRpc
  split <;> rfl

theorem init_threshold (hs : Handshake) (m : ClientSynchronizationMethod) (u : Bool)
    (c : ChannelClient) (hm : m ≠ ClientSynchronizationMethod.unknown) :
    (init hs m u c).2.semaphoreWaitThreshold =
      thresholdAfterSwitch m c.semaphoreWaitThreshold := by
  unfold init
  rw [if_neg hm]
  dsimp only
  split
  · next c2 ch hc =>
    have h1 := congrArg (fun r => r.2.1.semaphoreWaitThreshold) hc
    dsimp only at h1
    rw [createRingBuffer_threshold] at h1
    exact h1.symm
  · next c2 ch hc =>
    have h1 := congrArg (fun r => r.2.1.semaphoreWaitThreshold) hc
    dsimp only at h1
    rw [createRingBuffer_threshold] at h1
    have h2 := enableRpc_threshold hs c2
    split
    · next c3 he =>
      rw [he] at h2
      exact h2.trans h1.symm
    · next c3 he =>
      rw [he] at h2
      exact h2.trans h1.symm

theorem f32_gt_finite (latency : F32) (t : ℚ) :
    latency.gt (F32.finite t) = true ↔
      latency = F32.posInf ∨ ∃ q, latency = F32.finite q ∧ t < q := by
  cases latency <;> simp [F32.gt]

end Cal.Rpc.ChannelClient

namespace Cal.Rpc.ChannelClient

theorem slotOf_foldl_free (l : List Nat) (t : TagAllocator) :
    (l.foldl TagAllocator.free t).slotOf = t.slotOf := by
  funext x
  unfold TagAllocator.slotOf
  rw [(tagAllocator_foldl_free l t).1]

theorem mem_foldl_free (l : List Nat) : ∀ (t : TagAllocator) (x : Nat),
    x ∈ t.used → x ∉ l.map t.slotOf → x ∈ (l.foldl TagAllocator.free t).used := by
  induction l with
  | nil => intro t x hx _; exact hx
  | cons y ys ih =>
    intro t x hx hn
    simp only [List.map_cons, List.mem_cons, not_or] at hn
    refine ih (t.free y) x ?_ hn.2
    exact (List.mem_erase_of_ne hn.1).mpr hx

theorem poolInv_release (t : TagAllocator) (pending : List Nat) (h : PoolInv t pending) :
    PoolInv (pending.foldl TagAllocator.free t) [] := by
  obtain ⟨_, hc, hu⟩ := tagAllocator_foldl_free pending t
  refine ⟨fun i hi => ?_, by simp, by simp⟩
  rw [hc]
  exact h.1 i (hu.subset hi)

theorem poolInv_free (t : TagAllocator) (s : Nat) (h : PoolInv t []) :
    PoolInv (t.free s) [] :=
  ⟨fun i hi => h.1 i ((List.erase_sublist _ _).subset hi), by simp, by simp⟩

theorem poolInv_allocate (t : TagAllocator) (pending : List Nat) (s : Nat)
    (h : PoolInv t pending) (ha : t.allocate.1 = some s) :
    PoolInv t.allocate.2 pending ∧ Holds t.allocate.2 pending s := by
  obtain ⟨i, hi, hni, _, hal2, hslotOf⟩ := tagAllocator_allocate_some t s ha
  rw [hal2]
  have hso : TagAllocator.slotOf { t with used := i :: t.used } = t.slotOf := rfl
  refine ⟨⟨?_, ?_, ?_⟩, ?_, ?_⟩
  · intro j hj
    rcases List.mem_cons.mp hj with e | e
    · rw [e]; exact hi
    · exact h.1 j e
  · rw [hso]; exact h.2.1
  · intro x hx
    rw [hso]
    exact List.mem_cons_of_mem _ (h.2.2 x hx)
  · rw [hso, hslotOf]
    exact List.mem_cons_self _ _
  · rw [hso, hslotOf]
    intro hmem
    obtain ⟨x, hx, e⟩ := List.mem_map.mp hmem
    exact hni (e ▸ h.2.2 x hx)

theorem poolInv_push_back (t : TagAllocator) (pending : List Nat) (s : Nat)
    (h : PoolInv t pending) (hs : Holds t pending s) : PoolInv t (pending ++ [s]) := by
  refine ⟨h.1, ?_, ?_⟩
  · rw [List.map_append, List.nodup_append]
    refine ⟨h.2.1, by simp, ?_⟩
    intro a ha hb
    simp only [List.map_cons, List.map_nil, List.mem_singleton] at hb
    exact hs.2 (hb ▸ ha)
  · intro x hx
    rcases List.mem_append.mp hx with e | e
    · exact h.2.2 x e
    · simp only [List.mem_singleton] at e
      rw [e]
      exact hs.1

theorem poolInv_length (t : TagAllocator) (pending : List Nat) (h : PoolInv t pending) :
    pending.length ≤ t.capacity := by
  have h1 : (pending.map t.slotOf).toFinset ⊆ Finset.range t.capacity := by
    intro x hx
    obtain ⟨y, hy, e⟩ := List.mem_map.mp (List.mem_toFinset.mp hx)
    exact Finset.mem_range.mpr (e ▸ h.1 _ (h.2.2 y hy))
  have h2 := Finset.card_le_card h1
  rw [List.toFinset_card_of_nodup h.2.1, Finset.card_range, List.length_map] at h2
  exact h2

theorem published_pool (env : Surroundings) (command f s : Nat) (c : ChannelClient)
    (r : Option Nat) (c' : ChannelClient) (hp : Published env command f s c r c')
    (h : PoolInv c.completionStamps c.asyncTagsStorage)
    (hs : Holds c.completionStamps c.asyncTagsStorage s) :
    PoolInv c'.completionStamps c'.asyncTagsStorage ∧
      (r = some s → Holds c'.completionStamps c'.asyncTagsStorage s) := by
  cases hp with
  | pushed h1 => exact ⟨h, fun _ => hs⟩
  | aborted last sh n h1 hl hst hd => exact ⟨h, fun _ => hs⟩
  | retried last sh n h1 hl hst hd h3 =>
    simp only [pushRing, markNotReady, resumed, releaseAsyncStorage_eq]
    refine ⟨poolInv_release _ _ h, fun _ => ⟨?_, by simp⟩⟩
    rw [slotOf_foldl_free]
    exact mem_foldl_free _ _ _ hs.1 hs.2
  | refused last sh n h1 hl hst hd h3 =>
    simp only [pushRing, markNotReady, resumed, releaseAsyncStorage_eq, freeStamp]
    exact ⟨poolInv_free _ _ (poolInv_release _ _ h), fun e => by simp at e⟩

theorem submitted_pool (env : Surroundings) (command f : Nat) (c : ChannelClient)
    (r : Option Nat) (c' : ChannelClient) (hsub : Submitted env command f c r c')
    (h : PoolInv c.completionStamps c.asyncTagsStorage) :
    PoolInv c'.completionStamps c'.asyncTagsStorage ∧
      ∀ s, r = some s → Holds c'.completionStamps c'.asyncTagsStorage s := by
  cases hsub with
  | allocated s r c' ha hp =>
    obtain ⟨h1, h2⟩ := poolInv_allocate _ _ s h ha
    obtain ⟨h3, h4⟩ := published_pool env command f s _ r c' hp h1 h2
    refine ⟨h3, fun s2 e => ?_⟩
    have hrs : r = some s := by
      cases hp with
      | pushed _ => rfl
      | aborted _ _ _ _ _ _ _ => simp at e
      | retried _ _ _ _ _ _ _ _ => rfl
      | refused _ _ _ _ _ _ _ _ => simp at e
    have e2 : s2 = s := by
      rw [hrs] at e
      injection e with e
      exact e.symm
    rw [e2]
    exact h4 hrs
  | aborted last sh n ha hl hst hd =>
    simp only [allocateStamp, resumed]
    rw [(tagAllocator_allocate_none _ ha).1]
    exact ⟨h, fun s e => by simp at e⟩
  | exhausted last sh n ha hl hst hd h3 =>
    simp only [allocateStamp, resumed, releaseAsyncStorage_eq] at h3 ⊢
    rw [(tagAllocator_allocate_none _ h3).1, (tagAllocator_allocate_none _ ha).1]
    exact ⟨poolInv_release _ _ h, fun s e => by simp at e⟩
  | reallocated last sh n s r c' ha hl hst hd h3 hp =>
    have hrel : PoolInv (c.allocateStamp.2.resumed sh n
        (Event.wait last f true)).releaseAsyncStorage.completionStamps
        (c.allocateStamp.2.resumed sh n
          (Event.wait last f true)).releaseAsyncStorage.asyncTagsStorage := by
      simp only [allocateStamp, resumed, releaseAsyncStorage_eq]
      rw [(tagAllocator_allocate_none _ ha).1]
      exact poolInv_release _ _ h
    obtain ⟨h1, h2⟩ := poolInv_allocate _ _ s hrel h3
    obtain ⟨h4, h5⟩ := published_pool env command f s _ r c' hp h1 h2
    refine ⟨h4, fun s2 e => ?_⟩
    have hrs : r = some s := by
      cases hp with
      | pushed _ => rfl
      | aborted _ _ _ _ _ _ _ => simp at e
      | retried _ _ _ _ _ _ _ _ => rfl
      | refused _ _ _ _ _ _ _ _ => simp at e
    have e2 : s2 = s := by
      rw [hrs] at e
      injection e with e
      exact e.symm
    rw [e2]
    exact h5 hrs

end Cal.Rpc.ChannelClient

namespace Cal.Rpc.ChannelClient

theorem callAsynchronous_returned (env : Surroundings) (command f commandSpace fuel : Nat)
    (c : ChannelClient) (b : Bool) (c' : ChannelClient)
    (h : callAsynchronous env command f commandSpace fuel c = Outcome.returned b c') :
    (c.useAsyncCalls = false ∧
        callSynchronous env command f fuel c = Outcome.returned b c') ∨
      (submitCommand env command f fuel c = Outcome.returned none c' ∧ b = false) ∨
      ∃ s c1, submitCommand env command f fuel c = Outcome.returned (some s) c1 ∧
        (((c1.notifyService env).1 = false ∧ b = false ∧ c' = (c1.notifyService env).2) ∨
          ((c1.notifyService env).1 = true ∧ b = true ∧
            c' = { (c1.notifyService env).2 with
              asyncTagsStorage := (c1.notifyService env).2.asyncTagsStorage ++ [s]
              asyncCommandsSpaceStorage :=
                (c1.notifyService env).2.asyncCommandsSpaceStorage ++ [commandSpace] })) := by
  unfold callAsynchronous at h
  split_ifs at h with hu
  · exact Or.inl ⟨hu, h⟩
  · right
    split at h
    · next c1 hs =>
      injection h with hb hc
      subst hb hc
      exact Or.inl ⟨hs, rfl⟩
    · next s c1 hs =>
      refine Or.inr ⟨s, c1, hs, ?_⟩
      split at h
      · next c2 hn =>
        injection h with hb hc
        subst hb hc
        exact Or.inl ⟨by rw [hn], rfl, by rw [hn]⟩
      · next c2 hn =>
        injection h with hb hc
        subst hb hc
        exact Or.inr ⟨by rw [hn], rfl, by rw [hn]⟩
    · simp at h
    · simp at h

theorem callSynchronous_pool (env : Surroundings) (command f fuel : Nat)
    (c : ChannelClient) (b : Bool) (c' : ChannelClient)
    (h : callSynchronous env command f fuel c = Outcome.returned b c')
    (hinv : PoolInv c.completionStamps c.asyncTagsStorage) :
    PoolInv c'.completionStamps c'.asyncTagsStorage := by
  rcases callSynchronous_returned env command f fuel c b c' h with
    ⟨hs, _⟩ | ⟨s, c1, hs, hcase⟩
  · exact (submitted_pool env command f c none c'
      (submitCommand_returned env command f fuel c none c' hs) hinv).1
  · have h1 := (submitted_pool env command f c (some s) c1
      (submitCommand_returned env command f fuel c (some s) c1 hs) hinv).1
    obtain ⟨ht, _, hcs, _⟩ := notifyService_frame env c1
    rcases hcase with ⟨_, _, hc⟩ | ⟨_, sh, n, _, _, ⟨_, _, hc⟩ | ⟨_, _, hc⟩⟩
    · rw [hc, ht, hcs]
      exact h1
    · rw [hc]
      simp only [resumed]
      rw [ht, hcs]
      exact h1
    · rw [hc]
      simp only [releaseAsyncStorage_eq, freeStamp, resumed]
      rw [ht, hcs]
      refine ⟨fun i hi => ?_, by simp, by simp⟩
      obtain ⟨_, hcap, hsub⟩ := tagAllocator_foldl_free c1.asyncTagsStorage
        (c1.completionStamps.free s)
      rw [hcap]
      exact h1.1 i ((List.erase_sublist _ _).subset (hsub.subset hi))

theorem callAsynchronous_pool (env : Surroundings) (command f commandSpace fuel : Nat)
    (c : ChannelClient) (b : Bool) (c' : ChannelClient)
    (h : callAsynchronous env command f commandSpace fuel c = Outcome.returned b c')
    (hinv : PoolInv c.completionStamps c.asyncTagsStorage) :
    PoolInv c'.completionStamps c'.asyncTagsStorage := by
  rcases callAsynchronous_returned env command f commandSpace fuel c b c' h with
    ⟨_, hs⟩ | ⟨hs, _⟩ | ⟨s, c1, hs, hcase⟩
  · exact callSynchronous_pool env command f fuel c b c' hs hinv
  · exact (submitted_pool env command f c none c'
      (submitCommand_returned env command f fuel c none c' hs) hinv).1
  · obtain ⟨h1, h2⟩ := submitted_pool env command f c (some s) c1
      (submitCommand_returned env command f fuel c (some s) c1 hs) hinv
    obtain ⟨ht, _, hcs, _⟩ := notifyService_frame env c1
    rcases hcase with ⟨_, _, hc⟩ | ⟨_, _, hc⟩
    · rw [hc, ht, hcs]
      exact h1
    · rw [hc]
      dsimp only
      rw [ht, hcs]
      exact poolInv_push_back _ _ s h1 (h2 s rfl)

theorem reachable_pool (env : Surroundings) (c : ChannelClient) (h : Reachable env c) :
    PoolInv c.completionStamps c.asyncTagsStorage := by
  induction h with
  | start c h1 _ h3 =>
    refine ⟨fun i hi => ?_, by rw [h1]; simp, fun s hs => ?_⟩
    · rw [h3] at hi
      simp at hi
    · rw [h1] at hs
      simp at hs
  | between c _ ih => exact ih
  | callAsynchronous c c' command f commandSpace fuel b _ hc ih =>
    exact callAsynchronous_pool env command f commandSpace fuel c b c' hc ih
  | callSynchronous c c' command f fuel b _ hc ih =>
    exact callSynchronous_pool env command f fuel c b c' hc ih
  | submitCommand c c' command f fuel r _ hc ih =>
    exact (submitted_pool env command f c r c'
      (submitCommand_returned env command f fuel c r c' hc) ih).1

end Cal.Rpc.ChannelClient

namespace Cal.Rpc.ChannelClient

/-- C16, the claim refuted: with no free stamp, one command pending whose stamp is not
ready, and the stop flag raised, `submitCommand` returns null after a single stamp
allocation and no ring push; what failed is the wait on the pending stamp, not a retry. -/
theorem submitCommand_null_counterexample :
    (submitCommand idle 81984 0 3 stoppedClient).value? = some none ∧
      ((submitCommand idle 81984 0 3 stoppedClient).after?.map (fun c => c.log)) =
        some [Event.allocate none, Event.wait 69632 0 false] ∧
      ((submitCommand idle 81984 0 3 stoppedClient).after?.map
        (fun c => (allocations c.log).length)) = some 1 ∧
      ((submitCommand idle 81984 0 3 stoppedClient).after?.map
        (fun c => (pushes c.log).length)) = some 0 := by
  decide

/-- C16 as amended. A `submitCommand` that returns has performed at most two stamp
allocations and at most two ring pushes (one retry each), and it returns null only if the
wait on the pending stamp that precedes a retry has failed, or a retry has itself failed:
the second stamp allocation returned no slot or the second ring push returned false. -/
theorem submitCommand_retries (env : Surroundings) (command f fuel : Nat) (c : ChannelClient)
    (r : Option Nat) (c' : ChannelClient)
    (h : submitCommand env command f fuel c = Outcome.returned r c') :
    ∃ evs, c'.log = c.log ++ evs ∧ (allocations evs).length ≤ 2 ∧ (pushes evs).length ≤ 2 ∧
      (r = none →
        (∃ st, waits evs = [(st, f, false)]) ∨
          allocations evs = [none, none] ∨
          ∃ e, pushes evs = [(e, false), (e, false)]) := by
  obtain ⟨evs, hlog, hshape⟩ := submitted_log env command f c r c'
    (submitCommand_returned env command f fuel c r c' h)
  refine ⟨evs, hlog, ?_⟩
  rcases hshape with ⟨s, pevs, he, hps⟩ | ⟨last, hl, hcase⟩
  · rcases hps with ⟨hr, hpe⟩ | ⟨last, hl, ⟨hr, hpe⟩ | ⟨hr, hpe⟩ | ⟨hr, hpe⟩⟩
    · subst he hpe hr
      simp
    · subst he hpe hr
      simp
    · subst he hpe hr
      simp
    · subst he hpe hr
      simp
  · rcases hcase with ⟨hr, he⟩ | ⟨hr, he⟩ | ⟨s, hr, he⟩
    · subst he hr
      simp
    · subst he hr
      simp
    · subst he hr
      simp

/-- Witness of `submitCommand_retries`: on `stoppedClient` the call returns null after one
allocation that found no stamp and a wait that failed. -/
theorem submitCommand_retries_witness :
    submitCommand idle 81984 0 3 stoppedClient = Outcome.returned none stoppedClientAfterSubmit ∧
      ∃ evs, stoppedClientAfterSubmit.log = stoppedClient.log ++ evs ∧
        (allocations evs).length ≤ 2 ∧ (pushes evs).length ≤ 2 ∧
        ((none : Option Nat) = none →
          (∃ st, waits evs = [(st, 0, false)]) ∨
            allocations evs = [none, none] ∨
            ∃ e, pushes evs = [(e, false), (e, false)]) :=
  ⟨rfl, submitCommand_retries idle 81984 0 3 stoppedClient none stoppedClientAfterSubmit rfl⟩

/-- C15, the claim refuted: with no free stamp and two commands pending, the older on the
stamp at 69632 and the newer on the stamp at 69636, `submitCommand` waits on the stamp at
69636, the last element of the pending-stamp list, and not on its first element. -/
theorem submitCommand_waits_counterexample :
    backlogClient.asyncTagsStorage.head? = some 69632 ∧
      (submitCommand idle 81984 0 3 backlogClient).value? = some (some 69632) ∧
      ((submitCommand idle 81984 0 3 backlogClient).after?.map (fun c => c.log)) =
        some [Event.allocate none, Event.wait 69636 0 true, Event.free 69632, Event.free 69636,
          Event.allocate (some 69632), Event.push ⟨16448, 4096⟩ true] ∧
      ((submitCommand idle 81984 0 3 backlogClient).after?.map (fun c => waits c.log)) =
        some [(69636, 0, true)] := by
  decide

theorem submitted_waits (env : Surroundings) (command f fuel : Nat)
    (c : ChannelClient) (r : Option Nat) (c' : ChannelClient)
    (h : submitCommand env command f fuel c = Outcome.returned r c') :
    ∃ evs, c'.log = c.log ++ evs ∧
      (∀ w ∈ waits evs, c.asyncTagsStorage.getLast? = some w.1 ∧ w.2.1 = f) ∧
      (waits evs).length ≤ 1 ∧
      (((∀ w ∈ waits evs, w.2.2 = false) ∧ frees evs = [] ∧
          c'.asyncTagsStorage = c.asyncTagsStorage ∧
          c'.asyncCommandsSpaceStorage = c.asyncCommandsSpaceStorage ∧ c'.heap = c.heap) ∨
        ∃ last pre post, c.asyncTagsStorage.getLast? = some last ∧
          evs = pre ++ Event.wait last f true :: (c.asyncTagsStorage.map Event.free ++ post) ∧
          waits pre = [] ∧ frees pre = [] ∧ waits post = [] ∧
          c'.asyncTagsStorage = [] ∧ c'.asyncCommandsSpaceStorage = [] ∧
          c'.heap = c.asyncCommandsSpaceStorage.foldl List.erase c.heap) := by
  obtain ⟨evs, hlog, hshape, hrec⟩ := submitted_reclaim env command f c r c'
    (submitCommand_returned env command f fuel c r c' h)
  refine ⟨evs, hlog, ?_, ?_, hrec⟩
  · rcases hshape with ⟨s, pevs, he, hps⟩ | ⟨last, hl, hcase⟩
    · rcases hps with ⟨hr, hpe⟩ | ⟨last, hl, ⟨hr, hpe⟩ | ⟨hr, hpe⟩ | ⟨hr, hpe⟩⟩
      · subst he hpe hr
        simp
      · subst he hpe hr
        simp [hl]
      · subst he hpe hr
        simp [hl]
      · subst he hpe hr
        simp [hl]
    · rcases hcase with ⟨hr, he⟩ | ⟨hr, he⟩ | ⟨s, hr, he⟩
      · subst he hr
        simp [hl]
      · subst he hr
        simp [hl]
      · subst he hr
        simp [hl]
  · rcases hshape with ⟨s, pevs, he, hps⟩ | ⟨last, hl, hcase⟩
    · rcases hps with ⟨hr, hpe⟩ | ⟨last, hl, ⟨hr, hpe⟩ | ⟨hr, hpe⟩ | ⟨hr, hpe⟩⟩
      · subst he hpe hr
        simp
      · subst he hpe hr
        simp
      · subst he hpe hr
        simp
      · subst he hpe hr
        simp
    · rcases hcase with ⟨hr, he⟩ | ⟨hr, he⟩ | ⟨s, hr, he⟩
      · subst he hr
        simp
      · subst he hr
        simp
      · subst he hr
        simp

/-- C15 as amended. Every wait that a returning `submitCommand` makes is on the newest pending
asynchronous stamp, the last (latest appended) element of the pending-stamp list, and there
is at most one; the pending stamps and heap allocations are reclaimed only after that wait
has succeeded: either no wait succeeded, no stamp was released and both pending lists and
the heap are as before the call, or the successful wait is followed at once by the release
of every pending stamp, no release precedes it, and both pending lists are empty, the heap
having lost the pending allocations. -/
theorem submitCommand_waits_on_last (env : Surroundings) (command f fuel : Nat)
    (c : ChannelClient) (r : Option Nat) (c' : ChannelClient)
    (h : submitCommand env command f fuel c = Outcome.returned r c') :
    ∃ evs, c'.log = c.log ++ evs ∧
      (∀ w ∈ waits evs, c.asyncTagsStorage.getLast? = some w.1) ∧
      (waits evs).length ≤ 1 ∧
      (((∀ w ∈ waits evs, w.2.2 = false) ∧ frees evs = [] ∧
          c'.asyncTagsStorage = c.asyncTagsStorage ∧
          c'.asyncCommandsSpaceStorage = c.asyncCommandsSpaceStorage ∧ c'.heap = c.heap) ∨
        ∃ last flags pre post, c.asyncTagsStorage.getLast? = some last ∧
          evs = pre ++ Event.wait last flags true ::
            (c.asyncTagsStorage.map Event.free ++ post) ∧
          waits pre = [] ∧ frees pre = [] ∧ waits post = [] ∧
          c'.asyncTagsStorage = [] ∧ c'.asyncCommandsSpaceStorage = [] ∧
          c'.heap = c.asyncCommandsSpaceStorage.foldl List.erase c.heap) := by
  obtain ⟨evs, hlog, hw, hlen, hrec⟩ := submitted_waits env command f fuel c r c' h
  refine ⟨evs, hlog, fun w hm => (hw w hm).1, hlen, ?_⟩
  rcases hrec with hkeep | ⟨last, pre, post, hrest⟩
  · exact Or.inl hkeep
  · exact Or.inr ⟨last, f, pre, post, hrest⟩

/-- Witness of `submitCommand_waits_on_last`: on `backlogClient` the call waits on the stamp
at 69636, releases both pending stamps and returns the stamp at 69632. -/
theorem submitCommand_waits_on_last_witness :
    submitCommand idle 81984 0 3 backlogClient =
        Outcome.returned (some 69632) backlogClientAfterSubmit ∧
      ∃ evs, backlogClientAfterSubmit.log = backlogClient.log ++ evs ∧
        (∀ w ∈ waits evs, backlogClient.asyncTagsStorage.getLast? = some w.1) ∧
        (waits evs).length ≤ 1 ∧
        (((∀ w ∈ waits evs, w.2.2 = false) ∧ frees evs = [] ∧
            backlogClientAfterSubmit.asyncTagsStorage = backlogClient.asyncTagsStorage ∧
            backlogClientAfterSubmit.asyncCommandsSpaceStorage =
              backlogClient.asyncCommandsSpaceStorage ∧
            backlogClientAfterSubmit.heap = backlogClient.heap) ∨
          ∃ last flags pre post, backlogClient.asyncTagsStorage.getLast? = some last ∧
            evs = pre ++ Event.wait last flags true ::
              (backlogClient.asyncTagsStorage.map Event.free ++ post) ∧
            waits pre = [] ∧ frees pre = [] ∧ waits post = [] ∧
            backlogClientAfterSubmit.asyncTagsStorage = [] ∧
            backlogClientAfterSubmit.asyncCommandsSpaceStorage = [] ∧
            backlogClientAfterSubmit.heap =
              backlogClient.asyncCommandsSpaceStorage.foldl List.erase backlogClient.heap) :=
  ⟨rfl, submitCommand_waits_on_last idle 81984 0 3 backlogClient (some 69632)
    backlogClientAfterSubmit rfl⟩

/-- C18. Every `callSynchronous` that returns true leaves both pending-storage lists empty
and has called `completionStamps.free` on every stamp that was pending before the call;
every `callSynchronous` that returns false leaves both lists, the stamp pool and the heap as
`submitCommand` left them, and has released no stamp after the submission. -/
theorem callSynchronous_pending (env : Surroundings) (command f fuel : Nat)
    (c : ChannelClient) (b : Bool) (c' : ChannelClient)
    (h : callSynchronous env command f fuel c = Outcome.returned b c') :
    ∃ r c1 evs1 evs2, submitCommand env command f fuel c = Outcome.returned r c1 ∧
      c1.log = c.log ++ evs1 ∧ c'.log = c1.log ++ evs2 ∧
      (b = true →
        c'.asyncTagsStorage = [] ∧ c'.asyncCommandsSpaceStorage = [] ∧
          ∀ t ∈ c.asyncTagsStorage, t ∈ frees (evs1 ++ evs2)) ∧
      (b = false →
        c'.asyncTagsStorage = c1.asyncTagsStorage ∧
          c'.asyncCommandsSpaceStorage = c1.asyncCommandsSpaceStorage ∧
          c'.completionStamps = c1.completionStamps ∧ c'.heap = c1.heap ∧
          frees evs2 = []) := by
  rcases callSynchronous_returned env command f fuel c b c' h with
    ⟨hs, hb⟩ | ⟨s, c1, hs, hcase⟩
  · obtain ⟨evs1, hlog, _, _⟩ := submitted_reclaim env command f c none c'
      (submitCommand_returned env command f fuel c none c' hs)
    refine ⟨none, c', evs1, [], hs, hlog, by simp, fun e => ?_, fun _ =>
      ⟨rfl, rfl, rfl, rfl, rfl⟩⟩
    rw [hb] at e
    simp at e
  · obtain ⟨evs1, hlog, _, hrec⟩ := submitted_reclaim env command f c (some s) c1
      (submitCommand_returned env command f fuel c (some s) c1 hs)
    obtain ⟨ht, hsp, hcs, hh, _, _, _, _, nevs, hnl, hnf, _, _, _⟩ := notifyService_frame env c1
    rcases hcase with ⟨_, hb, hc⟩ | ⟨_, sh, n, _, _, ⟨_, hb, hc⟩ | ⟨_, hb, hc⟩⟩
    · refine ⟨some s, c1, evs1, nevs, hs, hlog, by rw [hc, hnl], fun e => ?_, fun _ => ?_⟩
      · rw [hb] at e
        simp at e
      · rw [hc]
        exact ⟨ht, hsp, hcs, hh, hnf⟩
    · refine ⟨some s, c1, evs1, nevs ++ [Event.wait s f false], hs, hlog, ?_, fun e => ?_,
        fun _ => ?_⟩
      · rw [hc]
        simp [resumed, hnl]
      · rw [hb] at e
        simp at e
      · rw [hc]
        simp only [resumed]
        exact ⟨ht, hsp, hcs, hh, by simp [hnf]⟩
    · refine ⟨some s, c1, evs1,
        nevs ++ [Event.wait s f true, Event.free s] ++ c1.asyncTagsStorage.map Event.free, hs,
        hlog, ?_, fun _ => ?_, fun e => ?_⟩
      · rw [hc]
        simp [releaseAsyncStorage_eq, resumed, freeStamp, hnl, ht]
      · rw [hc]
        refine ⟨by simp [releaseAsyncStorage_eq], by simp [releaseAsyncStorage_eq], ?_⟩
        intro t htm
        rcases hrec with ⟨_, _, hkeep, _, _⟩ | ⟨last, pre, post, _, he, _, _, _, _, _, _⟩
        · rw [hkeep]
          simp [hnf, htm]
        · rw [he]
          simp [htm]
      · rw [hb] at e
        simp at e

/-- C17, the claim refuted: a client that is not stopped, with a free stamp and a free ring
slot, talks to a service that waits on its semaphore; the `sem_post` on that semaphore
fails, `callSynchronous` returns false, the stamp it allocated (slot 0) stays claimed, and
the service sets that stamp ready at its next step all the same. -/
theorem callSynchronous_post_counterexample :
    semaphoreClient.shared.stopped = false ∧
      semaphoreClient.completionStamps.allocate.1 = some 69632 ∧
      (semaphoreClient.shared.ring.push ⟨16448, 4096⟩).1 = true ∧
      semaphoreClient.asyncTagsStorage = [] ∧
      semaphoreClient.completionStamps.used = [] ∧
      (callSynchronous brokenPost 81984 0 3 semaphoreClient).value? = some false ∧
      ((callSynchronous brokenPost 81984 0 3 semaphoreClient).after?.map
        (fun c => c.completionStamps.used)) = some [0] ∧
      ((callSynchronous brokenPost 81984 0 3 semaphoreClient).after?.map
        (fun c => (brokenPost.act c.now c.shared).stamps 69632)) =
        some CompletionStampReady := by
  decide

/-- C17 as amended. Completion round-trip: a client that is not stopped and is not stopped
during the call, that has a free stamp `s` and a free ring slot, and whose `sem_post` on the
service semaphore succeeds when the service waits on it, makes a `callSynchronous` that
returns true as soon as the service signals completion (at the scheduling point `T`: the
stamp is set ready and, if the flags ask for it, the client semaphore is posted).  On
return the stamp pool is the pool before the call with the pending asynchronous stamps
released, the slot of `s` is free, and with nothing pending the number of claimed stamps is
the number before the call. -/
theorem callSynchronous_round_trip (env : Surroundings) (command f fuel s T : Nat)
    (c : ChannelClient)
    (hstop : c.shared.stopped = false)
    (hrun : ∀ n sh, (env.act n sh).stopped = sh.stopped)
    (hfree : c.completionStamps.allocate.1 = some s)
    (hslot : (c.shared.ring.push (c.entryFor command s)).1 = true)
    (hpost : c.serviceSynchronizationMethod = ServiceSynchronizationMethod.semaphores →
      env.postSucceeds c.now = true)
    (hT : c.now ≤ T)
    (hready : ∀ sh, (env.act T sh).stamps s = CompletionStampReady)
    (hsig : f &&& signalSemaphoreOnCompletion ≠ 0 → ∀ sh, 0 < (env.act T sh).semClient)
    (hfuel : T + 1 - c.now < fuel) :
    ∃ c', callSynchronous env command f fuel c = Outcome.returned true c' ∧
      c'.completionStamps = c.asyncTagsStorage.foldl TagAllocator.free c.completionStamps ∧
      c.completionStamps.slotOf s ∉ c'.completionStamps.used ∧
      (c.asyncTagsStorage = [] →
        c'.completionStamps.used.length = c.completionStamps.used.length) := by
  obtain ⟨i, _, hni, _, hal2, hslotOf⟩ := tagAllocator_allocate_some c.completionStamps s hfree
  have hsub := submitCommand_direct env command f fuel s c hfree hslot
  obtain ⟨ht, _, hcs, _, hnow, hnst, _, _, _⟩ := notifyService_frame env
    ((c.allocateStamp.2.markNotReady s).pushRing (c.allocateStamp.2.entryFor command s)).2
  have hn1 : (((c.allocateStamp.2.markNotReady s).pushRing
      (c.allocateStamp.2.entryFor command s)).2.notifyService env).1 = true := by
    unfold notifyService
    split_ifs with hm
    · exact hpost hm
    · rfl
  obtain ⟨c5, hw⟩ := wait_completes env s f T hready hsig hrun fuel _
    (by rw [hnst]; exact hstop) (by rw [hnow]; exact hT) (by rw [hnow]; exact hfuel)
  obtain ⟨sh, n, e5, _⟩ := wait_returned env s f fuel _ true c5 hw
  have hpair : ((c.allocateStamp.2.markNotReady s).pushRing
      (c.allocateStamp.2.entryFor command s)).2.notifyService env =
      (true, (((c.allocateStamp.2.markNotReady s).pushRing
        (c.allocateStamp.2.entryFor command s)).2.notifyService env).2) :=
    Prod.ext hn1 rfl
  have hcall : callSynchronous env command f fuel c =
      Outcome.returned true (c5.freeStamp s).releaseAsyncStorage := by
    unfold callSynchronous
    rw [hsub]
    dsimp only
    rw [hpair]
    dsimp only
    rw [hw]
  have hpool : (c5.freeStamp s).releaseAsyncStorage.completionStamps =
      c.asyncTagsStorage.foldl TagAllocator.free c.completionStamps := by
    rw [e5]
    simp only [releaseAsyncStorage_eq, freeStamp, resumed]
    rw [ht, hcs]
    have hback : (c.completionStamps.allocate.2).free s = c.completionStamps := by
      rw [hal2]
      simp only [TagAllocator.free]
      have hs2 : TagAllocator.slotOf { c.completionStamps with used := i :: c.completionStamps.used } s = i :=
        hslotOf
      rw [hs2]
      simp
    exact congrArg (fun t => List.foldl TagAllocator.free t c.asyncTagsStorage) hback
  refine ⟨_, hcall, hpool, ?_, ?_⟩
  · rw [hpool, hslotOf]
    intro hmem
    exact hni ((tagAllocator_foldl_free c.asyncTagsStorage c.completionStamps).2.2.subset hmem)
  · intro hnil
    rw [hpool, hnil]
    rfl

/-- Witness of `callSynchronous_round_trip`: `sampleClient` submits a command whose
flags ask for the client semaphore, the service signals completion at the scheduling point
2, and five scheduling points are granted to the call. -/
theorem callSynchronous_round_trip_witness :
    sampleClient.shared.stopped = false ∧
      (∀ n sh, ((signalCompletionAt 69632 1 2).act n sh).stopped = sh.stopped) ∧
      sampleClient.completionStamps.allocate.1 = some 69632 ∧
      (sampleClient.shared.ring.push (sampleClient.entryFor 81984 69632)).1 = true ∧
      (sampleClient.serviceSynchronizationMethod = ServiceSynchronizationMethod.semaphores →
        (signalCompletionAt 69632 1 2).postSucceeds sampleClient.now = true) ∧
      sampleClient.now ≤ 2 ∧
      (∀ sh, ((signalCompletionAt 69632 1 2).act 2 sh).stamps 69632 = CompletionStampReady) ∧
      (1 &&& signalSemaphoreOnCompletion ≠ 0 →
        ∀ sh, 0 < ((signalCompletionAt 69632 1 2).act 2 sh).semClient) ∧
      2 + 1 - sampleClient.now < 5 ∧
      ∃ c', callSynchronous (signalCompletionAt 69632 1 2) 81984 1 5 sampleClient =
          Outcome.returned true c' ∧
        c'.completionStamps =
          sampleClient.asyncTagsStorage.foldl TagAllocator.free sampleClient.completionStamps ∧
        sampleClient.completionStamps.slotOf 69632 ∉ c'.completionStamps.used ∧
        (sampleClient.asyncTagsStorage = [] →
          c'.completionStamps.used.length = sampleClient.completionStamps.used.length) :=
  ⟨rfl, fun n sh => by simp only [signalCompletionAt]; split_ifs <;> rfl, by decide,
    by decide, fun _ => rfl, by decide, fun sh => by simp [signalCompletionAt],
    fun _ sh => by simp [signalCompletionAt, signalSemaphoreOnCompletion], by decide,
    callSynchronous_round_trip (signalCompletionAt 69632 1 2) 81984 1 5 69632 2 sampleClient
      rfl (fun n sh => by simp only [signalCompletionAt]; split_ifs <;> rfl) (by decide)
      (by decide) (fun _ => rfl) (by decide) (fun sh => by simp [signalCompletionAt])
      (fun _ sh => by simp [signalCompletionAt, signalSemaphoreOnCompletion]) (by decide)⟩

/-- Witness of `callSynchronous_pending`: on `backlogClient`, with a service that signals
completion at the scheduling point 1, the call returns true, both pending stamps have been
released and nothing is pending. -/
theorem callSynchronous_pending_witness :
    callSynchronous (signalCompletionAt 69632 0 1) 81984 0 4 backlogClient =
        Outcome.returned true backlogClientAfterCall ∧
      ∃ r c1 evs1 evs2,
        submitCommand (signalCompletionAt 69632 0 1) 81984 0 4 backlogClient =
          Outcome.returned r c1 ∧
        c1.log = backlogClient.log ++ evs1 ∧ backlogClientAfterCall.log = c1.log ++ evs2 ∧
        (true = true →
          backlogClientAfterCall.asyncTagsStorage = [] ∧
            backlogClientAfterCall.asyncCommandsSpaceStorage = [] ∧
            ∀ t ∈ backlogClient.asyncTagsStorage, t ∈ frees (evs1 ++ evs2)) ∧
        (true = false →
          backlogClientAfterCall.asyncTagsStorage = c1.asyncTagsStorage ∧
            backlogClientAfterCall.asyncCommandsSpaceStorage = c1.asyncCommandsSpaceStorage ∧
            backlogClientAfterCall.completionStamps = c1.completionStamps ∧
            backlogClientAfterCall.heap = c1.heap ∧
            frees evs2 = []) :=
  ⟨rfl, callSynchronous_pending (signalCompletionAt 69632 0 1) 81984 0 4 backlogClient true
    backlogClientAfterCall rfl⟩

/-- C19, the divergence.  `init` with `activePolling` succeeds and sets the threshold
`unreachableAlwaysActiveWait`, commented "unreachable threshold (no semaphores)" for a
client that "always polls"; `shouldSynchronizeNextCommandWithSemaphores(200.0f)` is then
true.  `init` with `semaphores` succeeds and sets the threshold
`unreachableAlwaysSemaphores`, commented "all APIs reach this threshold (always
semaphores)"; `shouldSynchronizeNextCommandWithSemaphores(-200.0f)` is then false, and so is
the answer for a NaN. -/
theorem shouldSynchronize_fixed_counterexample :
    (init sampleHandshake ClientSynchronizationMethod.activePolling false sampleClient).1 =
        true ∧
      (init sampleHandshake ClientSynchronizationMethod.activePolling false
        sampleClient).2.semaphoreWaitThreshold =
        SemaphoreThresholds.unreachableAlwaysActiveWait ∧
      (init sampleHandshake ClientSynchronizationMethod.activePolling false
        sampleClient).2.shouldSynchronizeNextCommandWithSemaphores (F32.finite 200) = true ∧
      (init sampleHandshake ClientSynchronizationMethod.semaphores false sampleClient).1 =
        true ∧
      (init sampleHandshake ClientSynchronizationMethod.semaphores false
        sampleClient).2.semaphoreWaitThreshold =
        SemaphoreThresholds.unreachableAlwaysSemaphores ∧
      (init sampleHandshake ClientSynchronizationMethod.semaphores false
        sampleClient).2.shouldSynchronizeNextCommandWithSemaphores (F32.finite (-200)) =
        false ∧
      (init sampleHandshake ClientSynchronizationMethod.semaphores false
        sampleClient).2.shouldSynchronizeNextCommandWithSemaphores F32.nan = false := by
  decide

/-- What the two fixed disciplines answer.  After `init` with `activePolling`,
`shouldSynchronizeNextCommandWithSemaphores(latency)` is `latency > 100.0f`: false for every
latency up to 100 and for a NaN, true for the larger ones; after `init` with `semaphores`
it is `latency > -100.0f`: true for every latency above -100, false for the others and for
a NaN.  This holds whether or not the later steps of `init` succeed. -/
theorem shouldSynchronize_fixed (hs : Handshake) (useSharedVaForRpcChannel : Bool)
    (c : ChannelClient) (latency : F32) :
    ((init hs ClientSynchronizationMethod.activePolling useSharedVaForRpcChannel
        c).2.shouldSynchronizeNextCommandWithSemaphores latency = true ↔
      latency = F32.posInf ∨ ∃ q, latency = F32.finite q ∧ 100 < q) ∧
    ((init hs ClientSynchronizationMethod.semaphores useSharedVaForRpcChannel
        c).2.shouldSynchronizeNextCommandWithSemaphores latency = true ↔
      latency = F32.posInf ∨ ∃ q, latency = F32.finite q ∧ -100 < q) := by
  constructor
  · unfold shouldSynchronizeNextCommandWithSemaphores
    rw [init_threshold hs _ _ c (by decide)]
    exact f32_gt_finite latency 100
  · unfold shouldSynchronizeNextCommandWithSemaphores
    rw [init_threshold hs _ _ c (by decide)]
    exact f32_gt_finite latency (-100)

/-- C20, the claim refuted: over a ring of capacity 2 and a pool of three stamps, three
asynchronous calls, the service taking each command off the ring before the next call, lead
to a state with three pending stamps, more than the capacity of the ring. -/
theorem pending_exceeds_ring_counterexample :
    roomyClient.asyncTagsStorage = [] ∧ roomyClient.completionStamps.used = [] ∧
      Reachable (promptService 65536) overrunClient ∧
      overrunClient.shared.ring.getCapacity = 2 ∧
      overrunClient.asyncTagsStorage = [69632, 69636, 69640] ∧
      overrunClient.asyncTagsStorage.length = 3 :=
  ⟨rfl, rfl,
    Reachable.callAsynchronous _ _ 83968 0 83968 1 true
      (Reachable.between _
        (Reachable.callAsynchronous _ _ 82944 0 82944 1 true
          (Reachable.between _
            (Reachable.callAsynchronous roomyClient _ 81920 0 81920 1 true
              (Reachable.start roomyClient rfl rfl rfl) rfl))
          rfl))
      rfl,
    rfl, by decide, by decide⟩

/-- C20 as amended. In-flight bound: in every client state reachable through
`callAsynchronous`, `callSynchronous` and `submitCommand`, whatever the surroundings do, the
number of pending asynchronous commands, the length of the pending-stamp list, never exceeds
the capacity of the completion-stamp pool; the pending stamps sit in distinct slots of the
pool, all of them claimed. -/
theorem pending_bounded_by_pool (env : Surroundings) (c : ChannelClient)
    (h : Reachable env c) :
    c.asyncTagsStorage.length ≤ c.completionStamps.capacity ∧
      (c.asyncTagsStorage.map c.completionStamps.slotOf).Nodup ∧
      ∀ s ∈ c.asyncTagsStorage,
        c.completionStamps.slotOf s ∈ c.completionStamps.used ∧
          c.completionStamps.slotOf s < c.completionStamps.capacity := by
  have hinv := reachable_pool env c h
  exact ⟨poolInv_length _ _ hinv, hinv.2.1,
    fun s hs => ⟨hinv.2.2 s hs, hinv.1 _ (hinv.2.2 s hs)⟩⟩

/-- Witness of `pending_bounded_by_pool`: `roomyClient` after one asynchronous call. -/
theorem pending_bounded_by_pool_witness :
    Reachable idle (afterAsynchronous idle 81920 roomyClient) ∧
      (afterAsynchronous idle 81920 roomyClient).asyncTagsStorage.length ≤
        (afterAsynchronous idle 81920 roomyClient).completionStamps.capacity ∧
      ((afterAsynchronous idle 81920 roomyClient).asyncTagsStorage.map
        (afterAsynchronous idle 81920 roomyClient).completionStamps.slotOf).Nodup ∧
      ∀ s ∈ (afterAsynchronous idle 81920 roomyClient).asyncTagsStorage,
        (afterAsynchronous idle 81920 roomyClient).completionStamps.slotOf s ∈
            (afterAsynchronous idle 81920 roomyClient).completionStamps.used ∧
          (afterAsynchronous idle 81920 roomyClient).completionStamps.slotOf s <
            (afterAsynchronous idle 81920 roomyClient).completionStamps.capacity :=
  ⟨Reachable.callAsynchronous roomyClient _ 81920 0 81920 1 true
      (Reachable.start roomyClient rfl rfl rfl) rfl,
    pending_bounded_by_pool idle (afterAsynchronous idle 81920 roomyClient)
      (Reachable.callAsynchronous roomyClient _ 81920 0 81920 1 true
        (Reachable.start roomyClient rfl rfl rfl) rfl)⟩

end Cal.Rpc.ChannelClient

namespace Cal.Rpc.TypedRing

variable {α : Type}

/-- C29. Single-writer counters: for every ring state and item, `push` never changes the head
offset, and `pop` never changes the tail offset nor any data slot. -/
theorem single_writer_counters (r : TypedRing α) (el : α) :
    (r.push el).2.peekHeadOffset = r.peekHeadOffset ∧
      r.pop.2.peekTailOffset = r.peekTailOffset ∧ r.pop.2.data = r.data := by
  refine ⟨?_, ?_, ?_⟩
  · rw [push_unfold]
    split_ifs <;> rfl
  · rw [pop_unfold]
    split_ifs <;> rfl
  · rw [pop_unfold]
    split_ifs <;> rfl

end Cal.Rpc.TypedRing

namespace Cal.Rpc.ChannelServer

/-- C28. Offset translation round trip across processes: for a client that has the segment
mapped at `Bc = c.shmem`, a server that has it mapped at `Bs = s.shmem`, and a local client
address `p` with `Bc ≤ p` inside the segment (a segment whose size fits the signed offset
type and whose server mapping lies within the address space), the server-side
`getAsLocalAddress` of the client-side `getAsShmemOffset(p)` is `Bs + (p - Bc)`; likewise
`decodeLocalPtrFromHeapOffset(encodeHeapOffsetFromLocalPtr(p)) = Bs + (p - Bc)`, and with
`Bs = Bc` both round trips return `p`. -/
theorem offset_round_trip (c : ChannelClient) (s : ChannelServer) (p segmentSize : Nat)
    (hbase : c.shmem ≤ p) (hin : p - c.shmem < segmentSize)
    (hsize : segmentSize < 9223372036854775808)
    (hmapped : s.shmem + segmentSize ≤ 18446744073709551616) :
    s.getAsLocalAddress (c.getAsShmemOffset p) = s.shmem + (p - c.shmem) ∧
      s.decodeLocalPtrFromHeapOffset (c.encodeHeapOffsetFromLocalPtr p) =
        s.shmem + (p - c.shmem) ∧
      (s.shmem = c.shmem →
        s.getAsLocalAddress (c.getAsShmemOffset p) = p ∧
          s.decodeLocalPtrFromHeapOffset (c.encodeHeapOffsetFromLocalPtr p) = p) := by
  have h1 : s.getAsLocalAddress (c.getAsShmemOffset p) = s.shmem + (p - c.shmem) := by
    unfold getAsLocalAddress Utils.moveByBytes ChannelClient.getAsShmemOffset byteDistanceAbs
      toInt64 toU64
    rw [if_pos hbase]
    omega
  have h2 : s.decodeLocalPtrFromHeapOffset (c.encodeHeapOffsetFromLocalPtr p) =
      s.shmem + (p - c.shmem) := by
    unfold decodeLocalPtrFromHeapOffset Utils.moveByBytes
      ChannelClient.encodeHeapOffsetFromLocalPtr byteDistanceAbs toU64
    rw [if_pos hbase]
    omega
  refine ⟨h1, h2, fun e => ?_⟩
  rw [h1, h2, e]
  omega

/-- Witness of `offset_round_trip`: the client has the five-page segment at 65536, the server
at 131072, and `p` is the address 81984 of a command. -/
theorem offset_round_trip_witness :
    ChannelClient.sampleClient.shmem ≤ 81984 ∧
      81984 - ChannelClient.sampleClient.shmem < 20480 ∧
      (20480 : Nat) < 9223372036854775808 ∧
      sampleServer.shmem + 20480 ≤ 18446744073709551616 ∧
      (sampleServer.getAsLocalAddress (ChannelClient.sampleClient.getAsShmemOffset 81984) =
          sampleServer.shmem + (81984 - ChannelClient.sampleClient.shmem) ∧
        sampleServer.decodeLocalPtrFromHeapOffset
            (ChannelClient.sampleClient.encodeHeapOffsetFromLocalPtr 81984) =
          sampleServer.shmem + (81984 - ChannelClient.sampleClient.shmem) ∧
        (sampleServer.shmem = ChannelClient.sampleClient.shmem →
          sampleServer.getAsLocalAddress
              (ChannelClient.sampleClient.getAsShmemOffset 81984) = 81984 ∧
            sampleServer.decodeLocalPtrFromHeapOffset
              (ChannelClient.sampleClient.encodeHeapOffsetFromLocalPtr 81984) = 81984)) :=
  ⟨by decide, by decide, by decide, by decide,
    offset_round_trip ChannelClient.sampleClient sampleServer 81984 20480 (by decide)
      (by decide) (by decide) (by decide)⟩

end Cal.Rpc.ChannelServer

namespace Cal.Rpc.CommandsChannel

open Cal.Utils

theorem fixedRegions_core :
    ∀ entry ∈ defaultFixedRegions.enum,
      entry.2.2.1.stop ≤ 16384 ∧ entry.1 ≠ 9 ∧
        isAligned entry.2.2.1.start entry.2.2.2 = true ∧
        isAligned entry.2.2.1.stop entry.2.2.2 = true ∧
        defaultFixedRegions.enum.all
          (fun rhs => decide (entry.1 = rhs.1) || !entry.2.2.1.intersects rhs.2.2.1) = true := by
  decide

theorem enum_defaultRegions (heap : String × AddressRange × Nat) :
    (defaultFixedRegions ++ [heap]).enum = defaultFixedRegions.enum ++ [(9, heap)] := rfl

theorem isInBounds_defaultLayout (shmemSize : Nat)
    (hsize : isAlignedPow2 pageSize4KB shmemSize = true)
    (hmin : DefaultLayout.minShmemSize ≤ shmemSize)
    (h64 : shmemSize < 18446744073709551616) :
    isInBounds (defaultLayout shmemSize) shmemSize = true := by
  have hmin2 : 20480 ≤ shmemSize := hmin
  have hal : shmemSize % 4096 = 0 := by
    simpa [isAlignedPow2, pageSize4KB] using hsize
  rw [isInBounds_eq_all, regions_defaultLayout, toU64_toInt64 _ h64, enum_defaultRegions,
    List.all_eq_true]
  intro entry hentry
  rw [List.mem_append, List.mem_singleton] at hentry
  rcases hentry with hf | hh
  · obtain ⟨hstop, hidx, ha1, ha2, hall⟩ := fixedRegions_core entry hf
    unfold regionOk
    rw [ha1, ha2, enum_defaultRegions, List.all_append, hall]
    have hc : AddressRange.contains ⟨0, shmemSize⟩ entry.2.2.1 = true := by
      simp only [AddressRange.contains, Bool.and_eq_true, decide_eq_true_eq]
      omega
    have hi : entry.2.2.1.intersects ⟨16384, shmemSize⟩ = false := by
      simp only [AddressRange.intersects, Bool.and_eq_false_iff, decide_eq_false_iff_not]
      omega
    rw [hc]
    simp [hi]
  · subst hh
    unfold regionOk
    rw [enum_defaultRegions, List.all_append]
    have hc : AddressRange.contains ⟨0, shmemSize⟩ ⟨16384, shmemSize⟩ = true := by
      simp only [AddressRange.contains, Bool.and_eq_true, decide_eq_true_eq]
      omega
    have hrest : defaultFixedRegions.enum.all
        (fun rhs => decide (9 = rhs.1) ||
          !AddressRange.intersects ⟨16384, shmemSize⟩ rhs.2.2.1) = true := by
      rw [List.all_eq_true]
      intro rhs hrhs
      obtain ⟨hstop, _⟩ := fixedRegions_core rhs hrhs
      have hi : AddressRange.intersects ⟨16384, shmemSize⟩ rhs.2.2.1 = false := by
        simp only [AddressRange.intersects, Bool.and_eq_false_iff, decide_eq_false_iff_not]
        omega
      simp [hi]
    simp only [hc, hrest]
    simp [isAligned, hal]


/-- C30. Producer/validator agreement: for every page-aligned segment size that is at least
`DefaultLayout::minShmemSize`, the layout that the default `partition()` computes for that
size is accepted by `isInBounds` with the same size: every region is in bounds, the start
and the end of every region meet its alignment, and no two regions intersect; so a service
that partitions its mapping of the segment with that layout does not reject it, provided
`isValid()` accepts it. -/
theorem default_layout_accepted (ch : CommandsChannel) (mem : Nat → Int)
    (shmem shmemSize : Nat) (initializeControlBlock clientSemInit serverSemInit : Bool)
    (hptr : isAlignedPow2 pageSize4KB shmem = true)
    (hsize : isAlignedPow2 pageSize4KB shmemSize = true)
    (hmin : DefaultLayout.minShmemSize ≤ shmemSize)
    (h64 : shmemSize < 18446744073709551616) :
    isInBounds (partition ch mem shmem shmemSize initializeControlBlock clientSemInit
        serverSemInit).2.1.layout shmemSize = true ∧
      (∀ (i : Nat) (p : String × AddressRange × Nat),
        (regions (partition ch mem shmem shmemSize initializeControlBlock clientSemInit
          serverSemInit).2.1.layout)[i]? = some p →
        p.2.1.stop ≤ shmemSize ∧ p.2.1.start % p.2.2 = 0 ∧ p.2.1.stop % p.2.2 = 0 ∧
          ∀ (j : Nat) (q : String × AddressRange × Nat),
            (regions (partition ch mem shmem shmemSize initializeControlBlock clientSemInit
              serverSemInit).2.1.layout)[j]? = some q → i ≠ j →
            ¬ (p.2.1.start < q.2.1.stop ∧ q.2.1.start < p.2.1.stop)) ∧
      ∀ (isValid : CommandsChannelLayout → Bool) (service : CommandsChannel)
        (serviceMem : Nat → Int) (serviceShmem : Nat),
        isValid (partition ch mem shmem shmemSize initializeControlBlock clientSemInit
          serverSemInit).2.1.layout = true →
        (partitionWithLayout isValid service serviceMem serviceShmem shmemSize
          (partition ch mem shmem shmemSize initializeControlBlock clientSemInit
            serverSemInit).2.1.layout false false false).1 = true := by
  rw [partition_layout ch mem shmem shmemSize initializeControlBlock clientSemInit
    serverSemInit hptr hsize hmin]
  have hb := isInBounds_defaultLayout shmemSize hsize hmin h64
  refine ⟨hb, fun i p hp => isInBounds_checks _ _ hb i p hp, ?_⟩
  intro isValid service serviceMem serviceShmem hv
  unfold partitionWithLayout
  rw [hv, hb]
  rfl

/-- Witness of `default_layout_accepted`: a five-page segment mapped at 8192. -/
theorem default_layout_accepted_witness :
    isAlignedPow2 pageSize4KB 8192 = true ∧ isAlignedPow2 pageSize4KB 20480 = true ∧
      DefaultLayout.minShmemSize ≤ 20480 ∧ (20480 : Nat) < 18446744073709551616 ∧
      (isInBounds (partition sampleChannel (fun _ => 0) 8192 20480 true true
          true).2.1.layout 20480 = true ∧
        (∀ (i : Nat) (p : String × AddressRange × Nat),
          (regions (partition sampleChannel (fun _ => 0) 8192 20480 true true
            true).2.1.layout)[i]? = some p →
          p.2.1.stop ≤ 20480 ∧ p.2.1.start % p.2.2 = 0 ∧ p.2.1.stop % p.2.2 = 0 ∧
            ∀ (j : Nat) (q : String × AddressRange × Nat),
              (regions (partition sampleChannel (fun _ => 0) 8192 20480 true true
                true).2.1.layout)[j]? = some q → i ≠ j →
              ¬ (p.2.1.start < q.2.1.stop ∧ q.2.1.start < p.2.1.stop)) ∧
        ∀ (isValid : CommandsChannelLayout → Bool) (service : CommandsChannel)
          (serviceMem : Nat → Int) (serviceShmem : Nat),
          isValid (partition sampleChannel (fun _ => 0) 8192 20480 true true
            true).2.1.layout = true →
          (partitionWithLayout isValid service serviceMem serviceShmem 20480
            (partition sampleChannel (fun _ => 0) 8192 20480 true true true).2.1.layout
            false false false).1 = true) :=
  ⟨by decide, by decide, by decide, by decide,
    default_layout_accepted sampleChannel (fun _ => 0) 8192 20480 true true true (by decide)
      (by decide) (by decide) (by decide)⟩

end Cal.Rpc.CommandsChannel

namespace Cal.Rpc.TypedRing

variable {α : Type}

theorem pending_of_empty (r : TypedRing α) (h : r.peekEmpty = true) : r.pending = [] := by
  have e : r.head = r.tail := by simpa [peekEmpty, peekHeadOffset, peekTailOffset] using h
  unfold pending count distance
  rw [e]
  simp [slotsFrom]

theorem slotsFrom_length (data : Int → α) (cap : Nat) :
    ∀ (n : Nat) (h : Int), (slotsFrom data cap h n).length = n := by
  intro n
  induction n with
  | zero => intro h; rfl
  | succ n ih => intro h; simp [slotsFrom, ih]

theorem empty_of_pending (r : TypedRing α) (hr : r.InRange) (h : r.pending = []) :
    r.peekEmpty = true := by
  have hl := slotsFrom_length r.data r.capacity r.count r.head
  have hp : r.pending = slotsFrom r.data r.capacity r.head r.count := rfl
  rw [← hp, h] at hl
  have hc : distance r.capacity r.head r.tail = 0 := hl.symm
  obtain ⟨h0, h1, t0, t1, _⟩ := hr
  have e : r.head = r.tail := by
    unfold distance at hc
    split_ifs at hc with hge
    · omega
    · omega
  simp [peekEmpty, peekHeadOffset, peekTailOffset, e]

theorem push_true_of_inRange (r : TypedRing α) (el : α) (hr : r.InRange)
    (h : (r.push el).1 = true) :
    (r.push el).2.InRange ∧ (r.push el).2.pending = r.pending ++ [el] := by
  by_cases hf : r.isFull
  · rw [push_of_full r el hr hf] at h
    simp at h
  · exact (push_of_not_full r el hr hf).2

theorem push_false_iff_full (r : TypedRing α) (el : α) (hr : r.InRange) :
    ((r.push el).1 = false ↔ r.isFull) ∧ ((r.push el).1 = false → (r.push el).2 = r) := by
  by_cases hf : r.isFull
  · rw [push_of_full r el hr hf]
    simp [hf]
  · have h1 := (push_of_not_full r el hr hf).1
    rw [h1]
    simp [hf]

end Cal.Rpc.TypedRing

namespace Cal.Rpc.ChannelServer

open TypedRing

theorem pushHostptrCopyToUpdate_ring (s : ChannelServer) (memChunk : MemChunk) :
    (s.pushHostptrCopyToUpdate memChunk).1 = (s.shared.hostptrCopiesRing.push memChunk).1 ∧
      (s.pushHostptrCopyToUpdate memChunk).2.shared.hostptrCopiesRing =
        (s.shared.hostptrCopiesRing.push memChunk).2 := by
  unfold pushHostptrCopyToUpdate
  split_ifs with h
  · exact ⟨h.symm, rfl⟩
  · simp only [Bool.not_eq_false] at h
    exact ⟨h.symm, rfl⟩

theorem pushHostptrCopies_pending : ∀ (chunks : List MemChunk) (s : ChannelServer),
    s.shared.hostptrCopiesRing.InRange →
    (s.pushHostptrCopies chunks).1 = List.replicate chunks.length true →
    (s.pushHostptrCopies chunks).2.shared.hostptrCopiesRing.InRange ∧
      (s.pushHostptrCopies chunks).2.shared.hostptrCopiesRing.pending =
        s.shared.hostptrCopiesRing.pending ++ chunks := by
  intro chunks
  induction chunks with
  | nil => intro s hr _; exact ⟨hr, by simp [pushHostptrCopies]⟩
  | cons x xs ih =>
    intro s hr h
    simp only [pushHostptrCopies, List.length_cons, List.replicate_succ, List.cons.injEq] at h ⊢
    obtain ⟨e1, e2⟩ := pushHostptrCopyToUpdate_ring s x
    rw [e1] at h
    obtain ⟨hr1, hp1⟩ := push_true_of_inRange _ x hr h.1
    rw [← e2] at hr1 hp1
    obtain ⟨a, b⟩ := ih (s.pushHostptrCopyToUpdate x).2 hr1 h.2
    refine ⟨a, ?_⟩
    rw [b, hp1]
    simp

theorem acquireHostptrCopies_drains : ∀ (l : List MemChunk) (c : ChannelClient),
    c.shared.hostptrCopiesRing.InRange → c.shared.hostptrCopiesRing.pending = l →
    (c.acquireHostptrCopies l.length).1 = l ∧
      (c.acquireHostptrCopies l.length).2.shared.hostptrCopiesRing.peekEmpty = true := by
  intro l
  induction l with
  | nil =>
    intro c hr hp
    exact ⟨rfl, empty_of_pending _ hr hp⟩
  | cons x xs ih =>
    intro c hr hp
    have hne : c.shared.hostptrCopiesRing.peekEmpty = false := by
      cases he : c.shared.hostptrCopiesRing.peekEmpty with
      | false => rfl
      | true =>
        rw [pending_of_empty _ he] at hp
        simp at hp
    obtain ⟨_, hr1, hp1⟩ := pop_of_not_empty _ hr hne
    rw [hp] at hp1
    injection hp1 with hx hxs
    have hstep : c.acquireHostptrCopiesUpdate =
        (c.shared.hostptrCopiesRing.peekHead,
          { c with shared := { c.shared with
            hostptrCopiesRing := c.shared.hostptrCopiesRing.pop.2 } }) := by
      unfold ChannelClient.acquireHostptrCopiesUpdate
      rw [hne]
      rfl
    obtain ⟨a, b⟩ := ih
      { c with shared := { c.shared with
        hostptrCopiesRing := c.shared.hostptrCopiesRing.pop.2 } } hr1 hxs.symm
    simp only [ChannelClient.acquireHostptrCopies, List.length_cons, hstep]
    exact ⟨by rw [a, ← hx], b⟩

/-- C24 as amended. Host-pointer copy ring hand-off, on a secondary ring whose capacity is
below 2^63 and whose head and tail are slot indices: when `pushHostptrCopyToUpdate` has
returned true for each chunk of a sequence of `k` chunks, starting on an empty ring, the next
`k` calls of the client to `acquireHostptrCopiesUpdate` return exactly those chunks in the
order pushed; the call after them returns `{nullptr, 0}` and leaves the client, its ring
included, unchanged; and `pushHostptrCopyToUpdate` returns false exactly when the secondary
ring is full, without enqueuing anything. -/
theorem hostptr_copies_hand_off (s : ChannelServer) (c : ChannelClient)
    (chunks : List MemChunk)
    (hr : s.shared.hostptrCopiesRing.InRange)
    (hempty : s.shared.hostptrCopiesRing.peekEmpty = true)
    (hpushed : (s.pushHostptrCopies chunks).1 = List.replicate chunks.length true)
    (hshared : c.shared.hostptrCopiesRing =
      (s.pushHostptrCopies chunks).2.shared.hostptrCopiesRing) :
    (c.acquireHostptrCopies chunks.length).1 = chunks ∧
      (c.acquireHostptrCopies chunks.length).2.acquireHostptrCopiesUpdate =
        (⟨0, 0⟩, (c.acquireHostptrCopies chunks.length).2) ∧
      ∀ (t : ChannelServer) (memChunk : MemChunk), t.shared.hostptrCopiesRing.InRange →
        ((t.pushHostptrCopyToUpdate memChunk).1 = false ↔
            t.shared.hostptrCopiesRing.isFull) ∧
          ((t.pushHostptrCopyToUpdate memChunk).1 = false →
            (t.pushHostptrCopyToUpdate memChunk).2.shared.hostptrCopiesRing =
              t.shared.hostptrCopiesRing) := by
  obtain ⟨hr1, hp1⟩ := pushHostptrCopies_pending chunks s hr hpushed
  rw [pending_of_empty _ hempty, List.nil_append, ← hshared] at hp1
  rw [← hshared] at hr1
  obtain ⟨a, b⟩ := acquireHostptrCopies_drains chunks c hr1 hp1
  refine ⟨a, ?_, ?_⟩
  · unfold ChannelClient.acquireHostptrCopiesUpdate
    rw [b]
    rfl
  · intro t memChunk ht
    obtain ⟨e1, e2⟩ := pushHostptrCopyToUpdate_ring t memChunk
    obtain ⟨f1, f2⟩ := push_false_iff_full t.shared.hostptrCopiesRing memChunk ht
    rw [e1, e2]
    exact ⟨f1, fun h => by rw [f2 h]⟩

/-- Witness of `hostptr_copies_hand_off`: `sampleServer` pushes the two chunks of
`sampleCopies` onto its empty ring of four slots and `sampleClientWithCopies` acquires
them. -/
theorem hostptr_copies_hand_off_witness :
    sampleServer.shared.hostptrCopiesRing.InRange ∧
      sampleServer.shared.hostptrCopiesRing.peekEmpty = true ∧
      (sampleServer.pushHostptrCopies sampleCopies).1 =
        List.replicate sampleCopies.length true ∧
      sampleClientWithCopies.shared.hostptrCopiesRing =
        (sampleServer.pushHostptrCopies sampleCopies).2.shared.hostptrCopiesRing ∧
      ((sampleClientWithCopies.acquireHostptrCopies sampleCopies.length).1 = sampleCopies ∧
        (sampleClientWithCopies.acquireHostptrCopies
            sampleCopies.length).2.acquireHostptrCopiesUpdate =
          (⟨0, 0⟩, (sampleClientWithCopies.acquireHostptrCopies sampleCopies.length).2) ∧
        ∀ (t : ChannelServer) (memChunk : MemChunk), t.shared.hostptrCopiesRing.InRange →
          ((t.pushHostptrCopyToUpdate memChunk).1 = false ↔
              t.shared.hostptrCopiesRing.isFull) ∧
            ((t.pushHostptrCopyToUpdate memChunk).1 = false →
              (t.pushHostptrCopyToUpdate memChunk).2.shared.hostptrCopiesRing =
                t.shared.hostptrCopiesRing)) :=
  ⟨by decide, by decide, by decide, rfl,
    hostptr_copies_hand_off sampleServer sampleClientWithCopies sampleCopies (by decide)
      (by decide) (by decide) rfl⟩

end Cal.Rpc.ChannelServer

namespace Cal.Rpc.ChannelServer

theorem yield_stopped_false (env : Surroundings) (s : ChannelServer)
    (hq : ∀ n sh, sh.stopped = false → (env.act n sh).stopped = false)
    (h0 : s.shared.stopped = false) : (s.yield env).shared.stopped = false := by
  simp [yield, h0, hq _ _ h0]

theorem yield_stopped_true (env : Surroundings) (s : ChannelServer)
    (h1 : s.shared.stopped = true) : (s.yield env).shared.stopped = true := by
  simp [yield, h1]

theorem blockOnServiceSemaphore_returned (env : Surroundings) :
    ∀ (fuel : Nat) (s : ChannelServer) (b : Bool) (s1 : ChannelServer),
      blockOnServiceSemaphore env fuel s = Outcome.returned b s1 →
      s1.log = s.log ∧ s1.shmem = s.shmem ∧ s1.heapEnd = s.heapEnd ∧
        s1.serviceSynchronizationMethod = s.serviceSynchronizationMethod ∧
        (s.shared.stopped = true → s1.shared.stopped = true) ∧
        ((∀ n sh, sh.stopped = false → (env.act n sh).stopped = false) →
          s.shared.stopped = false → s1.shared.stopped = false) := by
  intro fuel
  induction fuel with
  | zero => intro s b s1 h; simp [blockOnServiceSemaphore] at h
  | succ fuel ih =>
    intro s b s1 h
    unfold blockOnServiceSemaphore at h
    split_ifs at h with h0
    · obtain ⟨a1, a2, a3, a4, a5, a6⟩ := ih _ b s1 h
      exact ⟨a1, a2, a3, a4, fun e => a5 (yield_stopped_true env s e),
        fun hq e => a6 hq (yield_stopped_false env s hq e)⟩
    · injection h with hb hs
      subst hs
      exact ⟨rfl, rfl, rfl, rfl, fun e => e, fun _ e => e⟩

theorem activeWait_returned (env : Surroundings) (yieldThread : Bool) :
    ∀ (fuel : Nat) (s : ChannelServer) (p : CommandPacket) (s' : ChannelServer),
      activeWait env yieldThread fuel s = Outcome.returned p s' →
      ((∀ n sh, sh.stopped = false → (env.act n sh).stopped = false) →
          s.shared.stopped = false → s'.shared.stopped = false) ∧
        ((p = ⟨0, 0, 0⟩ ∧ s'.shared.stopped = true) ∨
          ∃ s1 : ChannelServer, s1.shared.ring.peekEmpty = false ∧ p = s1.takeRequest.1 ∧
            s' = s1.takeRequest.2 ∧ s1.shmem = s.shmem ∧ s1.heapEnd = s.heapEnd) := by
  intro fuel
  induction fuel with
  | zero => intro s p s' h; simp [activeWait] at h
  | succ fuel ih =>
    intro s p s' h
    unfold activeWait at h
    split_ifs at h with he hs
    · injection h with hp hs'
      subst hp hs'
      refine ⟨fun hq h0 => ?_, Or.inl ⟨rfl, hs⟩⟩
      exact yield_stopped_false env _ hq h0
    · obtain ⟨a, b⟩ := ih _ p s' h
      refine ⟨fun hq h0 => a hq (yield_stopped_false env _ hq h0), ?_⟩
      rcases b with b | ⟨s1, b1, b2, b3, b4, b5⟩
      · exact Or.inl b
      · exact Or.inr ⟨s1, b1, b2, b3, b4, b5⟩
    · injection h with hp hs'
      subst hp hs'
      exact ⟨fun _ h0 => h0, Or.inr ⟨s, by simpa using he, rfl, rfl, rfl, rfl⟩⟩

theorem semaphoreWait_returned (env : Surroundings) :
    ∀ (fuel : Nat) (s : ChannelServer) (p : CommandPacket) (s' : ChannelServer),
      semaphoreWait env fuel s = Outcome.returned p s' →
      ((∀ n sh, sh.stopped = false → (env.act n sh).stopped = false) →
          s.shared.stopped = false → s'.shared.stopped = false) ∧
        ((p = ⟨0, 0, 0⟩ ∧ s'.shared.stopped = true) ∨
          ∃ s1 : ChannelServer, s1.shared.ring.peekEmpty = false ∧ p = s1.takeRequest.1 ∧
            s' = s1.takeRequest.2 ∧ s1.shmem = s.shmem ∧ s1.heapEnd = s.heapEnd) := by
  intro fuel
  induction fuel with
  | zero => intro s p s' h; simp [semaphoreWait] at h
  | succ fuel ih =>
    intro s p s' h
    unfold semaphoreWait at h
    split_ifs at h with he
    · cases hw : waitOnServiceSemaphore env fuel s with
      | returned b s1 =>
        obtain ⟨_, a2, a3, _, _, a6⟩ := blockOnServiceSemaphore_returned env fuel _ b s1 hw
        rw [hw] at h
        simp only at h
        split_ifs at h with hs
        · injection h with hp hs'
          subst hp hs'
          exact ⟨fun hq h0 => a6 hq h0, Or.inl ⟨rfl, hs⟩⟩
        · obtain ⟨a, b⟩ := ih s1 p s' h
          refine ⟨fun hq h0 => a hq (a6 hq h0), ?_⟩
          rcases b with b | ⟨s2, b1, b2, b3, b4, b5⟩
          · exact Or.inl b
          · exact Or.inr ⟨s2, b1, b2, b3, b4.trans a2, b5.trans a3⟩
      | waiting =>
        rw [hw] at h
        simp at h
      | undefined =>
        rw [hw] at h
        simp at h
    · injection h with hp hs'
      subst hp hs'
      exact ⟨fun _ h0 => h0, Or.inr ⟨s, by simpa using he, rfl, rfl, rfl, rfl⟩⟩

/-- C22, the claim refuted: a server on which `stop()` has not been called, with a command
waiting in its ring but no service synchronization method set, gets the empty packet from
`wait` at once; the ring is left as it was. -/
theorem wait_unknown_method_counterexample :
    unknownServer.shared.stopped = false ∧
      unknownServer.shared.ring.peekEmpty = false ∧
      (wait ChannelClient.idle false 1 unknownServer).value? = some ⟨0, 0, 0⟩ ∧
      ((wait ChannelClient.idle false 1 unknownServer).after?.map (fun s => s.shared.stopped)) =
        some false ∧
      ((wait ChannelClient.idle false 1 unknownServer).after?.map (fun s => s.shared.ring.peekEmpty)) =
        some false ∧
      ((wait ChannelClient.idle false 1 unknownServer).after?.map (fun s => s.log)) = some [] := by
  decide

/-- C22 as amended. For a server whose service synchronization method is `activePolling` or
`semaphores`, `wait` returns the empty packet of its stop branch only if `stopped` is set,
that is, only if `stop()` has been called; every other return yields the packet built from
the head entry of a non-empty ring, which is popped.  When `stop()` has not been called and
is not called during the wait, a returning `wait` yields such a packet. -/
theorem wait_empty_only_if_stopped (env : Surroundings) (yieldThread : Bool) (fuel : Nat)
    (s : ChannelServer) (p : CommandPacket) (s' : ChannelServer)
    (hm : s.serviceSynchronizationMethod = ServiceSynchronizationMethod.activePolling ∨
      s.serviceSynchronizationMethod = ServiceSynchronizationMethod.semaphores)
    (h : wait env yieldThread fuel s = Outcome.returned p s') :
    ((p = ⟨0, 0, 0⟩ ∧ s'.shared.stopped = true) ∨
        ∃ s1 : ChannelServer, s1.shared.ring.peekEmpty = false ∧ p = s1.takeRequest.1 ∧
          s' = s1.takeRequest.2 ∧ s1.shmem = s.shmem ∧ s1.heapEnd = s.heapEnd) ∧
      ((∀ n sh, sh.stopped = false → (env.act n sh).stopped = false) →
        s.shared.stopped = false →
        s'.shared.stopped = false ∧
          ∃ s1 : ChannelServer, s1.shared.ring.peekEmpty = false ∧ p = s1.takeRequest.1 ∧
            s' = s1.takeRequest.2 ∧ s1.shmem = s.shmem ∧ s1.heapEnd = s.heapEnd) := by
  have key : ((∀ n sh, sh.stopped = false → (env.act n sh).stopped = false) →
        s.shared.stopped = false → s'.shared.stopped = false) ∧
      ((p = ⟨0, 0, 0⟩ ∧ s'.shared.stopped = true) ∨
        ∃ s1 : ChannelServer, s1.shared.ring.peekEmpty = false ∧ p = s1.takeRequest.1 ∧
          s' = s1.takeRequest.2 ∧ s1.shmem = s.shmem ∧ s1.heapEnd = s.heapEnd) := by
    unfold wait at h
    rcases hm with hm | hm
    · rw [hm] at h
      exact activeWait_returned env yieldThread fuel s p s' h
    · rw [hm] at h
      exact semaphoreWait_returned env fuel s p s' h
  refine ⟨key.2, fun hq h0 => ⟨key.1 hq h0, ?_⟩⟩
  rcases key.2 with ⟨_, hst⟩ | hring
  · rw [key.1 hq h0] at hst
    simp at hst
  · exact hring

/-- Witness of `wait_empty_only_if_stopped`: `busyServer` polls and takes the command that
waits in its ring. -/
theorem wait_empty_only_if_stopped_witness :
    (busyServer.serviceSynchronizationMethod = ServiceSynchronizationMethod.activePolling ∨
        busyServer.serviceSynchronizationMethod = ServiceSynchronizationMethod.semaphores) ∧
      wait ChannelClient.idle false 1 busyServer =
        Outcome.returned ⟨147520, 4032, 135168⟩ busyServerAfterWait ∧
      (((⟨147520, 4032, 135168⟩ : CommandPacket) = ⟨0, 0, 0⟩ ∧
            busyServerAfterWait.shared.stopped = true) ∨
          ∃ s1 : ChannelServer, s1.shared.ring.peekEmpty = false ∧
            (⟨147520, 4032, 135168⟩ : CommandPacket) = s1.takeRequest.1 ∧
            busyServerAfterWait = s1.takeRequest.2 ∧ s1.shmem = busyServer.shmem ∧
            s1.heapEnd = busyServer.heapEnd) ∧
      ((∀ n sh, sh.stopped = false → (ChannelClient.idle.act n sh).stopped = false) →
        busyServer.shared.stopped = false →
        busyServerAfterWait.shared.stopped = false ∧
          ∃ s1 : ChannelServer, s1.shared.ring.peekEmpty = false ∧
            (⟨147520, 4032, 135168⟩ : CommandPacket) = s1.takeRequest.1 ∧
            busyServerAfterWait = s1.takeRequest.2 ∧ s1.shmem = busyServer.shmem ∧
            s1.heapEnd = busyServer.heapEnd) :=
  ⟨Or.inl rfl, rfl,
    wait_empty_only_if_stopped ChannelClient.idle false 1 busyServer ⟨147520, 4032, 135168⟩
      busyServerAfterWait (Or.inl rfl) rfl⟩

end Cal.Rpc.ChannelServer

namespace Cal.Rpc.ChannelServer

theorem blockOnServiceSemaphore_forever (env : Surroundings)
    (hidle : ∀ n sh, env.act n sh = sh) :
    ∀ (fuel : Nat) (s : ChannelServer), s.shared.semServer = 0 →
      blockOnServiceSemaphore env fuel s = Outcome.waiting := by
  intro fuel
  induction fuel with
  | zero => intro s _; rfl
  | succ fuel ih =>
    intro s h0
    unfold blockOnServiceSemaphore
    rw [if_pos h0]
    apply ih
    simp [yield, hidle, h0]

theorem semaphoreWait_forever (env : Surroundings) (hidle : ∀ n sh, env.act n sh = sh)
    (fuel : Nat) (s : ChannelServer) (h0 : s.shared.semServer = 0)
    (he : s.shared.ring.peekEmpty = true) :
    semaphoreWait env fuel s = Outcome.waiting := by
  cases fuel with
  | zero => rfl
  | succ fuel =>
    unfold semaphoreWait
    rw [if_pos he]
    unfold waitOnServiceSemaphore
    rw [blockOnServiceSemaphore_forever env hidle fuel
      { s with log := s.log ++ [ServerEvent.waitOnService] } h0]

theorem blockOnServiceSemaphore_completes (env : Surroundings) (T : Nat)
    (hsig : ∀ sh, 0 < (env.act T sh).semServer) :
    ∀ (fuel : Nat) (s : ChannelServer), T + 1 - s.now < fuel →
      (T < s.now → 0 < s.shared.semServer) →
      ∃ s1, blockOnServiceSemaphore env fuel s = Outcome.returned true s1 := by
  intro fuel
  induction fuel with
  | zero => intro s h; omega
  | succ fuel ih =>
    intro s hf hinv
    unfold blockOnServiceSemaphore
    split_ifs with h0
    · have hle : s.now ≤ T := by
        by_contra hc
        have := hinv (by omega)
        omega
      apply ih (s.yield env)
      · simp only [yield]
        omega
      · intro hlt
        simp only [yield] at hlt ⊢
        have hT : s.now = T := by omega
        rw [hT]
        exact hsig _
    · exact ⟨_, rfl⟩

theorem semaphoreWait_stopped (env : Surroundings) (fuel : Nat) (s s1 : ChannelServer)
    (hstopped : s.shared.stopped = true) (hempty : s.shared.ring.peekEmpty = true)
    (hb : blockOnServiceSemaphore env fuel
      { s with log := s.log ++ [ServerEvent.waitOnService] } = Outcome.returned true s1) :
    semaphoreWait env (fuel + 1) s = Outcome.returned ⟨0, 0, 0⟩ s1 ∧
      s1.log = s.log ++ [ServerEvent.waitOnService] := by
  obtain ⟨a1, _, _, _, a5, _⟩ := blockOnServiceSemaphore_returned env fuel _ true s1 hb
  unfold semaphoreWait
  rw [if_pos hempty]
  unfold waitOnServiceSemaphore
  rw [hb]
  simp only
  rw [if_pos (a5 hstopped)]
  exact ⟨rfl, a1⟩

/-- C23, the claim refuted: on a server in semaphore mode with an empty ring, `stop()` is
called and its `sem_post` fails; `stopped` is set and the ring is empty, yet `wait` never
returns as long as nobody posts the service semaphore.  The same holds when the post of
`stop()` succeeds and `wait` is called again after it has returned the empty packet. -/
theorem wait_blocked_counterexample :
    (semaphoreServer.stop deafPost).shared.stopped = true ∧
      (semaphoreServer.stop deafPost).shared.ring.peekEmpty = true ∧
      (semaphoreServer.stop deafPost).serviceSynchronizationMethod =
        ServiceSynchronizationMethod.semaphores ∧
      (∀ fuel, wait deafPost false fuel (semaphoreServer.stop deafPost) = Outcome.waiting) ∧
      (wait ChannelClient.idle false 2 (semaphoreServer.stop ChannelClient.idle)).value? =
        some ⟨0, 0, 0⟩ ∧
      ∀ fuel, wait ChannelClient.idle false fuel
        ((wait ChannelClient.idle false 2
          (semaphoreServer.stop ChannelClient.idle)).after?.getD semaphoreServer) =
        Outcome.waiting :=
  ⟨rfl, rfl, rfl,
    fun fuel => semaphoreWait_forever deafPost (fun _ _ => rfl) fuel _ rfl rfl,
    by decide,
    fun fuel => semaphoreWait_forever ChannelClient.idle (fun _ _ => rfl) fuel _ rfl rfl⟩

end Cal.Rpc.ChannelServer

namespace Cal.Rpc.ChannelServer

theorem wait_of_activePolling (env : Surroundings) (yieldThread : Bool) (fuel : Nat)
    (s : ChannelServer)
    (hm : s.serviceSynchronizationMethod = ServiceSynchronizationMethod.activePolling) :
    wait env yieldThread fuel s = activeWait env yieldThread fuel s := by
  unfold wait
  rw [hm]

theorem wait_of_semaphores (env : Surroundings) (yieldThread : Bool) (fuel : Nat)
    (s : ChannelServer)
    (hm : s.serviceSynchronizationMethod = ServiceSynchronizationMethod.semaphores) :
    wait env yieldThread fuel s = semaphoreWait env fuel s := by
  unfold wait
  rw [hm]

/-- C23 as amended. Shutdown responsiveness: once `stop()` has been called and the primary
ring is empty, `wait()` in active-polling mode returns the empty packet after one iteration
of its loop; in semaphore mode it returns the empty packet after exactly one
service-semaphore wait, which ends at once when a post is pending on the service semaphore
(as after a `stop()` whose `sem_post` succeeded) and otherwise ends when the semaphore is
next posted.  `stop()` sets `stopped`, leaves the ring alone, and posts the service
semaphore exactly once when the service method is semaphores and never when it is active
polling. -/
theorem wait_after_stop (env : Surroundings) (yieldThread : Bool) (s : ChannelServer)
    (hstopped : s.shared.stopped = true) (hempty : s.shared.ring.peekEmpty = true) :
    (s.serviceSynchronizationMethod = ServiceSynchronizationMethod.activePolling →
        ∀ fuel, 1 ≤ fuel →
          ∃ s' : ChannelServer, wait env yieldThread fuel s = Outcome.returned ⟨0, 0, 0⟩ s' ∧
            s'.log = s.log ++ [ServerEvent.polled yieldThread]) ∧
      (s.serviceSynchronizationMethod = ServiceSynchronizationMethod.semaphores →
        0 < s.shared.semServer → ∀ fuel, 2 ≤ fuel →
          ∃ s' : ChannelServer, wait env yieldThread fuel s = Outcome.returned ⟨0, 0, 0⟩ s' ∧
            s'.log = s.log ++ [ServerEvent.waitOnService] ∧ s'.now = s.now) ∧
      (s.serviceSynchronizationMethod = ServiceSynchronizationMethod.semaphores →
        ∀ T, s.now ≤ T → (∀ sh, 0 < (env.act T sh).semServer) →
          ∀ fuel, T + 2 - s.now < fuel →
            ∃ s' : ChannelServer, wait env yieldThread fuel s = Outcome.returned ⟨0, 0, 0⟩ s' ∧
              s'.log = s.log ++ [ServerEvent.waitOnService]) ∧
      ∀ t : ChannelServer,
        (t.stop env).shared.stopped = true ∧ (t.stop env).shared.ring = t.shared.ring ∧
          (t.serviceSynchronizationMethod = ServiceSynchronizationMethod.semaphores →
            (t.stop env).log = t.log ++ [ServerEvent.signalService (env.postSucceeds t.now)] ∧
              (env.postSucceeds t.now = true →
                (t.stop env).shared.semServer = t.shared.semServer + 1)) ∧
          (t.serviceSynchronizationMethod = ServiceSynchronizationMethod.activePolling →
            (t.stop env).log = t.log ∧ (t.stop env).shared.semServer = t.shared.semServer) := by
  refine ⟨fun hm fuel hf => ?_, fun hm hsem fuel hf => ?_, fun hm T hT hsig fuel hf => ?_,
    fun t => ?_⟩
  · obtain ⟨k, rfl⟩ : ∃ k, fuel = k + 1 := ⟨fuel - 1, by omega⟩
    refine ⟨{ s with log := s.log ++ [ServerEvent.polled yieldThread] }.yield env, ?_, rfl⟩
    rw [wait_of_activePolling env yieldThread _ s hm]
    unfold activeWait
    rw [if_pos hempty,
      if_pos (yield_stopped_true env
        { s with log := s.log ++ [ServerEvent.polled yieldThread] } hstopped)]
  · obtain ⟨k, rfl⟩ : ∃ k, fuel = k + 2 := ⟨fuel - 2, by omega⟩
    have hb : blockOnServiceSemaphore env (k + 1)
        { s with log := s.log ++ [ServerEvent.waitOnService] } =
        Outcome.returned true
          { s with
            shared := { s.shared with semServer := s.shared.semServer - 1 }
            log := s.log ++ [ServerEvent.waitOnService] } := by
      unfold blockOnServiceSemaphore
      rw [if_neg (by simp only; omega)]
    obtain ⟨a, b⟩ := semaphoreWait_stopped env (k + 1) s _ hstopped hempty hb
    refine ⟨_, ?_, b, rfl⟩
    rw [wait_of_semaphores env yieldThread _ s hm]
    exact a
  · obtain ⟨k, rfl⟩ : ∃ k, fuel = k + 1 := ⟨fuel - 1, by omega⟩
    obtain ⟨s1, hb⟩ := blockOnServiceSemaphore_completes env T hsig k
      { s with log := s.log ++ [ServerEvent.waitOnService] } (by simp only; omega)
      (fun hlt => by simp only at hlt; omega)
    obtain ⟨a, b⟩ := semaphoreWait_stopped env k s s1 hstopped hempty hb
    refine ⟨s1, ?_, b⟩
    rw [wait_of_semaphores env yieldThread _ s hm]
    exact a
  · unfold stop
    refine ⟨?_, ?_, fun hm => ?_, fun hm => ?_⟩
    · split_ifs
      · simp only [signalServiceSemaphore]
        split_ifs <;> rfl
      · rfl
    · split_ifs
      · simp only [signalServiceSemaphore]
        split_ifs <;> rfl
      · rfl
    · rw [if_pos hm]
      refine ⟨rfl, fun hp => ?_⟩
      simp only [signalServiceSemaphore]
      rw [if_pos hp]
    · rw [if_neg (by rw [hm]; decide)]
      exact ⟨rfl, rfl⟩

/-- Witness of `wait_after_stop`: `semaphoreServer` after a `stop()` whose post has
succeeded. -/
theorem wait_after_stop_witness :
    (semaphoreServer.stop ChannelClient.idle).shared.stopped = true ∧
      (semaphoreServer.stop ChannelClient.idle).shared.ring.peekEmpty = true ∧
      (((semaphoreServer.stop ChannelClient.idle).serviceSynchronizationMethod = ServiceSynchronizationMethod.activePolling →
        ∀ fuel, 1 ≤ fuel →
          ∃ s' : ChannelServer, wait ChannelClient.idle false fuel (semaphoreServer.stop ChannelClient.idle) = Outcome.returned ⟨0, 0, 0⟩ s' ∧
            s'.log = (semaphoreServer.stop ChannelClient.idle).log ++ [ServerEvent.polled false]) ∧
      ((semaphoreServer.stop ChannelClient.idle).serviceSynchronizationMethod = ServiceSynchronizationMethod.semaphores →
        0 < (semaphoreServer.stop ChannelClient.idle).shared.semServer → ∀ fuel, 2 ≤ fuel →
          ∃ s' : ChannelServer, wait ChannelClient.idle false fuel (semaphoreServer.stop ChannelClient.idle) = Outcome.returned ⟨0, 0, 0⟩ s' ∧
            s'.log = (semaphoreServer.stop ChannelClient.idle).log ++ [ServerEvent.waitOnService] ∧ s'.now = (semaphoreServer.stop ChannelClient.idle).now) ∧
      ((semaphoreServer.stop ChannelClient.idle).serviceSynchronizationMethod = ServiceSynchronizationMethod.semaphores →
        ∀ T, (semaphoreServer.stop ChannelClient.idle).now ≤ T → (∀ sh, 0 < (ChannelClient.idle.act T sh).semServer) →
          ∀ fuel, T + 2 - (semaphoreServer.stop ChannelClient.idle).now < fuel →
            ∃ s' : ChannelServer, wait ChannelClient.idle false fuel (semaphoreServer.stop ChannelClient.idle) = Outcome.returned ⟨0, 0, 0⟩ s' ∧
              s'.log = (semaphoreServer.stop ChannelClient.idle).log ++ [ServerEvent.waitOnService]) ∧
      ∀ t : ChannelServer,
        (t.stop ChannelClient.idle).shared.stopped = true ∧ (t.stop ChannelClient.idle).shared.ring = t.shared.ring ∧
          (t.serviceSynchronizationMethod = ServiceSynchronizationMethod.semaphores →
            (t.stop ChannelClient.idle).log = t.log ++ [ServerEvent.signalService (ChannelClient.idle.postSucceeds t.now)] ∧
              (ChannelClient.idle.postSucceeds t.now = true →
                (t.stop ChannelClient.idle).shared.semServer = t.shared.semServer + 1)) ∧
          (t.serviceSynchronizationMethod = ServiceSynchronizationMethod.activePolling →
            (t.stop ChannelClient.idle).log = t.log ∧ (t.stop ChannelClient.idle).shared.semServer = t.shared.semServer)) :=
  ⟨rfl, rfl, wait_after_stop ChannelClient.idle false (semaphoreServer.stop ChannelClient.idle)
    rfl rfl⟩

end Cal.Rpc.ChannelServer

namespace Cal.Service.LevelZero.OngoingHostptrCopiesManager

theorem appended_cons (bucket : Option (List OngoingOperation)) (operation : OngoingOperation)
    (rest : List OngoingOperation) :
    appended (some (bucket.getD [] ++ [operation])) rest = appended bucket (operation :: rest) := by
  unfold appended
  by_cases h : rest = []
  · simp [h]
  · simp [h]

theorem foldl_acquireStep : ∀ (ops : List OngoingOperation)
    (st : (Nat → Option (List OngoingOperation)) × List EventsManagerCall ×
      List OngoingHostptrCopy),
    (ops.foldl acquireStep st).2.1 =
        st.2.1 ++ (ops.filter (fun operation => operation.isFinished)).map disposition ∧
      (ops.foldl acquireStep st).2.2 =
        st.2.2 ++ (ops.filter (fun operation => operation.isFinished)).map
          (fun operation => ⟨operation.destination, operation.destinationSize⟩) ∧
      ∀ commandList, (ops.foldl acquireStep st).1 commandList =
        appended (st.1 commandList)
          (ops.filter (fun operation => operation.isFinished && operation.canBeResubmitted &&
            decide (operation.commandList = commandList))) := by
  intro ops
  induction ops with
  | nil => intro st; simp [appended]
  | cons op rest ih =>
    intro st
    obtain ⟨a, b, c⟩ := ih (acquireStep st op)
    simp only [List.foldl_cons]
    rw [a, b]
    cases hf : op.isFinished with
    | false =>
      have hstep : acquireStep st op = st := by simp [acquireStep, hf]
      refine ⟨by simp [hstep, hf], by simp [hstep, hf], fun commandList => ?_⟩
      rw [c, hstep]
      simp [hf]
    | true =>
      cases hr : op.canBeResubmitted with
      | false =>
        have hstep : acquireStep st op =
            (st.1, st.2.1 ++ [EventsManagerCall.returnObtainedEvent op.associatedEvent],
              st.2.2 ++ [⟨op.destination, op.destinationSize⟩]) := by
          simp [acquireStep, hf, hr]
        refine ⟨by simp [hstep, hf, disposition, hr], by simp [hstep, hf],
          fun commandList => ?_⟩
        rw [c, hstep]
        simp [hf, hr]
      | true =>
        have hstep : acquireStep st op =
            (Function.update st.1 op.commandList
                (some ((st.1 op.commandList).getD [] ++ [op])),
              st.2.1 ++ [EventsManagerCall.resetObtainedEvent op.associatedEvent],
              st.2.2 ++ [⟨op.destination, op.destinationSize⟩]) := by
          simp [acquireStep, hf, hr]
        refine ⟨by simp [hstep, hf, disposition, hr], by simp [hstep, hf],
          fun commandList => ?_⟩
        rw [c, hstep]
        by_cases hc : op.commandList = commandList
        · subst hc
          simp only [Function.update_same]
          rw [appended_cons]
          simp [hf, hr]
        · simp only [Function.update_noteq (Ne.symm hc)]
          simp [hf, hr, hc]

theorem countP_finished_zero (ops : List OngoingOperation)
    (h : ops.countP (fun operation => operation.isFinished) = 0) :
    ops.filter (fun operation => operation.isFinished) = [] ∧
      ops.filter (fun operation => !operation.isFinished) = ops := by
  have h1 : ∀ op ∈ ops, ¬ op.isFinished = true := by
    simpa [List.countP_eq_zero] using h
  constructor
  · rw [List.filter_eq_nil_iff]
    exact h1
  · rw [List.filter_eq_self]
    intro op hop
    simpa using h1 op hop

theorem acquireFinishedCopies_eq (m : OngoingHostptrCopiesManager) :
    m.acquireFinishedCopies.1 =
        (m.ongoingOperations.filter (fun operation => operation.isFinished)).map
          (fun operation => ⟨operation.destination, operation.destinationSize⟩) ∧
      m.acquireFinishedCopies.2.1.ongoingOperations =
        m.ongoingOperations.filter (fun operation => !operation.isFinished) ∧
      m.acquireFinishedCopies.2.2 =
        (m.ongoingOperations.filter (fun operation => operation.isFinished)).map
          disposition ∧
      ∀ commandList, m.acquireFinishedCopies.2.1.operationsForResubmit commandList =
        appended (m.operationsForResubmit commandList)
          (m.ongoingOperations.filter (fun operation =>
            operation.isFinished && operation.canBeResubmitted &&
              decide (operation.commandList = commandList))) := by
  unfold acquireFinishedCopies
  simp only
  split_ifs with h0
  · obtain ⟨e1, e2⟩ := countP_finished_zero _ h0
    refine ⟨by rw [e1]; rfl, e2.symm, by rw [e1]; rfl, fun commandList => ?_⟩
    have e3 : m.ongoingOperations.filter (fun operation =>
        operation.isFinished && operation.canBeResubmitted &&
          decide (operation.commandList = commandList)) = [] := by
      rw [List.filter_eq_nil_iff]
      intro op hop
      have := (List.filter_eq_nil_iff.mp e1) op hop
      simp only [Bool.not_eq_true] at this
      simp [this]
    rw [e3]
    rfl
  · obtain ⟨a, b, c⟩ := foldl_acquireStep m.ongoingOperations (m.operationsForResubmit, [], [])
    exact ⟨by rw [b]; rfl, rfl, by rw [a]; rfl, c⟩

/-- C25. For every state of the manager, `acquireFinishedCopies` returns exactly one
`{destination, destinationSize}` entry per operation whose finished flag is set, in the
order those operations appear in the ongoing list; afterwards the ongoing list consists of
exactly the previously unfinished operations in their original relative order, so that an
immediate second call returns an empty result, makes no call on the events manager and
leaves the ongoing list as it is. -/
theorem acquireFinishedCopies_result (m : OngoingHostptrCopiesManager) :
    m.acquireFinishedCopies.1 =
        (m.ongoingOperations.filter (fun operation => operation.isFinished)).map
          (fun operation => ⟨operation.destination, operation.destinationSize⟩) ∧
      m.acquireFinishedCopies.2.1.ongoingOperations =
        m.ongoingOperations.filter (fun operation => !operation.isFinished) ∧
      m.acquireFinishedCopies.2.1.acquireFinishedCopies.1 = [] ∧
      m.acquireFinishedCopies.2.1.acquireFinishedCopies.2.2 = [] ∧
      m.acquireFinishedCopies.2.1.acquireFinishedCopies.2.1.ongoingOperations =
        m.acquireFinishedCopies.2.1.ongoingOperations := by
  obtain ⟨a, b, _, _⟩ := acquireFinishedCopies_eq m
  have h0 : m.acquireFinishedCopies.2.1.ongoingOperations.countP
      (fun operation => operation.isFinished) = 0 := by
    rw [b, List.countP_eq_zero]
    intro op hop
    have := (List.mem_filter.mp hop).2
    simpa using this
  obtain ⟨e1, e2⟩ := countP_finished_zero _ h0
  obtain ⟨a2, b2, c2, _⟩ := acquireFinishedCopies_eq m.acquireFinishedCopies.2.1
  refine ⟨a, b, ?_, ?_, ?_⟩
  · rw [a2, e1]
    rfl
  · rw [c2, e1]
    rfl
  · rw [b2, e2]

/-- C26. Event disposition in `acquireFinishedCopies`: the calls made on the events manager
are, in the order of the ongoing list, one per finished operation and none for any other
operation: `resetObtainedEvent` of its event if the operation can be resubmitted,
`returnObtainedEvent` of its event otherwise; and the vector of each command list in
`operationsForResubmit` receives, appended in order, exactly the finished operations of
that command list that can be resubmitted, and is left as it was when there is none. -/
theorem acquireFinishedCopies_events (m : OngoingHostptrCopiesManager) :
    m.acquireFinishedCopies.2.2 =
        (m.ongoingOperations.filter (fun operation => operation.isFinished)).map
          (fun operation =>
            if operation.canBeResubmitted then
              EventsManagerCall.resetObtainedEvent operation.associatedEvent
            else EventsManagerCall.returnObtainedEvent operation.associatedEvent) ∧
      ∀ commandList,
        (m.ongoingOperations.filter (fun operation =>
            operation.isFinished && operation.canBeResubmitted &&
              decide (operation.commandList = commandList)) = [] →
          m.acquireFinishedCopies.2.1.operationsForResubmit commandList =
            m.operationsForResubmit commandList) ∧
        (m.ongoingOperations.filter (fun operation =>
            operation.isFinished && operation.canBeResubmitted &&
              decide (operation.commandList = commandList)) ≠ [] →
          m.acquireFinishedCopies.2.1.operationsForResubmit commandList =
            some ((m.operationsForResubmit commandList).getD [] ++
              m.ongoingOperations.filter (fun operation =>
                operation.isFinished && operation.canBeResubmitted &&
                  decide (operation.commandList = commandList)))) := by
  obtain ⟨_, _, c, d⟩ := acquireFinishedCopies_eq m
  refine ⟨c, fun commandList => ⟨fun h => ?_, fun h => ?_⟩⟩
  · rw [d, appended, if_pos h]
  · rw [d, appended, if_neg h]

end Cal.Service.LevelZero.OngoingHostptrCopiesManager

namespace Cal.Service.LevelZero.OngoingHostptrCopiesManager

theorem filterMap_returned (ops : List OngoingOperation) (commandList : Nat) :
    ops.filterMap (fun operation =>
        if operation.commandList = commandList then
          some (EventsManagerCall.returnObtainedEvent operation.associatedEvent)
        else none) =
      (ops.filter (fun operation => decide (operation.commandList = commandList))).map
        (fun operation => EventsManagerCall.returnObtainedEvent operation.associatedEvent) := by
  induction ops with
  | nil => rfl
  | cons op rest ih =>
    by_cases h : op.commandList = commandList
    · simp [List.filterMap_cons, List.filter_cons, h, ih]
    · simp [List.filterMap_cons, List.filter_cons, h, ih]

theorem filter_if_any (ops : List OngoingOperation) (commandList : Nat) :
    (if ops.any (fun operation => decide (operation.commandList = commandList)) = true then
        ops.filter (fun operation => !decide (operation.commandList = commandList))
      else ops) =
      ops.filter (fun operation => !decide (operation.commandList = commandList)) := by
  split_ifs with h
  · rfl
  · symm
    rw [List.filter_eq_self]
    intro op hop
    simp only [List.any_eq_true, decide_eq_true_eq, not_exists, not_and] at h
    simpa using h op hop

theorem sampleManager_wellKeyed : WellKeyed sampleManager := by
  intro commandList staged h op hop
  unfold sampleManager at h
  by_cases hc : commandList = 7
  · subst hc
    simp only [Function.update_same, Option.some.injEq] at h
    subst h
    simp only [List.mem_singleton] at hop
    rw [hop]
  · simp [Function.update_noteq hc] at h

theorem reachable_wellKeyed (m : OngoingHostptrCopiesManager) (h : Reachable m) :
    WellKeyed m := by
  induction h with
  | empty => intro commandList staged h; simp at h
  | registerCopyOperation m _ _ _ _ _ _ ih => exact ih
  | updateAwaitedEvents m _ _ ih => exact ih
  | resubmitOperationsOfCommandList m cl _ ih =>
    unfold resubmitOperationsOfCommandList
    split
    · exact ih
    · intro commandList staged h op hop
      by_cases hc : commandList = cl
      · subst hc
        simp only [Function.update_same, Option.some.injEq] at h
        subst h
        simp at hop
      · simp only [Function.update_noteq hc] at h
        exact ih commandList staged h op hop
  | freeOperationsOfCommandList m cl _ ih =>
    unfold freeOperationsOfCommandList
    simp only
    split
    · intro commandList staged h op hop
      by_cases hc : commandList = cl
      · subst hc
        simp at h
      · simp only [Function.update_noteq hc] at h
        exact ih commandList staged h op hop
    · exact ih
  | acquireFinishedCopies m _ ih =>
    intro commandList staged h op hop
    rw [(acquireFinishedCopies_eq m).2.2.2 commandList] at h
    unfold appended at h
    split_ifs at h with he
    · exact ih commandList staged h op hop
    · injection h with h
      subst h
      rcases List.mem_append.mp hop with hop | hop
      · cases hb : m.operationsForResubmit commandList with
        | none => simp [hb] at hop
        | some bucket =>
          rw [hb] at hop
          exact ih commandList bucket hb op hop
      · have := (List.mem_filter.mp hop).2
        simp only [Bool.and_eq_true, decide_eq_true_eq] at this
        exact this.2

/-- C27. For every manager state in which each staged operation sits in the vector of its
own command list, as in every state the manager reaches, and every command list `cl`,
`freeOperationsOfCommandList(cl)` returns to the pool, exactly once each, the event of
every operation tied to `cl` in the ongoing list (finished or not), in list order, and then
of every operation staged for resubmission under `cl`; afterwards no operation tied to `cl`
remains in either place, and the operations of every other command list remain unchanged
and in their original order. -/
theorem freeOperationsOfCommandList_spec (m : OngoingHostptrCopiesManager)
    (commandList : Nat) (hkeyed : WellKeyed m) :
    (m.freeOperationsOfCommandList commandList).2 =
        (m.ongoingOperations.filter
            (fun operation => decide (operation.commandList = commandList))).map
          (fun operation => EventsManagerCall.returnObtainedEvent operation.associatedEvent) ++
        ((m.operationsForResubmit commandList).getD []).map
          (fun operation => EventsManagerCall.returnObtainedEvent operation.associatedEvent) ∧
      (m.freeOperationsOfCommandList commandList).1.ongoingOperations =
        m.ongoingOperations.filter
          (fun operation => !decide (operation.commandList = commandList)) ∧
      (∀ operation ∈ (m.freeOperationsOfCommandList commandList).1.ongoingOperations,
        operation.commandList ≠ commandList) ∧
      (m.freeOperationsOfCommandList commandList).1.operationsForResubmit commandList = none ∧
      (∀ other, other ≠ commandList →
        (m.freeOperationsOfCommandList commandList).1.operationsForResubmit other =
          m.operationsForResubmit other) ∧
      ∀ other staged,
        (m.freeOperationsOfCommandList commandList).1.operationsForResubmit other = some staged →
        ∀ operation ∈ staged, operation.commandList ≠ commandList := by
  have hcalls := filterMap_returned m.ongoingOperations commandList
  have hong := filter_if_any m.ongoingOperations commandList
  have hnone : ∀ operation ∈ m.ongoingOperations.filter
      (fun operation => !decide (operation.commandList = commandList)),
      operation.commandList ≠ commandList := by
    intro op hop
    have := (List.mem_filter.mp hop).2
    simpa using this
  unfold freeOperationsOfCommandList
  simp only
  rw [hcalls, hong]
  cases hb : m.operationsForResubmit commandList with
  | none =>
    refine ⟨by simp, rfl, hnone, hb, fun _ _ => rfl, fun other staged h op hop => ?_⟩
    simp only at h
    have hk := hkeyed other staged h op hop
    intro e
    rw [hk] at e
    rw [e, hb] at h
    simp at h
  | some bucket =>
    refine ⟨rfl, rfl, hnone, by simp, fun other ho => by simp [Function.update_noteq ho],
      fun other staged h op hop => ?_⟩
    simp only at h
    by_cases ho : other = commandList
    · subst ho
      simp at h
    · rw [Function.update_noteq ho] at h
      rw [hkeyed other staged h op hop]
      exact ho

/-- Witness of `freeOperationsOfCommandList_spec`: the command list 7 of `sampleManager`. -/
theorem freeOperationsOfCommandList_spec_witness :
    WellKeyed sampleManager ∧
      ((sampleManager.freeOperationsOfCommandList 7).2 =
        (sampleManager.ongoingOperations.filter
            (fun operation => decide (operation.commandList = 7))).map
          (fun operation => EventsManagerCall.returnObtainedEvent operation.associatedEvent) ++
        ((sampleManager.operationsForResubmit 7).getD []).map
          (fun operation => EventsManagerCall.returnObtainedEvent operation.associatedEvent) ∧
      (sampleManager.freeOperationsOfCommandList 7).1.ongoingOperations =
        sampleManager.ongoingOperations.filter
          (fun operation => !decide (operation.commandList = 7)) ∧
      (∀ operation ∈ (sampleManager.freeOperationsOfCommandList 7).1.ongoingOperations,
        operation.commandList ≠ 7) ∧
      (sampleManager.freeOperationsOfCommandList 7).1.operationsForResubmit 7 = none ∧
      (∀ other, other ≠ 7 →
        (sampleManager.freeOperationsOfCommandList 7).1.operationsForResubmit other =
          sampleManager.operationsForResubmit other) ∧
      ∀ other staged,
        (sampleManager.freeOperationsOfCommandList 7).1.operationsForResubmit other = some staged →
        ∀ operation ∈ staged, operation.commandList ≠ 7) :=
  ⟨sampleManager_wellKeyed,
    freeOperationsOfCommandList_spec sampleManager 7 sampleManager_wellKeyed⟩

end Cal.Service.LevelZero.OngoingHostptrCopiesManager

namespace Cal.Rpc.TypedRing

variable {α : Type}

/-- C40. Ring index bounds: for every capacity of at least 1 (a `size_t`), in every ring
state reachable from `reset()` by any sequence of `push` and `pop` calls, head and tail are
slot indices, `0 ≤ head < capacity` and `0 ≤ tail < capacity`: the slot written by `push`,
`data[tail]`, and the slot returned by `peekHead`, `data[head]`, are inside the data
array. -/
theorem reachable_index_bounds (r : TypedRing α) (hr : Reachable r) (hcap : 1 ≤ r.capacity)
    (h64 : r.capacity < 18446744073709551616) :
    0 ≤ r.peekHeadOffset ∧ r.peekHeadOffset < (r.capacity : Int) ∧
      0 ≤ r.peekTailOffset ∧ r.peekTailOffset < (r.capacity : Int) := by
  unfold peekHeadOffset peekTailOffset
  rcases reachable_inv r hr h64 with h | h
  · obtain ⟨h0, h1, t0, t1, _⟩ := h
    exact ⟨h0, h1, t0, t1⟩
  · obtain ⟨h0, t0, _⟩ := h
    rw [h0, t0]
    omega

/-- Witness of `reachable_index_bounds`: the four-slot ring after three pushes, three pops
and one more push, with head = 3 and tail = 0. -/
theorem reachable_index_bounds_witness :
    Reachable ring4Wrapped ∧ 1 ≤ ring4Wrapped.capacity ∧
      ring4Wrapped.capacity < 18446744073709551616 ∧
      (0 ≤ ring4Wrapped.peekHeadOffset ∧
        ring4Wrapped.peekHeadOffset < (ring4Wrapped.capacity : Int) ∧
        0 ≤ ring4Wrapped.peekTailOffset ∧
        ring4Wrapped.peekTailOffset < (ring4Wrapped.capacity : Int)) :=
  ⟨Reachable.push _ 4 (Reachable.pop _ (Reachable.pop _ (Reachable.pop _
      (Reachable.push _ 3 (Reachable.push _ 2 (Reachable.push _ 1
        (Reachable.reset ring4))))))),
    by decide, by decide,
    reachable_index_bounds ring4Wrapped
      (Reachable.push _ 4 (Reachable.pop _ (Reachable.pop _ (Reachable.pop _
        (Reachable.push _ 3 (Reachable.push _ 2 (Reachable.push _ 1
          (Reachable.reset ring4))))))))
      (by decide) (by decide)⟩

end Cal.Rpc.TypedRing

namespace Cal.Icd.LevelZero.IcdL0CommandList

/-- C38. `rangesOverlap(a, aSize, b, bSize)` is exact and symmetric: for addresses and
non-zero sizes without address wraparound it returns true if and only if the half-open
ranges `[a, a + aSize)` and `[b, b + bSize)` share at least one byte; and for all arguments,
whatever their sizes, `rangesOverlap(a, aSize, b, bSize) = rangesOverlap(b, bSize, a,
aSize)`. -/
theorem rangesOverlap_exact (a aSize b bSize : Nat) (ha0 : 1 ≤ aSize) (hb0 : 1 ≤ bSize)
    (ha : a + aSize < 18446744073709551616) (hb : b + bSize < 18446744073709551616) :
    (rangesOverlap a aSize b bSize = true ↔
        ∃ x, (a ≤ x ∧ x < a + aSize) ∧ (b ≤ x ∧ x < b + bSize)) ∧
      ∀ p pSize q qSize : Nat,
        rangesOverlap p pSize q qSize = rangesOverlap q qSize p pSize := by
  refine ⟨?_, fun p pSize q qSize => rangesOverlap_comm p pSize q qSize⟩
  rw [rangesOverlap_iff a aSize b bSize ha hb]
  constructor
  · rintro (⟨h1, h2⟩ | ⟨h1, h2⟩)
    · exact ⟨b, ⟨h1, h2⟩, ⟨le_refl _, by omega⟩⟩
    · exact ⟨a, ⟨le_refl _, by omega⟩, ⟨h1, h2⟩⟩
  · rintro ⟨x, ⟨h1, h2⟩, ⟨h3, h4⟩⟩
    omega

/-- Witness of `rangesOverlap_exact`: the ranges `[20, 30)` and `[25, 35)`. -/
theorem rangesOverlap_exact_witness :
    1 ≤ 10 ∧ 1 ≤ 10 ∧ 20 + 10 < 18446744073709551616 ∧ 25 + 10 < 18446744073709551616 ∧
      ((rangesOverlap 20 10 25 10 = true ↔
          ∃ x, (20 ≤ x ∧ x < 20 + 10) ∧ (25 ≤ x ∧ x < 25 + 10)) ∧
        ∀ p pSize q qSize : Nat,
          rangesOverlap p pSize q qSize = rangesOverlap q qSize p pSize) :=
  ⟨by decide, by decide, by decide, by decide,
    rangesOverlap_exact 20 10 25 10 (by decide) (by decide) (by decide) (by decide)⟩

theorem merged_covers (ptr size : Nat) (group : List ChunkEntry)
    (hnew : ptr + size < 18446744073709551616)
    (hgroup : ∀ a ∈ group, a.address + a.size < 18446744073709551616 ∧
      rangesOverlap a.address a.size ptr size = true) (b : Nat) :
    (group.foldl mergeChunks ⟨ptr, size⟩).covers b ↔
      (ptr ≤ b ∧ b < ptr + size) ∨ ∃ a ∈ group, a.covers b := by
  have hn : (ChunkEntry.mk ptr size).NoWrap := hnew
  constructor
  · intro hb
    have hh := hull_foldl (fun a => a ∈ group) ⟨ptr, size⟩ hn group ⟨ptr, size⟩
      (hull_self _ _ hn) (fun a ha => ⟨(hgroup a ha).1, ha, (hgroup a ha).2⟩)
    rcases hh.2.2.2.1 b hb with h | ⟨a, ha, hab⟩
    · exact Or.inl h
    · exact Or.inr ⟨a, ha, hab⟩
  · intro hb
    obtain ⟨⟨hlo, _, hhi, _⟩, _⟩ := boundingUnion_foldl group [⟨ptr, size⟩] ⟨ptr, size⟩ hn
      (fun a ha => (hgroup a ha).1) (boundingUnion_self _)
    rcases hb with hb | ⟨a, ha, hab⟩
    · have h1 := hlo ⟨ptr, size⟩ (by simp)
      have h2 := hhi ⟨ptr, size⟩ (by simp)
      simp only at h1 h2
      unfold ChunkEntry.covers
      omega
    · have h1 := hlo a (by simp [ha])
      have h2 := hhi a (by simp [ha])
      unfold ChunkEntry.covers at hab ⊢
      omega

/-- C37. Coverage is preserved exactly by range registration: for every chunk list and every
new range, none with address wraparound, a byte address is covered by a chunk after
`registerMemoryToContainer` if and only if it was covered by a chunk before or lies in
`[ptr, ptr + size)`: no previously tracked byte is lost and no byte outside the old
coverage and the new range is added. -/
theorem registerMemoryToContainer_coverage (ptr size : Nat) (memory : List ChunkEntry)
    (hnew : ptr + size < 18446744073709551616)
    (hmem : ∀ c ∈ memory, c.address + c.size < 18446744073709551616) (b : Nat) :
    (∃ c ∈ registerMemoryToContainer ptr size memory, c.covers b) ↔
      (∃ c ∈ memory, c.covers b) ∨ (ptr ≤ b ∧ b < ptr + size) := by
  unfold registerMemoryToContainer
  simp only
  split_ifs with h0 h1
  · constructor
    · rintro ⟨c, hc, hcb⟩
      rcases List.mem_append.mp hc with hc | hc
      · exact Or.inl ⟨c, hc, hcb⟩
      · rw [List.mem_singleton] at hc
        subst hc
        exact Or.inr hcb
    · rintro (⟨c, hc, hcb⟩ | hb)
      · exact ⟨c, List.mem_append_left _ hc, hcb⟩
      · exact ⟨⟨ptr, size⟩, by simp, hb⟩
  · obtain ⟨l1, a, l2, hm, ha, _, _, hres⟩ := mergeIntoFirstOverlapping_eq ptr size memory h1
    have hamem : a ∈ memory := by rw [hm]; simp
    have hcov := merged_covers ptr size [a] hnew
      (fun x hx => by
        rw [List.mem_singleton] at hx
        subst hx
        exact ⟨hmem _ hamem, ha⟩) b
    simp only [List.foldl_cons, List.foldl_nil, List.mem_singleton, exists_eq_left] at hcov
    rw [hres]
    constructor
    · rintro ⟨c, hc, hcb⟩
      rcases List.mem_append.mp hc with hc | hc
      · exact Or.inl ⟨c, by rw [hm]; exact List.mem_append_left _ hc, hcb⟩
      · rcases List.mem_cons.mp hc with hc | hc
        · subst hc
          rcases hcov.mp hcb with h | h
          · exact Or.inr h
          · exact Or.inl ⟨a, hamem, h⟩
        · exact Or.inl ⟨c, by rw [hm]; simp [hc], hcb⟩
    · rintro (⟨c, hc, hcb⟩ | hb)
      · rw [hm] at hc
        rcases List.mem_append.mp hc with hc | hc
        · exact ⟨c, List.mem_append_left _ hc, hcb⟩
        · rcases List.mem_cons.mp hc with hc | hc
          · subst hc
            exact ⟨_, by simp, hcov.mpr (Or.inr hcb)⟩
          · exact ⟨c, by simp [hc], hcb⟩
      · exact ⟨_, by simp, hcov.mpr (Or.inl hb)⟩
  · rw [mergeLoop_eq]
    simp only [List.nil_append]
    have hcov := merged_covers ptr size
      (memory.filter (fun c => rangesOverlap c.address c.size ptr size)) hnew
      (fun x hx => ⟨hmem x (List.mem_filter.mp hx).1, (List.mem_filter.mp hx).2⟩) b
    constructor
    · rintro ⟨c, hc, hcb⟩
      rcases List.mem_append.mp hc with hc | hc
      · exact Or.inl ⟨c, (List.mem_filter.mp hc).1, hcb⟩
      · rw [List.mem_singleton] at hc
        subst hc
        rcases hcov.mp hcb with h | ⟨a, ha, hab⟩
        · exact Or.inr h
        · exact Or.inl ⟨a, (List.mem_filter.mp ha).1, hab⟩
    · rintro (⟨c, hc, hcb⟩ | hb)
      · by_cases hov : rangesOverlap c.address c.size ptr size = true
        · exact ⟨_, by simp, hcov.mpr (Or.inr ⟨c, List.mem_filter.mpr ⟨hc, hov⟩, hcb⟩)⟩
        · exact ⟨c, List.mem_append_left _ (List.mem_filter.mpr ⟨hc, by simpa using hov⟩),
            hcb⟩
      · exact ⟨_, by simp, hcov.mpr (Or.inl hb)⟩

/-- Witness of `registerMemoryToContainer_coverage`: the range `[5, 25)` registered over the
three chunks of `sampleChunks`, at the byte 15, which lay between two chunks. -/
theorem registerMemoryToContainer_coverage_witness :
    5 + 20 < 18446744073709551616 ∧
      (∀ c ∈ sampleChunks, c.address + c.size < 18446744073709551616) ∧
      ((∃ c ∈ registerMemoryToContainer 5 20 sampleChunks, c.covers 15) ↔
        (∃ c ∈ sampleChunks, c.covers 15) ∨ (5 ≤ 15 ∧ 15 < 5 + 20)) :=
  ⟨by decide, by decide,
    registerMemoryToContainer_coverage 5 20 sampleChunks (by decide) (by decide) 15⟩

end Cal.Icd.LevelZero.IcdL0CommandList

namespace Cal.Rpc.CommandsChannel

/-- C31 (counterexample). A 8192-byte segment, smaller than `DefaultLayout::minShmemSize`,
with the supplied layout `compactLayout`: `isInBounds` accepts the layout, and
`partition(shmem, 8192, compactLayout, false)` returns what `isValid()` answers for the
layout, which is true when `isValid()` accepts it; the overload compares the segment size
with no minimum. -/
theorem partition_supplied_small_counterexample :
    8192 < DefaultLayout.minShmemSize ∧ isInBounds compactLayout 8192 = true ∧
      (partitionWithLayout (fun _ => true) sampleChannel (fun _ => 0) 8192 8192 compactLayout
        false false false).1 = true ∧
      ∀ isValid : CommandsChannelLayout → Bool,
        (partitionWithLayout isValid sampleChannel (fun _ => 0) 8192 8192 compactLayout
          false false false).1 = isValid compactLayout := by
  have hb : isInBounds compactLayout 8192 = true := by decide
  refine ⟨by decide, hb, ?_, ?_⟩
  · unfold partitionWithLayout
    rw [hb]
    rfl
  · intro isValid
    unfold partitionWithLayout
    rw [hb]
    cases isValid compactLayout <;> rfl

/-- C31 (amended). The supplied-layout `partition(shmem, size, suppliedLayout,
initializeControlBlock)` returns false, and leaves the channel and the counters unmodified,
for every segment size smaller than the end of some region of the supplied layout; in
particular, for the layout that the default `partition()` computes for a segment of at
least `DefaultLayout::minShmemSize` bytes, it returns false for every segment size smaller
than `DefaultLayout::minShmemSize`. -/
theorem partition_supplied_rejects_short_segment (isValid : CommandsChannelLayout → Bool)
    (ch : CommandsChannel) (mem : Nat → Int) (shmem segmentSize : Nat)
    (el : CommandsChannelLayout) (initializeControlBlock clientSemInit serverSemInit : Bool)
    (hshort : (∃ p ∈ regions el, segmentSize < p.2.1.stop) ∨
      ∃ producerSize, el = defaultLayout producerSize ∧
        DefaultLayout.minShmemSize ≤ producerSize ∧ producerSize < 18446744073709551616 ∧
        segmentSize < DefaultLayout.minShmemSize) :
    (partitionWithLayout isValid ch mem shmem segmentSize el initializeControlBlock
        clientSemInit serverSemInit).1 = false ∧
      (partitionWithLayout isValid ch mem shmem segmentSize el initializeControlBlock
        clientSemInit serverSemInit).2.1 = ch ∧
      (partitionWithLayout isValid ch mem shmem segmentSize el initializeControlBlock
        clientSemInit serverSemInit).2.2 = mem := by
  have hregion : ∃ p ∈ regions el, segmentSize < p.2.1.stop := by
    rcases hshort with h | ⟨producerSize, hel, hmin, h64, hsmall⟩
    · exact h
    · refine ⟨("heap", ⟨16384, producerSize⟩, 4096), ?_, ?_⟩
      · rw [hel, regions_defaultLayout, toU64_toInt64 _ h64]
        simp
      · have h1 : 20480 ≤ producerSize := hmin
        have h2 : segmentSize < 20480 := hsmall
        simp only
        omega
  have hfalse : isInBounds el segmentSize = false := by
    cases hacc : isInBounds el segmentSize
    · rfl
    · exfalso
      obtain ⟨p, hp, hlt⟩ := hregion
      obtain ⟨i, hi⟩ := List.getElem?_of_mem hp
      have := (isInBounds_checks el segmentSize hacc i p hi).1
      omega
  unfold partitionWithLayout
  rw [hfalse, Bool.and_false, if_pos rfl]
  exact ⟨rfl, rfl, rfl⟩

/-- Witness of `partition_supplied_rejects_short_segment`: the default layout of a five-page
segment, supplied with a segment of four pages. -/
theorem partition_supplied_rejects_short_segment_witness :
    ((∃ p ∈ regions (defaultLayout 20480), 16384 < p.2.1.stop) ∨
        ∃ producerSize, defaultLayout 20480 = defaultLayout producerSize ∧
          DefaultLayout.minShmemSize ≤ producerSize ∧ producerSize < 18446744073709551616 ∧
          16384 < DefaultLayout.minShmemSize) ∧
      ((partitionWithLayout (fun _ => true) sampleChannel (fun _ => 0) 8192 16384
          (defaultLayout 20480) true true true).1 = false ∧
        (partitionWithLayout (fun _ => true) sampleChannel (fun _ => 0) 8192 16384
          (defaultLayout 20480) true true true).2.1 = sampleChannel ∧
        (partitionWithLayout (fun _ => true) sampleChannel (fun _ => 0) 8192 16384
          (defaultLayout 20480) true true true).2.2 = fun _ => 0) :=
  ⟨Or.inr ⟨20480, rfl, by decide, by decide, by decide⟩,
    partition_supplied_rejects_short_segment (fun _ => true) sampleChannel (fun _ => 0) 8192
      16384 (defaultLayout 20480) true true true
      (Or.inr ⟨20480, rfl, by decide, by decide, by decide⟩)⟩

end Cal.Rpc.CommandsChannel

namespace Cal.Rpc.ChannelClient

theorem wait_eq_recordWait (env : Surroundings) (completionStamp messageFlags fuel : Nat)
    (c : ChannelClient) :
    wait env completionStamp messageFlags fuel c =
      recordWait completionStamp messageFlags
        (if messageFlags &&& signalSemaphoreOnCompletion ≠ 0 then
          semaphoreWait env completionStamp fuel c
        else
          activeWait env completionStamp fuel c) := by
  unfold wait recordWait
  rfl

end Cal.Rpc.ChannelClient

namespace Cal.Rpc.ChannelClient

theorem waitOnClientSemaphore_forever (env : Surroundings)
    (hsem : ∀ n sh, (env.act n sh).semClient = sh.semClient) :
    ∀ (fuel : Nat) (c : ChannelClient), c.shared.semClient = 0 →
      waitOnClientSemaphore env fuel c = Outcome.waiting := by
  intro fuel
  induction fuel with
  | zero =>
    intro c _
    rfl
  | succ k ih =>
    intro c hc
    unfold waitOnClientSemaphore
    rw [if_pos hc]
    apply ih
    unfold yield
    simp only
    rw [hsem, hc]

theorem submitCommand_blocked (env : Surroundings) (command f fuel s : Nat) (c : ChannelClient)
    (hsem : ∀ n sh, (env.act n sh).semClient = sh.semClient)
    (hf : f &&& signalSemaphoreOnCompletion ≠ 0)
    (hfree : c.allocateStamp.1 = some s)
    (hfull : ((c.allocateStamp.2.markNotReady s).pushRing
      (c.allocateStamp.2.entryFor command s)).1 = false)
    (hpending : c.asyncTagsStorage ≠ [])
    (hcount : c.shared.semClient = 0) :
    submitCommand env command f fuel c = Outcome.waiting := by
  obtain ⟨last, hlast⟩ : ∃ last, c.asyncTagsStorage.getLast? = some last := by
    cases hl : c.asyncTagsStorage.getLast? with
    | none => exact absurd (List.getLast?_eq_none_iff.mp hl) hpending
    | some last => exact ⟨last, rfl⟩
  have hblock : waitForLastTag env f fuel
      ((c.allocateStamp.2.markNotReady s).pushRing
        (c.allocateStamp.2.entryFor command s)).2 = Outcome.waiting := by
    unfold waitForLastTag
    have hl2 : ((c.allocateStamp.2.markNotReady s).pushRing
        (c.allocateStamp.2.entryFor command s)).2.asyncTagsStorage.getLast? = some last := hlast
    have hc2 : ((c.allocateStamp.2.markNotReady s).pushRing
        (c.allocateStamp.2.entryFor command s)).2.shared.semClient = 0 := hcount
    rw [hl2]
    simp only
    rw [wait_eq_recordWait, if_pos hf]
    unfold semaphoreWait
    rw [waitOnClientSemaphore_forever env hsem fuel _ hc2]
    rfl
  unfold submitCommand
  rcases ha : c.allocateStamp with ⟨r, c1⟩
  rw [ha] at hfree hfull hblock
  simp only at hfree hfull hblock
  subst hfree
  simp only
  unfold publishCommand
  rcases hp : (c1.markNotReady s).pushRing (c1.entryFor command s) with ⟨b, c2⟩
  rw [hp] at hfull hblock
  simp only at hfull hblock
  subst hfull
  simp only
  rw [hblock]

/-- C35, the divergence.  `pendingClient` has one asynchronous command pending, submitted with
no flag, whose entry fills the ring.  A command that carries `signalSemaphoreOnCompletion` is
then submitted while the service takes the pending command off the ring and completes it as
its flags ask, with no post on the client semaphore: `submitCommand` finds the ring full and
waits for the pending stamp on the client semaphore, the discipline of the flags of the new
command, so it never returns, whatever the number of scheduling points granted, although the
pending stamp is ready after the first of them.  With the flags of the pending command the
same call returns the stamp at 69636. -/
theorem submitCommand_waits_with_own_flags :
    pendingClient.asyncTagsStorage = [69632] ∧
      pendingClient.log =
        [Event.allocate (some 69632), Event.push ⟨16384, 4096⟩ true] ∧
      (∀ fuel, submitCommand (promptService 65536) 82944 signalSemaphoreOnCompletion fuel
        pendingClient = Outcome.waiting) ∧
      (pendingClient.yield (promptService 65536)).shared.stamps 69632 = CompletionStampReady ∧
      (pendingClient.yield (promptService 65536)).shared.semClient = 0 ∧
      (submitCommand (promptService 65536) 82944 0 3 pendingClient).value? =
        some (some 69636) ∧
      ((submitCommand (promptService 65536) 82944 0 3 pendingClient).after?.map
        (fun c => waits c.log)) = some [(69632, 0, true)] := by
  refine ⟨by decide, by decide, ?_, by decide, by decide, by decide, by decide⟩
  intro fuel
  apply submitCommand_blocked (promptService 65536) 82944 signalSemaphoreOnCompletion fuel 69636
  · intro n sh
    unfold promptService
    simp only
    split_ifs <;> rfl
  · decide
  · decide
  · decide
  · decide
  · decide

/-- C36, the divergence.  `stoppedPendingClient` has a free stamp, a full ring, one command
pending on a stamp that is not ready, and the stop flag raised.  `submitCommand` allocates
the stamp at 69636 (slot 1 of the pool), the ring refuses the entry, the wait on the pending
stamp fails, and the call returns null: no `completionStamps.free` has been made, slot 1 is
still claimed although the stamp is in no pending list, and a further allocation finds no
stamp.  The ring holds the entry of the pending command only. -/
theorem submitCommand_leaks_stamp :
    stoppedPendingClient.completionStamps.used = [0] ∧
      (submitCommand idle 82944 0 3 stoppedPendingClient).value? = some none ∧
      ((submitCommand idle 82944 0 3 stoppedPendingClient).after?.map
        (fun c => c.log.drop stoppedPendingClient.log.length)) =
        some [Event.allocate (some 69636), Event.push ⟨17408, 4100⟩ false,
          Event.wait 69632 0 false] ∧
      ((submitCommand idle 82944 0 3 stoppedPendingClient).after?.map
        (fun c => frees c.log)) = some [] ∧
      ((submitCommand idle 82944 0 3 stoppedPendingClient).after?.map
        (fun c => (c.completionStamps.used, c.completionStamps.slotOf 69636))) =
        some ([1, 0], 1) ∧
      ((submitCommand idle 82944 0 3 stoppedPendingClient).after?.map
        (fun c => c.asyncTagsStorage)) = some [69632] ∧
      ((submitCommand idle 82944 0 3 stoppedPendingClient).after?.map
        (fun c => c.completionStamps.allocate.1)) = some none ∧
      ((submitCommand idle 82944 0 3 stoppedPendingClient).after?.map
        (fun c => c.shared.ring.pending)) = some [⟨16384, 4096⟩] := by
  decide

end Cal.Rpc.ChannelClient

namespace Cal.Icd.LevelZero.Logic.HostptrCopiesReader

open Cal.Rpc Cal.Rpc.TypedRing

theorem acquireHostptrCopiesUpdate_empty (c : ChannelClient)
    (he : c.shared.hostptrCopiesRing.peekEmpty = true) :
    c.acquireHostptrCopiesUpdate = (⟨0, 0⟩, c) := by
  unfold ChannelClient.acquireHostptrCopiesUpdate
  rw [if_pos he]

theorem acquireHostptrCopiesUpdate_head (c : ChannelClient)
    (he : c.shared.hostptrCopiesRing.peekEmpty = false) :
    c.acquireHostptrCopiesUpdate =
      (c.shared.hostptrCopiesRing.peekHead,
        { c with shared := { c.shared with
          hostptrCopiesRing := c.shared.hostptrCopiesRing.pop.2 } }) := by
  unfold ChannelClient.acquireHostptrCopiesUpdate
  rw [if_neg (by simp [he])]

theorem collectHostptrCopies_spec : ∀ (l : List MemChunk) (fuel : Nat) (c : ChannelClient)
    (acc : List MemChunk),
    c.shared.hostptrCopiesRing.InRange → c.shared.hostptrCopiesRing.pending = l →
    l.length < fuel →
    ∃ c', collectHostptrCopies fuel c acc =
        some (acc ++ l.takeWhile (fun m => decide (m.size ≠ 0)), c') ∧
      c'.shared.hostptrCopiesRing.InRange ∧
      c'.shared.hostptrCopiesRing.pending =
        (l.dropWhile (fun m => decide (m.size ≠ 0))).drop 1 := by
  intro l
  induction l with
  | nil =>
    intro fuel c acc hr hp hf
    obtain ⟨k, rfl⟩ : ∃ k, fuel = k + 1 := ⟨fuel - 1, by omega⟩
    refine ⟨c, ?_, hr, by simpa using hp⟩
    unfold collectHostptrCopies
    rw [acquireHostptrCopiesUpdate_empty c (empty_of_pending _ hr hp)]
    simp
  | cons x xs ih =>
    intro fuel c acc hr hp hf
    obtain ⟨k, rfl⟩ : ∃ k, fuel = k + 1 := ⟨fuel - 1, by omega⟩
    have hne : c.shared.hostptrCopiesRing.peekEmpty = false := by
      cases he : c.shared.hostptrCopiesRing.peekEmpty with
      | false => rfl
      | true =>
        rw [pending_of_empty _ he] at hp
        simp at hp
    obtain ⟨_, hr1, hp1⟩ := pop_of_not_empty _ hr hne
    rw [hp] at hp1
    injection hp1 with hx hxs
    unfold collectHostptrCopies
    rw [acquireHostptrCopiesUpdate_head c hne]
    simp only
    rw [← hx]
    by_cases hz : x.size = 0
    · rw [if_pos hz]
      refine ⟨{ c with shared := { c.shared with
        hostptrCopiesRing := c.shared.hostptrCopiesRing.pop.2 } }, ?_, hr1, ?_⟩
      · simp [List.takeWhile, hz]
      · simp [List.dropWhile, hz, hxs]
    · rw [if_neg hz]
      obtain ⟨c', h1, h2, h3⟩ := ih k
        { c with shared := { c.shared with
          hostptrCopiesRing := c.shared.hostptrCopiesRing.pop.2 } } (acc ++ [x]) hr1
        hxs.symm (by simp only [List.length_cons] at hf; omega)
      refine ⟨c', ?_, h2, ?_⟩
      · rw [h1]
        simp [List.takeWhile, hz]
      · rw [h3]
        simp [List.dropWhile, hz]

/-- C33, the claim refuted: with the chunks `⟨1000, 16⟩`, `⟨2000, 0⟩` and `⟨3000, 32⟩` pending
in the host-pointer copies ring, `getHostptrCopiesToUpdate` returns the first chunk only: the
chunk of zero bytes ends the loop and is dropped, and the third chunk stays in the ring,
which is not empty. -/
theorem getHostptrCopiesToUpdate_counterexample :
    clientWithEmptyCopy.shared.hostptrCopiesRing.pending =
        [⟨1000, 16⟩, ⟨2000, 0⟩, ⟨3000, 32⟩] ∧
      (getHostptrCopiesToUpdate 4 clientWithEmptyCopy).map (fun p => p.1) =
        some [⟨1000, 16⟩] ∧
      (getHostptrCopiesToUpdate 4 clientWithEmptyCopy).map
        (fun p => p.2.shared.hostptrCopiesRing.pending) = some [⟨3000, 32⟩] ∧
      (getHostptrCopiesToUpdate 4 clientWithEmptyCopy).map
        (fun p => p.2.shared.hostptrCopiesRing.peekEmpty) = some false := by
  decide

/-- C33 as amended. On a host-pointer copies ring whose head and tail are slot indices and
with no concurrent producer, `getHostptrCopiesToUpdate` terminates for every content of the
ring, within one iteration more than there are pending entries, and returns in FIFO order the
pending entries that precede the first one whose byte count is zero; that entry is taken off
the ring and dropped, and the entries after it stay in the ring.  When no pending entry has a
zero byte count, it returns every pending entry and leaves the ring empty. -/
theorem getHostptrCopiesToUpdate_drains (channel : ChannelClient) (fuel : Nat)
    (hr : channel.shared.hostptrCopiesRing.InRange)
    (hfuel : channel.shared.hostptrCopiesRing.pending.length < fuel) :
    ∃ channel', getHostptrCopiesToUpdate fuel channel =
        some (channel.shared.hostptrCopiesRing.pending.takeWhile
          (fun m => decide (m.size ≠ 0)), channel') ∧
      channel'.shared.hostptrCopiesRing.pending =
        (channel.shared.hostptrCopiesRing.pending.dropWhile
          (fun m => decide (m.size ≠ 0))).drop 1 ∧
      ((∀ m ∈ channel.shared.hostptrCopiesRing.pending, m.size ≠ 0) →
        getHostptrCopiesToUpdate fuel channel =
            some (channel.shared.hostptrCopiesRing.pending, channel') ∧
          channel'.shared.hostptrCopiesRing.peekEmpty = true) := by
  obtain ⟨c', h1, h2, h3⟩ := collectHostptrCopies_spec _ fuel channel [] hr rfl hfuel
  rw [List.nil_append] at h1
  refine ⟨c', h1, h3, ?_⟩
  intro hnz
  have hall : ∀ m ∈ channel.shared.hostptrCopiesRing.pending,
      (fun m : MemChunk => decide (m.size ≠ 0)) m = true := by
    intro m hm
    simpa using hnz m hm
  have ht := List.takeWhile_eq_self_iff.mpr hall
  have hd := List.dropWhile_eq_nil_iff.mpr hall
  rw [ht] at h1
  rw [hd] at h3
  exact ⟨h1, empty_of_pending _ h2 (by simpa using h3)⟩

/-- Witness of `getHostptrCopiesToUpdate_drains`: the ring of `sampleClientWithCopies`, which
holds the two chunks of `sampleCopies`, with three iterations granted. -/
theorem getHostptrCopiesToUpdate_drains_witness :
    ChannelServer.sampleClientWithCopies.shared.hostptrCopiesRing.InRange ∧
      ChannelServer.sampleClientWithCopies.shared.hostptrCopiesRing.pending.length < 3 ∧
      ∃ channel', getHostptrCopiesToUpdate 3 ChannelServer.sampleClientWithCopies =
          some (ChannelServer.sampleClientWithCopies.shared.hostptrCopiesRing.pending.takeWhile
            (fun m => decide (m.size ≠ 0)), channel') ∧
        channel'.shared.hostptrCopiesRing.pending =
          (ChannelServer.sampleClientWithCopies.shared.hostptrCopiesRing.pending.dropWhile
            (fun m => decide (m.size ≠ 0))).drop 1 ∧
        ((∀ m ∈ ChannelServer.sampleClientWithCopies.shared.hostptrCopiesRing.pending,
            m.size ≠ 0) →
          getHostptrCopiesToUpdate 3 ChannelServer.sampleClientWithCopies =
              some (ChannelServer.sampleClientWithCopies.shared.hostptrCopiesRing.pending,
                channel') ∧
            channel'.shared.hostptrCopiesRing.peekEmpty = true) :=
  ⟨by decide, by decide,
    getHostptrCopiesToUpdate_drains ChannelServer.sampleClientWithCopies 3 (by decide)
      (by decide)⟩

end Cal.Icd.LevelZero.Logic.HostptrCopiesReader

namespace Cal.Rpc.ChannelServer

open Cal.Utils

theorem wait_takes (env : Surroundings) (yieldThread : Bool) (fuel : Nat)
    (s : ChannelServer) (p : CommandPacket) (s' : ChannelServer)
    (hm : s.serviceSynchronizationMethod = ServiceSynchronizationMethod.activePolling ∨
      s.serviceSynchronizationMethod = ServiceSynchronizationMethod.semaphores)
    (h : wait env yieldThread fuel s = Outcome.returned p s') :
    (p = ⟨0, 0, 0⟩ ∧ s'.shared.stopped = true) ∨
      ∃ s1 : ChannelServer, s1.shared.ring.peekEmpty = false ∧ p = s1.takeRequest.1 ∧
        s' = s1.takeRequest.2 ∧ s1.shmem = s.shmem ∧ s1.heapEnd = s.heapEnd := by
  rcases hm with hm | hm
  · rw [wait_of_activePolling env yieldThread fuel s hm] at h
    exact (activeWait_returned env yieldThread fuel s p s' h).2
  · rw [wait_of_semaphores env yieldThread fuel s hm] at h
    exact (semaphoreWait_returned env fuel s p s' h).2

/-- C39, the claim refuted: the ring of `strayServer` holds an entry with message offset 40960
while the heap ends at 20480, the size of the segment mapped at 131072.  `wait` consumes the
entry and returns a packet whose command, at 172032, lies past the end of the segment, and
whose `commandMaxSize` is 20480 - 40960 converted to `size_t`, 18446744073709531136, far more
than the segment size. -/
theorem wait_packet_counterexample :
    strayServer.shmem = 131072 ∧ strayServer.heapEnd = 20480 ∧
      strayServer.shared.ring.pending = [⟨40960, 4096⟩] ∧
      (wait ChannelClient.idle false 1 strayServer).value? =
        some ⟨172032, 18446744073709531136, 135168⟩ ∧
      ((wait ChannelClient.idle false 1 strayServer).after?.map (fun s => s.log)) =
        some [ServerEvent.pop ⟨40960, 4096⟩] ∧
      ¬ (172032 + 18446744073709531136 ≤ 131072 + 20480) ∧
      ¬ (18446744073709531136 ≤ 20480) ∧ ¬ (172032 < 131072 + 20480) := by
  decide

/-- C39 as amended. For every ring entry consumed by `ChannelServer::wait`, in either wait
mode, the returned packet has `command` = segment base + `messageOffset` and
`completionStamp` = segment base + `completionStampOffset`, computed in `uintptr_t`, and
`commandMaxSize` = `heapEnd - messageOffset` converted to `size_t`; the entry is not
validated.  When the message offset of the entry lies in `[0, heapEnd]`, the heap ending
within the mapped segment and the segment below address 2^64, these are the exact sum and
difference, and the region
`[command, command + commandMaxSize)` lies inside the mapped segment, with `commandMaxSize`
at most the segment size; when the stamp offset lies in `[0, segmentSize]`, `completionStamp`
is the exact sum. -/
theorem wait_packet_of_entry (env : Surroundings) (yieldThread : Bool) (fuel : Nat)
    (s : ChannelServer) (p : CommandPacket) (s' : ChannelServer) (segmentSize : Nat)
    (hm : s.serviceSynchronizationMethod = ServiceSynchronizationMethod.activePolling ∨
      s.serviceSynchronizationMethod = ServiceSynchronizationMethod.semaphores)
    (hheap : 0 ≤ s.heapEnd ∧ s.heapEnd ≤ (segmentSize : Int))
    (hseg : s.shmem + segmentSize < 18446744073709551616)
    (h : wait env yieldThread fuel s = Outcome.returned p s') :
    (p = ⟨0, 0, 0⟩ ∧ s'.shared.stopped = true) ∨
      ∃ (s1 : ChannelServer) (entry : RingEntry),
        s1.shared.ring.peekEmpty = false ∧ entry = s1.shared.ring.peekHead ∧
        s'.shared.ring = s1.shared.ring.pop.2 ∧ s'.log = s1.log ++ [ServerEvent.pop entry] ∧
        p.command = moveByBytes s.shmem entry.messageOffset ∧
        p.completionStamp = moveByBytes s.shmem entry.completionStampOffset ∧
        p.commandMaxSize = toU64 (toInt64 (s.heapEnd - entry.messageOffset)) ∧
        (0 ≤ entry.messageOffset ∧ entry.messageOffset ≤ s.heapEnd →
          (p.command : Int) = (s.shmem : Int) + entry.messageOffset ∧
            (p.commandMaxSize : Int) = s.heapEnd - entry.messageOffset ∧
            s.shmem ≤ p.command ∧ p.command + p.commandMaxSize ≤ s.shmem + segmentSize ∧
            p.commandMaxSize ≤ segmentSize) ∧
        (0 ≤ entry.completionStampOffset ∧ entry.completionStampOffset ≤ (segmentSize : Int) →
          (p.completionStamp : Int) = (s.shmem : Int) + entry.completionStampOffset) := by
  rcases wait_takes env yieldThread fuel s p s' hm h with hstop | ⟨s1, hne, hp, hs', hsh, hhe⟩
  · exact Or.inl hstop
  · refine Or.inr ⟨s1, s1.shared.ring.peekHead, hne, rfl, ?_, ?_, ?_, ?_, ?_, ?_, ?_⟩
    · rw [hs']
      rfl
    · rw [hs']
      rfl
    · rw [hp, ← hsh]
      rfl
    · rw [hp, ← hsh]
      rfl
    · rw [hp, ← hhe]
      rfl
    · intro hoff
      have hc : p.command = moveByBytes s.shmem s1.shared.ring.peekHead.messageOffset := by
        rw [hp, ← hsh]
        rfl
      have hsz : p.commandMaxSize =
          toU64 (toInt64 (s.heapEnd - s1.shared.ring.peekHead.messageOffset)) := by
        rw [hp, ← hhe]
        rfl
      rw [hc, hsz]
      unfold moveByBytes toU64 toInt64
      omega
    · intro hoff
      have hc : p.completionStamp =
          moveByBytes s.shmem s1.shared.ring.peekHead.completionStampOffset := by
        rw [hp, ← hsh]
        rfl
      rw [hc]
      unfold moveByBytes toU64
      omega

/-- Witness of `wait_packet_of_entry`: `busyServer`, whose segment of 20480 bytes is mapped at
131072, takes the entry of the command at offset 16448. -/
theorem wait_packet_of_entry_witness :
    (busyServer.serviceSynchronizationMethod = ServiceSynchronizationMethod.activePolling ∨
        busyServer.serviceSynchronizationMethod = ServiceSynchronizationMethod.semaphores) ∧
      (0 ≤ busyServer.heapEnd ∧ busyServer.heapEnd ≤ ((20480 : Nat) : Int)) ∧
      busyServer.shmem + 20480 < 18446744073709551616 ∧
      wait ChannelClient.idle false 1 busyServer =
        Outcome.returned ⟨147520, 4032, 135168⟩ busyServerAfterWait ∧
      (((⟨147520, 4032, 135168⟩ : CommandPacket) = ⟨0, 0, 0⟩ ∧
          busyServerAfterWait.shared.stopped = true) ∨
        ∃ (s1 : ChannelServer) (entry : RingEntry),
          s1.shared.ring.peekEmpty = false ∧ entry = s1.shared.ring.peekHead ∧
          busyServerAfterWait.shared.ring = s1.shared.ring.pop.2 ∧
          busyServerAfterWait.log = s1.log ++ [ServerEvent.pop entry] ∧
          (⟨147520, 4032, 135168⟩ : CommandPacket).command =
            moveByBytes busyServer.shmem entry.messageOffset ∧
          (⟨147520, 4032, 135168⟩ : CommandPacket).completionStamp =
            moveByBytes busyServer.shmem entry.completionStampOffset ∧
          (⟨147520, 4032, 135168⟩ : CommandPacket).commandMaxSize =
            toU64 (toInt64 (busyServer.heapEnd - entry.messageOffset)) ∧
          (0 ≤ entry.messageOffset ∧ entry.messageOffset ≤ busyServer.heapEnd →
            (((⟨147520, 4032, 135168⟩ : CommandPacket).command : Nat) : Int) =
                (busyServer.shmem : Int) + entry.messageOffset ∧
              (((⟨147520, 4032, 135168⟩ : CommandPacket).commandMaxSize : Nat) : Int) =
                busyServer.heapEnd - entry.messageOffset ∧
              busyServer.shmem ≤ (⟨147520, 4032, 135168⟩ : CommandPacket).command ∧
              (⟨147520, 4032, 135168⟩ : CommandPacket).command +
                  (⟨147520, 4032, 135168⟩ : CommandPacket).commandMaxSize ≤
                busyServer.shmem + 20480 ∧
              (⟨147520, 4032, 135168⟩ : CommandPacket).commandMaxSize ≤ 20480) ∧
          (0 ≤ entry.completionStampOffset ∧
              entry.completionStampOffset ≤ ((20480 : Nat) : Int) →
            (((⟨147520, 4032, 135168⟩ : CommandPacket).completionStamp : Nat) : Int) =
              (busyServer.shmem : Int) + entry.completionStampOffset)) :=
  ⟨Or.inl rfl, by decide, by decide, rfl,
    wait_packet_of_entry ChannelClient.idle false 1 busyServer ⟨147520, 4032, 135168⟩
      busyServerAfterWait 20480 (Or.inl rfl) (by decide) (by decide) rfl⟩

end Cal.Rpc.ChannelServer

namespace Cal.Rpc.ChannelClient

theorem fifo_all_ready (pending : List Nat) (sh : Shared) (last : Nat)
    (hfifo : FifoCompletion pending sh) (hlast : pending.getLast? = some last)
    (hready : sh.stamps last ≠ CompletionStampNotReady) :
    ∀ u ∈ pending, sh.stamps u = CompletionStampReady := by
  intro u hu
  have hsplit : pending = pending.dropLast ++ last :: [] :=
    (List.dropLast_append_getLast? last (by rw [hlast]; rfl)).symm
  have := hfifo pending.dropLast last [] hsplit hready u
  rw [← hsplit] at this
  exact this hu

theorem releaseAsyncStorage_frame (c : ChannelClient) :
    c.releaseAsyncStorage.shared = c.shared ∧
      c.releaseAsyncStorage.log = c.log ++ c.asyncTagsStorage.map Event.free := by
  rw [releaseAsyncStorage_eq]
  exact ⟨rfl, rfl⟩

theorem fifo_of_all_ready (pending : List Nat) (sh : Shared)
    (h : ∀ u ∈ pending, sh.stamps u = CompletionStampReady) : FifoCompletion pending sh := by
  intro l1 t l2 hsplit _ u hu
  apply h
  rw [hsplit]
  rcases List.mem_append.mp hu with hm | hm
  · exact List.mem_append_left _ hm
  · rw [List.mem_singleton] at hm
    rw [hm]
    simp

/-- C32. No in-flight stamp is reclaimed under FIFO completion.  A successful
`waitForLastTag` and a successful `callSynchronous` end with the release of stamps, made
right after the wait that succeeded, in the shared state `c0.shared` that the wait has left,
which the release does not change: `waitForLastTag` frees the pending stamps through
`releaseAsyncStorage`, and `callSynchronous` frees the stamp of its own command (`own`) and
then the pending stamps through `releaseAsyncStorage`.  `pending` lists, in submission
order, the stamps of the commands in flight when the wait succeeds.  If the service sets the
stamps ready in submission order, every stamp freed is `CompletionStampReady` at the moment
it is freed. -/
theorem released_stamps_ready (env : Surroundings) (command f fuel : Nat)
    (c c' : ChannelClient) (pending : List Nat)
    (hrun : (waitForLastTag env f fuel c = Outcome.returned true c' ∧
        pending = c.asyncTagsStorage) ∨
      ∃ s c1, submitCommand env command f fuel c = Outcome.returned (some s) c1 ∧
        callSynchronous env command f fuel c = Outcome.returned true c' ∧
        pending = c1.asyncTagsStorage ++ [s])
    (hfifo : FifoCompletion pending c'.shared) :
    ∃ (c0 : ChannelClient) (w : Nat) (own : List Nat),
      c0.log.getLast? = some (Event.wait w f true) ∧ c'.shared = c0.shared ∧
      pending = c0.asyncTagsStorage ++ own ∧
      c'.log = c0.log ++ (own ++ c0.asyncTagsStorage).map Event.free ∧
      ∀ t ∈ own ++ c0.asyncTagsStorage, c0.shared.stamps t = CompletionStampReady := by
  rcases hrun with ⟨hw, hp⟩ | ⟨s, c1, hsub, hcall, hp⟩
  · obtain ⟨last, sh, n, hlast, _, hcase⟩ := waitForLastTag_returned env f fuel c true c' hw
    rcases hcase with ⟨hf, _⟩ | ⟨_, hready, hc'⟩
    · simp at hf
    · obtain ⟨e1, e2⟩ := releaseAsyncStorage_frame (c.resumed sh n (Event.wait last f true))
      rw [← hc'] at e1 e2
      refine ⟨c.resumed sh n (Event.wait last f true), last, [], ?_, e1, ?_, ?_, ?_⟩
      · simp [resumed]
      · rw [hp]
        simp [resumed]
      · rw [e2]
        rfl
      · rw [e1] at hfifo
        rw [hp] at hfifo
        exact fifo_all_ready _ _ last hfifo hlast hready
  · rcases callSynchronous_returned env command f fuel c true c' hcall with
      ⟨_, hf⟩ | ⟨s2, c2, hsub2, hrest⟩
    · simp at hf
    · rw [hsub] at hsub2
      injection hsub2 with hs hc
      injection hs with hs
      subst hs hc
      rcases hrest with ⟨_, hf, _⟩ | ⟨_, sh, n, _, _, hcase⟩
      · simp at hf
      · rcases hcase with ⟨_, hf, _⟩ | ⟨hready, _, hc'⟩
        · simp at hf
        · have hframe := (notifyService_frame env c1).1
          obtain ⟨e1, e2⟩ := releaseAsyncStorage_frame
            (((c1.notifyService env).2.resumed sh n (Event.wait s f true)).freeStamp s)
          rw [← hc'] at e1 e2
          have hasync : ((c1.notifyService env).2.resumed sh n
              (Event.wait s f true)).asyncTagsStorage = c1.asyncTagsStorage := hframe
          have hasync2 : (((c1.notifyService env).2.resumed sh n
              (Event.wait s f true)).freeStamp s).asyncTagsStorage = c1.asyncTagsStorage :=
            hframe
          have hshared : c'.shared = sh := e1
          refine ⟨(c1.notifyService env).2.resumed sh n (Event.wait s f true), s, [s], ?_,
            hshared, ?_, ?_, ?_⟩
          · simp [resumed]
          · rw [hp, hasync]
          · rw [e2, hasync2, hasync]
            simp [freeStamp]
          · rw [hasync]
            rw [hshared, hp] at hfifo
            have hall := fifo_all_ready _ sh s hfifo (by simp) hready
            intro t ht
            have hs : (((c1.notifyService env).2.resumed sh n
                (Event.wait s f true)).shared) = sh := rfl
            rw [hs]
            apply hall
            rcases List.mem_append.mp ht with h | h
            · exact List.mem_append_right _ h
            · exact List.mem_append_left _ h

end Cal.Rpc.ChannelClient

namespace Cal.Rpc.ChannelClient

/-- Witness of `released_stamps_ready`: `servedClient`, with one command pending on the stamp
at 69632, calls a command synchronously on the stamp at 69636; the service completes it, and
the call frees the stamp at 69636 and then the stamp at 69632, both ready. -/
theorem released_stamps_ready_witness :
    ((waitForLastTag (promptService 65536) 0 3 servedClient =
          Outcome.returned true servedClientAfterCall ∧
        [69632, 69636] = servedClient.asyncTagsStorage) ∨
      ∃ s c1, submitCommand (promptService 65536) 82944 0 3 servedClient =
          Outcome.returned (some s) c1 ∧
        callSynchronous (promptService 65536) 82944 0 3 servedClient =
          Outcome.returned true servedClientAfterCall ∧
        [69632, 69636] = c1.asyncTagsStorage ++ [s]) ∧
      FifoCompletion [69632, 69636] servedClientAfterCall.shared ∧
      ∃ (c0 : ChannelClient) (w : Nat) (own : List Nat),
        c0.log.getLast? = some (Event.wait w 0 true) ∧
        servedClientAfterCall.shared = c0.shared ∧
        [69632, 69636] = c0.asyncTagsStorage ++ own ∧
        servedClientAfterCall.log = c0.log ++ (own ++ c0.asyncTagsStorage).map Event.free ∧
        ∀ t ∈ own ++ c0.asyncTagsStorage, c0.shared.stamps t = CompletionStampReady :=
  ⟨Or.inr ⟨69636, servedClientAfterSubmit, rfl, rfl, rfl⟩,
    fifo_of_all_ready _ _ (by decide),
    released_stamps_ready (promptService 65536) 82944 0 3 servedClient servedClientAfterCall
      [69632, 69636] (Or.inr ⟨69636, servedClientAfterSubmit, rfl, rfl, rfl⟩)
      (fifo_of_all_ready _ _ (by decide))⟩

end Cal.Rpc.ChannelClient

namespace Cal.Rpc.TypedRing

/-- C4, the claim refuted: in a ring of 2^63 slots with head = tail = 0, the state `reset()`
leaves, head and tail are below the capacity and the ring is not full, advancing the tail
giving 1 and not head; yet `push` returns false and changes nothing, because
`static_cast<int64_t>(capacity)` is negative and so not greater than `tail + 1`. -/
theorem push_full_counterexample :
    ringHuge.head < (ringHuge.capacity : Int) ∧ ringHuge.tail < (ringHuge.capacity : Int) ∧
      0 ≤ ringHuge.head ∧ 0 ≤ ringHuge.tail ∧
      ¬ ((ringHuge.tail + 1) % (ringHuge.capacity : Int) = ringHuge.head) ∧
      (ringHuge.push 9).1 = false ∧
      (ringHuge.push 9).2.tail = ringHuge.tail ∧
      toInt64 (ringHuge.capacity : Int) = -9223372036854775808 := by
  decide

end Cal.Rpc.TypedRing

namespace Cal.Rpc.ChannelServer

/-- C24, the claim refuted: `isInBounds` accepts `wrappedCopiesLayout` for a five-page segment
and the supplied-layout `partition()` (given a layout `isValid()` lets through) builds the
host-pointer copies ring with the capacity 2^63 + 504.  On the empty ring of that capacity,
which is not full, `pushHostptrCopyToUpdate` returns false and enqueues nothing, because
`static_cast<int64_t>(capacity)` is negative. -/
theorem hostptr_copies_push_counterexample :
    CommandsChannel.isInBounds CommandsChannel.wrappedCopiesLayout 20480 = true ∧
      (CommandsChannel.partitionWithLayout (fun _ => true) CommandsChannel.sampleChannel
        (fun _ => 0) 8192 20480 CommandsChannel.wrappedCopiesLayout false true
        true).1 = true ∧
      (CommandsChannel.partitionWithLayout (fun _ => true) CommandsChannel.sampleChannel
        (fun _ => 0) 8192 20480 CommandsChannel.wrappedCopiesLayout false true
        true).2.1.hostptrCopiesRing.capacity = 9223372036854776312 ∧
      wideServer.shared.hostptrCopiesRing.capacity = 9223372036854776312 ∧
      wideServer.shared.hostptrCopiesRing.peekEmpty = true ∧
      ¬ wideServer.shared.hostptrCopiesRing.isFull ∧
      (wideServer.pushHostptrCopyToUpdate ⟨1000, 16⟩).1 = false ∧
      (wideServer.pushHostptrCopyToUpdate ⟨1000, 16⟩).2.shared.hostptrCopiesRing.peekEmpty =
        true := by
  decide

end Cal.Rpc.ChannelServer

namespace Cal.Rpc.ChannelClient

end Cal.Rpc.ChannelClient

namespace Cal.Rpc.ChannelClient

end Cal.Rpc.ChannelClient
